import Mathlib

/-!
Verification of the YASK core execution engine
(`src/kernel/lib/stencil_calc.hpp`): the nano-block decomposition
algorithm `calc_nano_block_opt`, its mask construction and dispatch,
the reference scalar paths, index normalization, and the stage /
step-condition logic.

Machine integers (`idx_t`) are modelled as `Int`; bit masks
(`bit_mask_t`, an unsigned 64-bit type) are modelled as `Nat`
(all mask values stay below `2^64`; the fold has at most 64 lanes).
Per-dimension data (`Indices`) is modelled as Lean lists, one entry
per domain dimension.
-/

namespace YaskSpec

/-! ## Floor-division helpers

`idiv_flr`, `imod_flr` (from `idiv.hpp`) and `round_up_flr`,
`round_down_flr` (from `utils.hpp`) are not part of the given sources.
They are modelled from the spec, which prescribes
"signed floor-division semantics" and rounding up/down to a multiple.
-/

section Definitions

/-- Modelled from the spec: `idiv_flr` from `idiv.hpp` (not in src):
signed integer division rounding toward negative infinity. -/
def idiv_flr (x m : Int) : Int := Int.fdiv x m

/-- Modelled from the spec: `imod_flr` from `idiv.hpp` (not in src):
remainder of floor division, `x - m * idiv_flr x m`. -/
def imod_flr (x m : Int) : Int := Int.fmod x m

/-- Modelled from the spec: `round_down_flr` from `utils.hpp` (not in src):
round `x` down to a multiple of `m` using floor division. -/
def round_down_flr (x m : Int) : Int := (idiv_flr x m) * m

/-- Modelled from the spec: `round_up_flr` from `utils.hpp` (not in src):
round `x` up to a multiple of `m` using floor division. -/
def round_up_flr (x m : Int) : Int := (idiv_flr (x + m - 1) m) * m

/-! ## Fold-point enumeration

`IdxTuple::visit_all_points` is not part of the given sources; the spec
says the mask loop enumerates "every lane `p` of the fold in the
compile-time-determined iteration order (inner-first or outer-first per
fold layout)". -/

/-- List of integers `0, 1, ..., v-1` (empty for `v ≤ 0`). -/
def int_range (v : Int) : List Int :=
  (List.range v.toNat).map (fun i : Nat => (i : Int))

/-- Inner-first enumeration of the lattice points of an N-D box:
the first dimension varies fastest. -/
def visit_pts_inner_first : List Int → List (List Int)
  | [] => [[]]
  | v :: vs =>
      (visit_pts_inner_first vs).flatMap
        (fun rest => (int_range v).map (fun i => i :: rest))

/-- Outer-first enumeration of the lattice points of an N-D box:
the last dimension varies fastest. -/
def visit_pts_outer_first : List Int → List (List Int)
  | [] => [[]]
  | v :: vs =>
      (int_range v).flatMap
        (fun i => (visit_pts_outer_first vs).map (fun rest => i :: rest))

/-- Modelled from the spec: `IdxTuple::visit_all_points` (not in src).
Visits every lattice point of the fold exactly once, first dimension
fastest when `first_inner` and last dimension fastest otherwise. -/
def visit_all_points (first_inner : Bool) (sizes : List Int) :
    List (List Int) :=
  if first_inner then visit_pts_inner_first sizes
  else visit_pts_outer_first sizes

/-- Pointwise membership bound for fold points. -/
def InBox (sizes o : List Int) : Prop :=
  List.Forall₂ (fun vi oi => 0 ≤ oi ∧ oi < vi) sizes o

/-! ## Mask construction

The loop body at `stencil_calc.hpp:619-635` shifts the mask right one
bit per visited lane and sets the top bit (`mbit`, bit `nlanes - 1`)
when the lane's point satisfies the peel/rem condition.  The C++ loop
builds `pmask` and `rmask` in one pass over the fold points; the two
accumulators are independent, so they are modelled as two folds with
the same step function. -/

/-- One iteration of the mask-building loop for one mask:
shift right, then set the top bit if the condition holds at this lane. -/
def mask_step (mbit : Nat) (cond : Int → Bool) (m : Nat) (p : Int) : Nat :=
  if cond p then (m >>> 1) ||| mbit else m >>> 1

/-- The mask produced by visiting the lane coordinates `ptsj`
(the dim-`j` coordinate of each fold point, in visit order). -/
def build_mask (nlanes : Nat) (cond : Int → Bool) (ptsj : List Int) : Nat :=
  ptsj.foldl (mask_step (1 <<< (nlanes - 1)) cond) 0


/-! ## Per-dimension decomposition (`calc_nano_block_opt`, per-dim loop)

One iteration of the `DOMAIN_VAR_LOOP` at `stencil_calc.hpp:538-705`.
-/

/-- Per-dimension inputs of the loop: the rank offset
`rank_domain_offsets[j]`, the fold length `fold_pts[j]`, the cluster
length `dims->_cluster_pts[j]`, and the global-coordinate nano-block
bounds `sb_idxs.begin[i]`, `sb_idxs.end[i]`. -/
structure DimInput where
  rofs : Int
  vpts : Int
  cpts : Int
  bgn : Int
  dend : Int
deriving Repr, DecidableEq

/-- Per-dimension loop-local state of `calc_nano_block_opt` at the end
of one iteration: boundaries, flags, masks, and this dim's contribution
to the global `do_clusters` / `do_outside_clusters` flags. -/
structure DimCalc where
  vpts : Int
  ebgn : Int
  eend : Int
  fcbgn : Int
  fcend : Int
  fvbgn : Int
  fvend : Int
  ovbgn : Int
  ovend : Int
  lf : Bool
  rf : Bool
  lp : Bool
  rp : Bool
  pmask : Nat
  rmask : Nat
  clears_clusters : Bool
  has_outside : Bool
deriving Repr, DecidableEq

/-- The per-dim boundary, flag and mask computation of
`calc_nano_block_opt` (stencil_calc.hpp:538-642), before the
special-case fixups.  `nlanes` is `dims->_fold_pts.product()`;
`ptsj` is the dim-`j` coordinate of each fold point in visit order.
The C++ loop builds `pmask` and `rmask` in one pass over the fold
points; the two accumulators are independent, so they are modelled as
two `build_mask` folds. -/
def calc_dim_raw (nlanes : Nat) (ptsj : List Int) (d : DimInput) : DimCalc :=
  let ebgn := d.bgn - d.rofs
  let eend := d.dend - d.rofs
  let fcbgn := round_up_flr ebgn d.cpts
  let fcend := round_down_flr eend d.cpts
  let fvbgn := round_up_flr ebgn d.vpts
  let fvend := round_down_flr eend d.vpts
  let ovbgn := round_down_flr ebgn d.vpts
  let ovend := round_up_flr eend d.vpts
  let do_left_fvec := decide (fvbgn < fcbgn)
  let do_right_fvec := decide (fvend > fcend)
  let do_left_pvec := decide (ebgn < fvbgn)
  let do_right_pvec := decide (eend > fvend)
  let pmask := if do_left_pvec || do_right_pvec then
      build_mask nlanes (fun p => decide (ovbgn + p ≥ ebgn)) ptsj else 0
  let rmask := if do_left_pvec || do_right_pvec then
      build_mask nlanes (fun p => decide (fvend + p < eend)) ptsj else 0
  { vpts := d.vpts
    ebgn := ebgn
    eend := eend
    fcbgn := fcbgn
    fcend := fcend
    fvbgn := fvbgn
    fvend := fvend
    ovbgn := ovbgn
    ovend := ovend
    lf := do_left_fvec
    rf := do_right_fvec
    lp := do_left_pvec
    rp := do_right_pvec
    pmask := pmask
    rmask := rmask
    clears_clusters := false
    has_outside := false }

/-- The special-case fixups of `calc_nano_block_opt`
(stencil_calc.hpp:644-680): overlapping peel/rem within one vector,
the no-full-cluster collapse, and the per-dim contribution to
`do_outside_clusters`. -/
def calc_dim_fixup (d0 : DimCalc) : DimCalc :=
  let d :=
    if d0.lp && d0.rp && decide (d0.ovbgn = d0.fvend) then
      { d0 with
        pmask := d0.pmask &&& d0.rmask
        rmask := 0
        lp := true
        rp := false
        lf := false
        rf := false
        clears_clusters := true }
    else if d0.fcend ≤ d0.fcbgn then
      { d0 with
        fcbgn := d0.fvend
        fcend := d0.fvend
        clears_clusters := true
        lf := d0.lf || d0.rf
        rf := false }
    else d0
  { d with has_outside := d.lf || d.rf || d.lp || d.rp }

/-- One full iteration of the per-dim loop. -/
def calc_dim (nlanes : Nat) (ptsj : List Int) (d : DimInput) : DimCalc :=
  calc_dim_fixup (calc_dim_raw nlanes ptsj d)

/-- Fold lengths of all domain dims. -/
def fold_lengths (ds : List DimInput) : List Int := ds.map (fun d => d.vpts)

/-- Number of lanes of the N-D fold (`dims->_fold_pts.product()`). -/
def num_lanes (ds : List DimInput) : Nat :=
  ((fold_lengths ds).map Int.toNat).prod

/-- The per-dim loop of `calc_nano_block_opt` over all domain dims.
`fi` is the fold layout's `is_first_inner()`. -/
def calc_dims (fi : Bool) (ds : List DimInput) : List DimCalc :=
  let lane_pts := visit_all_points fi (fold_lengths ds)
  ds.mapIdx (fun j d =>
    calc_dim (num_lanes ds) (lane_pts.map (fun p => p.getD j 0)) d)

/-- Global `do_clusters` flag after the per-dim loop: initialized
`true`, cleared by any dim whose fixup clears it. -/
def do_clusters (cs : List DimCalc) : Bool :=
  cs.all (fun c => !c.clears_clusters)

/-- Global `do_outside_clusters` flag after the per-dim loop:
initialized `false`, set by any dim with an outside part. -/
def do_outside_clusters (cs : List DimCalc) : Bool :=
  cs.any (fun c => c.has_outside)


/-- Number of lanes of an N-D fold given its per-dim lengths
(`dims->_fold_pts.product()`). -/
def fold_num_lanes (fps : List Int) : Nat := (fps.map Int.toNat).prod

/-- The dim-`j` coordinates of the fold points in visit order
(the values `pt[j]` seen by the mask-building lambda). -/
def dim_lane_coords (fi : Bool) (fps : List Int) (j : Nat) : List Int :=
  (visit_all_points fi fps).map (fun p => p.getD j 0)

/-- The dim-`j` coordinate of the `k`-th visited fold point. -/
def fold_pt_coord (fi : Bool) (fps : List Int) (k j : Nat) : Int :=
  ((visit_all_points fi fps).getD k []).getD j 0

/-! ## Index normalization -/

/-- `StencilBundleBase::normalize_indices` (stencil_calc.hpp:64-82) on
the domain components: divide each component by the corresponding fold
length with floor semantics.  (The assert requires a zero remainder.) -/
def normalize_indices (fps orig : List Int) : List Int :=
  List.zipWith (fun o v => idiv_flr o v) orig fps

/-! ## Reference scalar paths

The `yask_misc_loops.hpp` macro loops are not part of the given
sources.  Modelled from the spec: "traverse all lattice points in
`[start, stop)` with a given stride ..., invoking the body exactly once
per point"; here with stride 1 as set by the scalar paths. -/

/-- List of integers `b, b+1, ..., e-1`. -/
def range_pts (b e : Int) : List Int :=
  (List.range (e - b).toNat).map (fun i : Nat => b + (i : Int))

/-- Modelled from the spec: the misc-loop traversal (not in src): every
lattice point of the box `[begin, end)`, visited once each. -/
def box_pts : List (Int × Int) → List (List Int)
  | [] => [[]]
  | be :: rest =>
      (range_pts be.1 be.2).flatMap
        (fun i => (box_pts rest).map (fun p => i :: p))

/-- Decidable membership of a point in a rectilinear region. -/
def in_region : List (Int × Int) → List Int → Bool
  | [], [] => true
  | be :: rest, x :: xs =>
      decide (be.1 ≤ x) && decide (x < be.2) && in_region rest xs
  | _, _ => false

/-- `calc_in_domain` (stencil_calc.hpp:337-356): the loop body tests
`is_in_valid_domain(pt)` and invokes `calc_scalar` when it holds.
Result: the points passed to `calc_scalar`, in visit order. -/
def calc_in_domain_calls (valid : List Int → Bool)
    (region : List (Int × Int)) : List (List Int) :=
  (box_pts region).filter valid

/-- `calc_nano_block_dbg2` (stencil_calc.hpp:404-431): the loop body
invokes `calc_scalar` unconditionally (no `is_in_valid_domain` test).
Result: the points passed to `calc_scalar`, in visit order. -/
def calc_nano_block_dbg2_calls (region : List (Int × Int)) :
    List (List Int) :=
  box_pts region

/-! ## Stage and step conditions -/

/-- Model of a bundle as seen by a `Stage`: the scratch flag and the
generated step condition (`_bundle.is_in_valid_step`). -/
structure BundleModel where
  is_scr : Bool
  step_ok : Int → Bool

/-- `StencilBundleTempl::is_in_valid_step` (stencil_calc.hpp:317-320):
true when the context's `check_step_conds` is off, otherwise the
generated condition. -/
def bundle_is_in_valid_step (check_step_conds : Bool) (b : BundleModel)
    (s : Int) : Bool :=
  !check_step_conds || b.step_ok s

/-- `Stage::is_in_valid_step` (stencil_calc.hpp:1013-1026): the answer
of the first non-scratch member; `false` when there is none. -/
def stage_is_in_valid_step (check_step_conds : Bool) :
    List BundleModel → Int → Bool
  | [], _ => false
  | b :: rest, s =>
      if !b.is_scr then bundle_is_in_valid_step check_step_conds b s
      else stage_is_in_valid_step check_step_conds rest s

/-- The first non-scratch member of a stage, if any. -/
def first_non_scratch : List BundleModel → Option BundleModel
  | [] => none
  | b :: rest => if !b.is_scr then some b else first_non_scratch rest

/-! ## Normalization of the per-dim boundaries and the boundary parts -/

/-- Normalized (vector-unit) full-cluster begin of one dim. -/
def nfcbgn (c : DimCalc) : Int := idiv_flr c.fcbgn c.vpts

/-- Normalized full-cluster end of one dim. -/
def nfcend (c : DimCalc) : Int := idiv_flr c.fcend c.vpts

/-- Normalized full-vector begin of one dim. -/
def nfvbgn (c : DimCalc) : Int := idiv_flr c.fvbgn c.vpts

/-- Normalized full-vector end of one dim. -/
def nfvend (c : DimCalc) : Int := idiv_flr c.fvend c.vpts

/-- Normalized outer-vector begin of one dim. -/
def novbgn (c : DimCalc) : Int := idiv_flr c.ovbgn c.vpts

/-- Normalized outer-vector end of one dim. -/
def novend (c : DimCalc) : Int := idiv_flr c.ovend c.vpts

/-- All-ones lane mask, `bit_mask_t(-1)` on the 64-bit mask type. -/
def all_ones_mask : Nat := 2 ^ 64 - 1

/-- The normalized ranges, skip flags and combined mask of one
full-vector / partial-vector boundary part. -/
structure Part where
  fvb : List Int
  fve : List Int
  pvb : List Int
  pve : List Int
  fv_needed : Bool
  pv_needed : Bool
  pv_mask : Nat
deriving Repr, DecidableEq

/-- The inner per-dim loop of the boundary enumeration
(stencil_calc.hpp:842-881): builds the normalized full-vector and
partial-vector ranges for the combo `cd` (bitset of selected dims,
tested at bit `j`) and left-right sequence `lr` (bitset indexed by the
selection counter `nsel`), starting from the `norm_fcidxs` /
`norm_fvidxs` bounds for non-selected dims, clearing the needed flags
when a selected dim lacks the corresponding side flag, and AND-ing the
per-dim masks into the combined mask (initially all ones). -/
def build_part (cd lr : Nat) : List DimCalc → Nat → Nat → Part
  | [], _, _ =>
    { fvb := [], fve := [], pvb := [], pve := [],
      fv_needed := true, pv_needed := true, pv_mask := all_ones_mask }
  | c :: rest, j, nsel =>
    if cd.testBit j then
      let is_left := !(lr.testBit nsel)
      let t := build_part cd lr rest (j + 1) (nsel + 1)
      if is_left then
        { fvb := nfvbgn c :: t.fvb
          fve := nfcbgn c :: t.fve
          pvb := novbgn c :: t.pvb
          pve := nfvbgn c :: t.pve
          fv_needed := c.lf && t.fv_needed
          pv_needed := c.lp && t.pv_needed
          pv_mask := c.pmask &&& t.pv_mask }
      else
        { fvb := nfcend c :: t.fvb
          fve := nfvend c :: t.fve
          pvb := nfvend c :: t.pvb
          pve := novend c :: t.pve
          fv_needed := c.rf && t.fv_needed
          pv_needed := c.rp && t.pv_needed
          pv_mask := c.rmask &&& t.pv_mask }
    else
      let t := build_part cd lr rest (j + 1) nsel
      { fvb := nfcbgn c :: t.fvb
        fve := nfcend c :: t.fve
        pvb := nfvbgn c :: t.pvb
        pve := nfvend c :: t.pve
        fv_needed := t.fv_needed
        pv_needed := t.pv_needed
        pv_mask := t.pv_mask }

/-! ## Dispatched calls -/

inductive CallKind where
  | clusters : CallKind
  | vectors : CallKind
deriving Repr, DecidableEq

/-- One dispatched generated-kernel call: its kind, the normalized
per-dim begin/end bounds of its scan range, and its lane mask
(all ones for cluster and full-vector calls). -/
structure KernelCall where
  kind : CallKind
  nbgn : List Int
  nend : List Int
  mask : Nat
deriving Repr, DecidableEq

/-- Number of selected dims of combo `cd` among the first `nd` dims. -/
def n_sel (nd cd : Nat) : Nat :=
  (List.range nd).countP (fun j => cd.testBit j)

/-- The (up to two) `calc_vectors` calls emitted for one combo and one
left-right sequence (stencil_calc.hpp:886-912): the full-vector call
with an all-ones mask when `fv_needed`, then the partial-vector call
with the combined mask when `pv_needed`. -/
def part_calls (cs : List DimCalc) (cd lr : Nat) : List KernelCall :=
  (if (build_part cd lr cs 0 0).fv_needed then
    [{ kind := CallKind.vectors, nbgn := (build_part cd lr cs 0 0).fvb,
       nend := (build_part cd lr cs 0 0).fve, mask := all_ones_mask }]
   else []) ++
  (if (build_part cd lr cs 0 0).pv_needed then
    [{ kind := CallKind.vectors, nbgn := (build_part cd lr cs 0 0).pvb,
       nend := (build_part cd lr cs 0 0).pve,
       mask := (build_part cd lr cs 0 0).pv_mask }]
   else [])

/-- Modelled from the spec: the boundary enumeration runs "for
k = 1 ... nddims", over "each k-subset of domain dims"
(`n_choose_k_set`, not in src) and each of the `2^k` left/right
sequences.  Every nonempty subset of dims appears for exactly one `k`,
so the combos are modelled as all nonzero bitsets `cd < 2^nddims`, each
paired with every `lr < 2^k` where `k` is the number of selected dims. -/
def boundary_calls (cs : List DimCalc) : List KernelCall :=
  ((List.range (2 ^ cs.length)).filter (fun cd => cd ≠ 0)).flatMap
    (fun cd => (List.range (2 ^ n_sel cs.length cd)).flatMap
      (fun lr => part_calls cs cd lr))

/-- The `calc_clusters` call over `norm_fcidxs` (stencil_calc.hpp:730). -/
def cluster_call (cs : List DimCalc) : KernelCall :=
  { kind := CallKind.clusters, nbgn := cs.map nfcbgn,
    nend := cs.map nfcend, mask := all_ones_mask }

/-- All generated-kernel calls dispatched by `calc_nano_block_opt`: the
cluster call iff `do_clusters`, the boundary calls iff
`do_outside_clusters` (stencil_calc.hpp:717-919). -/
def dispatched_calls (cs : List DimCalc) : List KernelCall :=
  (if do_clusters cs then [cluster_call cs] else []) ++
  (if do_outside_clusters cs then boundary_calls cs else [])

/-! ## Element coverage of the dispatched calls -/

/-- Lane offsets of a point within its containing vector, per dim. -/
def lane_offsets (vs x : List Int) : List Int :=
  List.zipWith (fun xi vi => imod_flr xi vi) x vs

/-- Whether the vector containing each coordinate of `x` lies in the
given normalized per-dim range. -/
def in_norm_range : List Int → List Int → List Int → List Int → Bool
  | [], [], [], [] => true
  | v :: vs, b :: bs, e :: es, xi :: xs =>
      decide (b ≤ idiv_flr xi v) && decide (idiv_flr xi v < e) &&
        in_norm_range vs bs es xs
  | _, _, _, _ => false

/-- Position of the first occurrence of a lane point in the visit
order (the lane's bit index in the masks). -/
def idx_of (o : List Int) : List (List Int) → Nat
  | [] => 0
  | p :: ps => if p = o then 0 else idx_of o ps + 1

/-- Modelled from the spec (generated-kernel contract, §6): a
`calc_vectors` call writes element `x` iff `x`'s vector lies in the
normalized range and the mask bit of `x`'s lane (its position in the
fold visit order) is set; `calc_clusters` writes every element of every
vector in its range. -/
def call_covers (fi : Bool) (vs : List Int) (c : KernelCall)
    (x : List Int) : Bool :=
  match c.kind with
  | CallKind.clusters => in_norm_range vs c.nbgn c.nend x
  | CallKind.vectors =>
      in_norm_range vs c.nbgn c.nend x &&
      c.mask.testBit (idx_of (lane_offsets vs x) (visit_all_points fi vs))

/-- Membership of a rank-relative point in the nano-block
`[eidxs.begin, eidxs.end)`. -/
def in_nano_block : List DimCalc → List Int → Bool
  | [], [] => true
  | c :: cs, xi :: xs =>
      decide (c.ebgn ≤ xi) && decide (xi < c.eend) &&
        in_nano_block cs xs
  | _, _ => false

/-! ## Selection-list view of the boundary parts

A combo bitset `cd` and left-right sequence `lr` determine, per dim,
one of three choices: not selected, selected-left, selected-right. -/

inductive Sel where
  | pass : Sel
  | left : Sel
  | right : Sel
deriving Repr, DecidableEq

/-- Decode the per-dim choices of a combo and left-right sequence. -/
def sels_of (cd lr : Nat) : Nat → List Sel
  | 0 => []
  | n + 1 =>
    if cd.testBit 0 then
      (if !(lr.testBit 0) then Sel.left else Sel.right) ::
        sels_of (cd >>> 1) (lr >>> 1) n
    else Sel.pass :: sels_of (cd >>> 1) lr n

/-- Re-encode per-dim choices as a combo bitset. -/
def cd_of : List Sel → Nat
  | [] => 0
  | s :: sl => (if s = Sel.pass then 0 else 1) + 2 * cd_of sl

/-- Re-encode per-dim choices as a left-right sequence bitset. -/
def lr_of : List Sel → Nat
  | [] => 0
  | Sel.pass :: sl => lr_of sl
  | Sel.left :: sl => 2 * lr_of sl
  | Sel.right :: sl => 1 + 2 * lr_of sl

/-- Per-dim full-vector begin bounds of a part, by choice. -/
def fvb_of (cs : List DimCalc) (sl : List Sel) : List Int :=
  List.zipWith (fun c s => match s with
    | Sel.pass => nfcbgn c
    | Sel.left => nfvbgn c
    | Sel.right => nfcend c) cs sl

/-- Per-dim full-vector end bounds of a part, by choice. -/
def fve_of (cs : List DimCalc) (sl : List Sel) : List Int :=
  List.zipWith (fun c s => match s with
    | Sel.pass => nfcend c
    | Sel.left => nfcbgn c
    | Sel.right => nfvend c) cs sl

/-- Per-dim partial-vector begin bounds of a part, by choice. -/
def pvb_of (cs : List DimCalc) (sl : List Sel) : List Int :=
  List.zipWith (fun c s => match s with
    | Sel.pass => nfvbgn c
    | Sel.left => novbgn c
    | Sel.right => nfvend c) cs sl

/-- Per-dim partial-vector end bounds of a part, by choice. -/
def pve_of (cs : List DimCalc) (sl : List Sel) : List Int :=
  List.zipWith (fun c s => match s with
    | Sel.pass => nfvend c
    | Sel.left => nfvbgn c
    | Sel.right => novend c) cs sl

/-- Whether no selected dim lacks its side's full-vector flag. -/
def fv_needed_of : List DimCalc → List Sel → Bool
  | _, [] => true
  | [], _ => true
  | c :: cs, s :: sl =>
      (match s with
       | Sel.pass => true
       | Sel.left => c.lf
       | Sel.right => c.rf) && fv_needed_of cs sl

/-- Whether no selected dim lacks its side's partial-vector flag. -/
def pv_needed_of : List DimCalc → List Sel → Bool
  | _, [] => true
  | [], _ => true
  | c :: cs, s :: sl =>
      (match s with
       | Sel.pass => true
       | Sel.left => c.lp
       | Sel.right => c.rp) && pv_needed_of cs sl

/-- The AND of the selected dims' peel/rem masks, from all ones. -/
def pv_mask_of : List DimCalc → List Sel → Nat
  | _, [] => all_ones_mask
  | [], _ => all_ones_mask
  | c :: cs, s :: sl =>
      match s with
      | Sel.pass => pv_mask_of cs sl
      | Sel.left => c.pmask &&& pv_mask_of cs sl
      | Sel.right => c.rmask &&& pv_mask_of cs sl

/-- Fold lengths of the per-dim results. -/
def vpts_of (cs : List DimCalc) : List Int := cs.map (fun c => c.vpts)

/-- Per-dim normalized-range condition of a full-vector boundary part. -/
def fv_dim_cond (c : DimCalc) (s : Sel) (xi : Int) : Prop :=
  match s with
  | Sel.pass => nfcbgn c ≤ idiv_flr xi c.vpts ∧ idiv_flr xi c.vpts < nfcend c
  | Sel.left => nfvbgn c ≤ idiv_flr xi c.vpts ∧ idiv_flr xi c.vpts < nfcbgn c
  | Sel.right => nfcend c ≤ idiv_flr xi c.vpts ∧ idiv_flr xi c.vpts < nfvend c

/-- Per-dim normalized-range condition of a partial-vector boundary
part. -/
def pv_dim_cond (c : DimCalc) (s : Sel) (xi : Int) : Prop :=
  match s with
  | Sel.pass => nfvbgn c ≤ idiv_flr xi c.vpts ∧ idiv_flr xi c.vpts < nfvend c
  | Sel.left => novbgn c ≤ idiv_flr xi c.vpts ∧ idiv_flr xi c.vpts < nfvbgn c
  | Sel.right => nfvend c ≤ idiv_flr xi c.vpts ∧ idiv_flr xi c.vpts < novend c

/-- The per-dim choice that the covering call must make for a point:
left of the full-vector range, right of it, or inside it. -/
def sel_of_pt (c : DimCalc) (xi : Int) : Sel :=
  if xi < c.fvbgn then Sel.left
  else if c.fvend ≤ xi then Sel.right
  else Sel.pass

/-- The per-dim choices of the unique partial-vector call covering a
point. -/
def sel_list (cs : List DimCalc) (x : List Int) : List Sel :=
  List.zipWith sel_of_pt cs x

/-- The per-dim choice that a covering full-vector boundary call must
make for a point: left of the cluster range, right of it, or inside. -/
def fsel_of_pt (c : DimCalc) (xi : Int) : Sel :=
  if xi < c.fcbgn then Sel.left
  else if c.fcend ≤ xi then Sel.right
  else Sel.pass

/-- The per-dim choices of the unique full-vector boundary call
covering a point. -/
def fsel_list (cs : List DimCalc) (x : List Int) : List Sel :=
  List.zipWith fsel_of_pt cs x

/-- Default dim input used only as a `getD` fallback in proofs. -/
def ddef0 : DimInput := { rofs := 0, vpts := 1, cpts := 1, bgn := 0, dend := 0 }

/-- Default per-dim result used only as a `getD` fallback in proofs. -/
def cdef0 : DimCalc := calc_dim 0 [] ddef0

end Definitions

section Theorems

theorem idiv_flr_eq_ediv (x : Int) {m : Int} (hm : 0 ≤ m) :
    idiv_flr x m = x / m := Int.fdiv_eq_ediv x hm

theorem round_down_flr_eq (x : Int) {m : Int} (hm : 0 < m) :
    round_down_flr x m = (x / m) * m := by
  unfold round_down_flr
  rw [idiv_flr_eq_ediv x hm.le]

theorem dvd_round_down_flr (x m : Int) : m ∣ round_down_flr x m :=
  ⟨idiv_flr x m, mul_comm _ _⟩

theorem dvd_round_up_flr (x m : Int) : m ∣ round_up_flr x m :=
  ⟨idiv_flr (x + m - 1) m, mul_comm _ _⟩

theorem round_down_flr_le (x : Int) {m : Int} (hm : 0 < m) :
    round_down_flr x m ≤ x := by
  rw [round_down_flr_eq x hm]
  exact Int.ediv_mul_le x hm.ne.symm

theorem lt_round_down_flr_add (x : Int) {m : Int} (hm : 0 < m) :
    x < round_down_flr x m + m := by
  rw [round_down_flr_eq x hm]
  have h := Int.emod_lt_of_pos x hm
  have h2 := Int.ediv_add_emod x m
  have h3 : m * (x / m) = x / m * m := mul_comm _ _
  omega

theorem round_down_flr_eq_self {x m : Int} (hm : 0 < m) (hd : m ∣ x) :
    round_down_flr x m = x := by
  rw [round_down_flr_eq x hm]
  rcases hd with ⟨c, rfl⟩
  rw [Int.mul_ediv_cancel_left c hm.ne.symm, mul_comm]

/-- The rounded-down value is the greatest multiple of `m` not above `x`. -/
theorem le_round_down_flr {x y m : Int} (hm : 0 < m) (hd : m ∣ y)
    (hle : y ≤ x) : y ≤ round_down_flr x m := by
  rcases hd with ⟨c, rfl⟩
  rw [round_down_flr_eq x hm]
  have hc : c ≤ x / m := (Int.le_ediv_iff_mul_le hm).mpr (by linarith [mul_comm c m])
  nlinarith

theorem le_round_up_flr (x : Int) {m : Int} (hm : 0 < m) :
    x ≤ round_up_flr x m := by
  unfold round_up_flr
  rw [idiv_flr_eq_ediv _ hm.le]
  have h := Int.emod_lt_of_pos (x + m - 1) hm
  have h0 := Int.emod_nonneg (x + m - 1) hm.ne.symm
  have h2 := Int.ediv_add_emod (x + m - 1) m
  nlinarith [Int.ediv_add_emod (x + m - 1) m]

theorem round_up_flr_lt_add (x : Int) {m : Int} (hm : 0 < m) :
    round_up_flr x m < x + m := by
  unfold round_up_flr
  rw [idiv_flr_eq_ediv _ hm.le]
  have h0 := Int.emod_nonneg (x + m - 1) hm.ne.symm
  have h2 := Int.ediv_add_emod (x + m - 1) m
  nlinarith

theorem round_up_flr_eq_self {x m : Int} (hm : 0 < m) (hd : m ∣ x) :
    round_up_flr x m = x := by
  have h1 := le_round_up_flr x hm
  have h2 := round_up_flr_lt_add x hm
  rcases hd with ⟨c, rfl⟩
  rcases dvd_round_up_flr (m * c) m with ⟨d, hd2⟩
  rw [hd2] at h1 h2 ⊢
  have : c = d := by nlinarith
  rw [this]

/-- The rounded-up value is the least multiple of `m` not below `x`. -/
theorem round_up_flr_le {x y m : Int} (hm : 0 < m) (hd : m ∣ y)
    (hle : x ≤ y) : round_up_flr x m ≤ y := by
  rcases hd with ⟨c, rfl⟩
  rcases dvd_round_up_flr x m with ⟨d, hd2⟩
  have h2 := round_up_flr_lt_add x hm
  rw [hd2] at h2 ⊢
  have : d ≤ c := by nlinarith
  exact mul_le_mul_of_nonneg_left this hm.le

theorem round_down_flr_mono {x y m : Int} (hm : 0 < m) (hle : x ≤ y) :
    round_down_flr x m ≤ round_down_flr y m :=
  le_round_down_flr hm (dvd_round_down_flr x m)
    ((round_down_flr_le x hm).trans hle)

theorem round_up_flr_mono {x y m : Int} (hm : 0 < m) (hle : x ≤ y) :
    round_up_flr x m ≤ round_up_flr y m :=
  round_up_flr_le hm (dvd_round_up_flr y m) (hle.trans (le_round_up_flr y hm))

theorem round_down_flr_le_round_up_flr (x : Int) {m : Int} (hm : 0 < m) :
    round_down_flr x m ≤ round_up_flr x m :=
  (round_down_flr_le x hm).trans (le_round_up_flr x hm)

/-- Rounding down to a multiple of a coarser grain gives a smaller result. -/
theorem round_down_flr_coarse_le {x v c : Int} (hv : 0 < v) (hc : 0 < c)
    (hdvd : v ∣ c) : round_down_flr x c ≤ round_down_flr x v :=
  le_round_down_flr hv (hdvd.trans (dvd_round_down_flr x c))
    (round_down_flr_le x hc)

/-- Rounding up to a multiple of a coarser grain gives a larger result. -/
theorem le_round_up_flr_coarse {x v c : Int} (hv : 0 < v) (hc : 0 < c)
    (hdvd : v ∣ c) : round_up_flr x v ≤ round_up_flr x c :=
  round_up_flr_le hv (hdvd.trans (dvd_round_up_flr x c))
    (le_round_up_flr x hc)

/-- When `x` is not already a multiple, rounding up overshoots rounding
down by exactly one grain. -/
theorem round_up_flr_cases (x : Int) {m : Int} (hm : 0 < m) :
    round_up_flr x m = round_down_flr x m ∨
    round_up_flr x m = round_down_flr x m + m := by
  rcases dvd_round_up_flr x m with ⟨d, hd⟩
  rcases dvd_round_down_flr x m with ⟨e, he⟩
  have h1 := le_round_up_flr x hm
  have h2 := round_up_flr_lt_add x hm
  have h3 := round_down_flr_le x hm
  have h4 := lt_round_down_flr_add x hm
  have hde : e ≤ d ∧ d ≤ e + 1 := by constructor <;> nlinarith
  rcases (by omega : d = e ∨ d = e + 1) with h | h
  · left; rw [hd, he, h]
  · right; rw [hd, he, h]; ring

theorem round_up_flr_le_round_down_flr_add (x : Int) {m : Int} (hm : 0 < m) :
    round_up_flr x m ≤ round_down_flr x m + m := by
  rcases round_up_flr_cases x hm with h | h <;> omega

theorem imod_flr_eq_zero_iff {x m : Int} (hm : 0 < m) :
    imod_flr x m = 0 ↔ m ∣ x := by
  unfold imod_flr
  rw [Int.fmod_eq_emod x hm.le]
  exact ⟨fun h => Int.dvd_of_emod_eq_zero h, fun h => Int.emod_eq_zero_of_dvd h⟩

theorem idiv_flr_mul_cancel {x m : Int} (hm : 0 < m) (hd : m ∣ x) :
    (idiv_flr x m) * m = x := by
  have := round_down_flr_eq_self hm hd
  unfold round_down_flr at this
  exact this

theorem mem_int_range {v i : Int} : i ∈ int_range v ↔ 0 ≤ i ∧ i < v := by
  unfold int_range
  simp only [List.mem_map, List.mem_range]
  constructor
  · rintro ⟨n, hn, rfl⟩
    omega
  · rintro ⟨h0, hv⟩
    exact ⟨i.toNat, by omega, by omega⟩

theorem length_int_range (v : Int) : (int_range v).length = v.toNat := by
  unfold int_range
  rw [List.length_map, List.length_range]

theorem mem_visit_pts_inner_first {vs o : List Int} :
    o ∈ visit_pts_inner_first vs ↔ InBox vs o := by
  induction vs generalizing o with
  | nil =>
    simp only [visit_pts_inner_first, List.mem_singleton, InBox]
    constructor
    · rintro rfl; exact List.Forall₂.nil
    · intro h; cases h; rfl
  | cons v vs ih =>
    simp only [visit_pts_inner_first, List.mem_flatMap, List.mem_map]
    constructor
    · rintro ⟨rest, hrest, i, hi, rfl⟩
      exact List.Forall₂.cons (mem_int_range.mp hi) (ih.mp hrest)
    · intro h
      cases h with
      | cons hio hrest =>
        exact ⟨_, ih.mpr hrest, _, mem_int_range.mpr hio, rfl⟩

theorem mem_visit_pts_outer_first {vs o : List Int} :
    o ∈ visit_pts_outer_first vs ↔ InBox vs o := by
  induction vs generalizing o with
  | nil =>
    simp only [visit_pts_outer_first, List.mem_singleton, InBox]
    constructor
    · rintro rfl; exact List.Forall₂.nil
    · intro h; cases h; rfl
  | cons v vs ih =>
    simp only [visit_pts_outer_first, List.mem_flatMap, List.mem_map]
    constructor
    · rintro ⟨i, hi, rest, hrest, rfl⟩
      exact List.Forall₂.cons (mem_int_range.mp hi) (ih.mp hrest)
    · intro h
      cases h with
      | cons hio hrest =>
        exact ⟨_, mem_int_range.mpr hio, _, ih.mpr hrest, rfl⟩

theorem mem_visit_all_points {fi : Bool} {vs o : List Int} :
    o ∈ visit_all_points fi vs ↔ InBox vs o := by
  unfold visit_all_points
  cases fi <;> simp [mem_visit_pts_inner_first, mem_visit_pts_outer_first]

theorem length_visit_pts_inner_first (vs : List Int) :
    (visit_pts_inner_first vs).length = (vs.map Int.toNat).prod := by
  induction vs with
  | nil => simp [visit_pts_inner_first]
  | cons v vs ih =>
    simp only [visit_pts_inner_first, List.length_flatMap, List.map_map]
    simp only [Function.comp_def, List.length_map, length_int_range]
    rw [List.map_const', List.sum_replicate, smul_eq_mul]
    simp [ih, List.map_cons, List.prod_cons, Nat.mul_comm]

theorem length_visit_pts_outer_first (vs : List Int) :
    (visit_pts_outer_first vs).length = (vs.map Int.toNat).prod := by
  induction vs with
  | nil => simp [visit_pts_outer_first]
  | cons v vs ih =>
    simp only [visit_pts_outer_first, List.length_flatMap, List.map_map]
    simp only [Function.comp_def, List.length_map, ih]
    rw [List.map_const', List.sum_replicate, smul_eq_mul]
    simp [List.map_cons, List.prod_cons, length_int_range]

theorem length_visit_all_points (fi : Bool) (vs : List Int) :
    (visit_all_points fi vs).length = (vs.map Int.toNat).prod := by
  unfold visit_all_points
  cases fi <;>
    simp [length_visit_pts_inner_first, length_visit_pts_outer_first]

theorem mask_step_lt {nlanes : Nat} (hn : 0 < nlanes) (cond : Int → Bool)
    {m : Nat} (hm : m < 2 ^ nlanes) (p : Int) :
    mask_step (1 <<< (nlanes - 1)) cond m p < 2 ^ nlanes := by
  unfold mask_step
  have h1 : m >>> 1 < 2 ^ nlanes := by
    rw [Nat.shiftRight_eq_div_pow]
    exact lt_of_le_of_lt (Nat.div_le_self _ _) hm
  have h2 : (1 <<< (nlanes - 1) : Nat) = 2 ^ (nlanes - 1) := by
    simp [Nat.shiftLeft_eq]
  have h3 : (2 : Nat) ^ (nlanes - 1) < 2 ^ nlanes :=
    Nat.pow_lt_pow_right (by omega) (by omega)
  split
  · rw [h2]
    exact Nat.or_lt_two_pow h1 h3
  · exact h1

theorem build_mask_foldl_testBit {nlanes : Nat} (hn : 0 < nlanes)
    (cond : Int → Bool) :
    ∀ (L : List Int) (m0 : Nat), m0 < 2 ^ nlanes → L.length ≤ nlanes →
    ∀ k, k < nlanes →
      (L.foldl (mask_step (1 <<< (nlanes - 1)) cond) m0).testBit k =
      (if k < nlanes - L.length then m0.testBit (k + L.length)
       else cond (L.getD (k - (nlanes - L.length)) 0)) := by
  intro L
  induction L with
  | nil =>
    intro m0 hm0 _ k hk
    simp only [List.foldl_nil, List.length_nil]
    rw [if_pos (by omega)]
    simp
  | cons p L ih =>
    intro m0 hm0 hlen k hk
    have hlen2 : L.length + 1 ≤ nlanes := by simpa using hlen
    simp only [List.foldl_cons, List.length_cons]
    have hm1 : mask_step (1 <<< (nlanes - 1)) cond m0 p < 2 ^ nlanes :=
      mask_step_lt hn cond hm0 p
    rw [ih _ hm1 (by simpa using Nat.le_of_succ_le hlen) k hk]
    have hstep : ∀ i, i < nlanes →
        (mask_step (1 <<< (nlanes - 1)) cond m0 p).testBit i =
        (if i = nlanes - 1 then cond p else m0.testBit (i + 1)) := by
      intro i hi
      have hsh : (1 <<< (nlanes - 1) : Nat) = 2 ^ (nlanes - 1) := by
        simp [Nat.shiftLeft_eq]
      have hbig : i = nlanes - 1 → m0.testBit (1 + i) = false := by
        intro hi2
        apply Nat.testBit_lt_two_pow
        calc m0 < 2 ^ nlanes := hm0
        _ ≤ 2 ^ (1 + i) := Nat.pow_le_pow_right (by omega) (by omega)
      unfold mask_step
      cases hc : cond p with
      | true =>
        rw [if_pos rfl, hsh, Nat.testBit_or, Nat.testBit_shiftRight,
          Nat.testBit_two_pow]
        by_cases hieq : i = nlanes - 1
        · rw [if_pos hieq, hbig hieq]
          simp [hieq]
        · rw [if_neg hieq, Nat.add_comm 1 i]
          have hd : decide (nlanes - 1 = i) = false := by simp; omega
          rw [hd]
          simp
      | false =>
        rw [if_neg (by simp), Nat.testBit_shiftRight]
        by_cases hieq : i = nlanes - 1
        · rw [if_pos hieq, hbig hieq]
        · rw [if_neg hieq, Nat.add_comm 1 i]
    by_cases hcase : k < nlanes - (L.length + 1)
    · rw [if_pos hcase, if_pos (by omega)]
      rw [hstep (k + L.length) (by omega)]
      rw [if_neg (by omega), Nat.add_assoc]
    · rw [if_neg hcase]
      by_cases hcase2 : k < nlanes - L.length
      · rw [if_pos hcase2]
        have hkeq : k + L.length = nlanes - 1 := by omega
        rw [hstep (k + L.length) (by omega), if_pos hkeq]
        have : k - (nlanes - (L.length + 1)) = 0 := by omega
        rw [this]
        simp
      · rw [if_neg hcase2]
        have h1 : k - (nlanes - (L.length + 1)) =
            (k - (nlanes - L.length)) + 1 := by omega
        rw [h1]
        simp

theorem build_mask_testBit {nlanes : Nat} (cond : Int → Bool)
    {ptsj : List Int} (hlen : ptsj.length = nlanes) {k : Nat}
    (hk : k < nlanes) :
    (build_mask nlanes cond ptsj).testBit k = cond (ptsj.getD k 0) := by
  unfold build_mask
  rw [build_mask_foldl_testBit (by omega) cond ptsj 0 (by positivity)
    (le_of_eq hlen) k hk, hlen]
  rw [if_neg (by omega)]
  simp

theorem foldl_mask_step_lt {nlanes : Nat} (hn : 0 < nlanes)
    (cond : Int → Bool) (L : List Int) :
    ∀ m0 : Nat, m0 < 2 ^ nlanes →
      L.foldl (mask_step (1 <<< (nlanes - 1)) cond) m0 < 2 ^ nlanes := by
  induction L with
  | nil => intro m0 hm0; simpa using hm0
  | cons p L ih =>
    intro m0 hm0
    simp only [List.foldl_cons]
    exact ih _ (mask_step_lt hn cond hm0 p)

theorem build_mask_lt {nlanes : Nat} (hn : 0 < nlanes) (cond : Int → Bool)
    (ptsj : List Int) : build_mask nlanes cond ptsj < 2 ^ nlanes :=
  foldl_mask_step_lt hn cond ptsj 0 (by positivity)

theorem build_mask_testBit_of_ge {nlanes : Nat} (hn : 0 < nlanes)
    (cond : Int → Bool) (ptsj : List Int) {k : Nat} (hk : nlanes ≤ k) :
    (build_mask nlanes cond ptsj).testBit k = false :=
  Nat.testBit_lt_two_pow (lt_of_lt_of_le (build_mask_lt hn cond ptsj)
    (Nat.pow_le_pow_right (by omega) hk))

theorem getD_map_of_lt {α β : Type} (f : α → β) {L : List α} {k : Nat}
    (hk : k < L.length) (da : α) (db : β) :
    (L.map f).getD k db = f (L.getD k da) := by
  rw [List.getD_eq_getElem _ _ (by simpa using hk),
    List.getD_eq_getElem _ _ hk, List.getElem_map]

/-- Claim C2: in `calc_nano_block_opt`, for every domain dim `j`, with
`ebgn` and `eend` the nano-block begin/end shifted to rank-relative
coordinates (minus `rank_domain_offsets[j]`), the computed boundaries
are exactly: `fcbgn` = `ebgn` rounded up and `fcend` = `eend` rounded
down to a multiple of `cluster_pts[j]`; `fvbgn`/`fvend` likewise for
`fold_pts[j]`; `ovbgn` = `ebgn` rounded down and `ovend` = `eend`
rounded up to a multiple of `fold_pts[j]`.  Each value is characterized
as the unique multiple on the correct side within one grain, with
signed floor-division semantics, valid also for negative `ebgn`/`eend`
(no sign hypotheses). -/
theorem calc_dim_raw_boundaries (nlanes : Nat) (ptsj : List Int)
    (d : DimInput) (hv : 0 < d.vpts) (hc : 0 < d.cpts) :
    (calc_dim_raw nlanes ptsj d).ebgn = d.bgn - d.rofs ∧
    (calc_dim_raw nlanes ptsj d).eend = d.dend - d.rofs ∧
    (d.cpts ∣ (calc_dim_raw nlanes ptsj d).fcbgn ∧
      (calc_dim_raw nlanes ptsj d).ebgn ≤ (calc_dim_raw nlanes ptsj d).fcbgn ∧
      (calc_dim_raw nlanes ptsj d).fcbgn < (calc_dim_raw nlanes ptsj d).ebgn + d.cpts) ∧
    (d.cpts ∣ (calc_dim_raw nlanes ptsj d).fcend ∧
      (calc_dim_raw nlanes ptsj d).fcend ≤ (calc_dim_raw nlanes ptsj d).eend ∧
      (calc_dim_raw nlanes ptsj d).eend < (calc_dim_raw nlanes ptsj d).fcend + d.cpts) ∧
    (d.vpts ∣ (calc_dim_raw nlanes ptsj d).fvbgn ∧
      (calc_dim_raw nlanes ptsj d).ebgn ≤ (calc_dim_raw nlanes ptsj d).fvbgn ∧
      (calc_dim_raw nlanes ptsj d).fvbgn < (calc_dim_raw nlanes ptsj d).ebgn + d.vpts) ∧
    (d.vpts ∣ (calc_dim_raw nlanes ptsj d).fvend ∧
      (calc_dim_raw nlanes ptsj d).fvend ≤ (calc_dim_raw nlanes ptsj d).eend ∧
      (calc_dim_raw nlanes ptsj d).eend < (calc_dim_raw nlanes ptsj d).fvend + d.vpts) ∧
    (d.vpts ∣ (calc_dim_raw nlanes ptsj d).ovbgn ∧
      (calc_dim_raw nlanes ptsj d).ovbgn ≤ (calc_dim_raw nlanes ptsj d).ebgn ∧
      (calc_dim_raw nlanes ptsj d).ebgn < (calc_dim_raw nlanes ptsj d).ovbgn + d.vpts) ∧
    (d.vpts ∣ (calc_dim_raw nlanes ptsj d).ovend ∧
      (calc_dim_raw nlanes ptsj d).eend ≤ (calc_dim_raw nlanes ptsj d).ovend ∧
      (calc_dim_raw nlanes ptsj d).ovend < (calc_dim_raw nlanes ptsj d).eend + d.vpts) := by
  simp only [calc_dim_raw]
  refine ⟨trivial, trivial,
    ⟨dvd_round_up_flr _ _, le_round_up_flr _ hc, round_up_flr_lt_add _ hc⟩,
    ⟨dvd_round_down_flr _ _, round_down_flr_le _ hc, lt_round_down_flr_add _ hc⟩,
    ⟨dvd_round_up_flr _ _, le_round_up_flr _ hv, round_up_flr_lt_add _ hv⟩,
    ⟨dvd_round_down_flr _ _, round_down_flr_le _ hv, lt_round_down_flr_add _ hv⟩,
    ⟨dvd_round_down_flr _ _, round_down_flr_le _ hv, lt_round_down_flr_add _ hv⟩,
    ⟨dvd_round_up_flr _ _, le_round_up_flr _ hv, round_up_flr_lt_add _ hv⟩⟩

theorem calc_dim_raw_boundaries_witness :
    (0 : Int) < (DimInput.mk 3 4 8 (-2) 9).vpts ∧
    (0 : Int) < (DimInput.mk 3 4 8 (-2) 9).cpts ∧
    ((calc_dim_raw 16 [] (DimInput.mk 3 4 8 (-2) 9)).ebgn = -5 ∧
     (calc_dim_raw 16 [] (DimInput.mk 3 4 8 (-2) 9)).eend = 6 ∧
     (calc_dim_raw 16 [] (DimInput.mk 3 4 8 (-2) 9)).fcbgn = 0 ∧
     (calc_dim_raw 16 [] (DimInput.mk 3 4 8 (-2) 9)).fcend = 0 ∧
     (calc_dim_raw 16 [] (DimInput.mk 3 4 8 (-2) 9)).fvbgn = -4 ∧
     (calc_dim_raw 16 [] (DimInput.mk 3 4 8 (-2) 9)).fvend = 4 ∧
     (calc_dim_raw 16 [] (DimInput.mk 3 4 8 (-2) 9)).ovbgn = -8 ∧
     (calc_dim_raw 16 [] (DimInput.mk 3 4 8 (-2) 9)).ovend = 8) := by
  refine ⟨by decide, by decide, ?_⟩
  have h := calc_dim_raw_boundaries 16 [] (DimInput.mk 3 4 8 (-2) 9)
    (by decide) (by decide)
  exact ⟨h.1, h.2.1, by decide, by decide, by decide, by decide,
    by decide, by decide⟩

theorem length_dim_lane_coords (fi : Bool) (fps : List Int) (j : Nat) :
    (dim_lane_coords fi fps j).length = fold_num_lanes fps := by
  unfold dim_lane_coords fold_num_lanes
  rw [List.length_map, length_visit_all_points]

theorem dim_lane_coords_getD {fi : Bool} {fps : List Int} {j k : Nat}
    (hk : k < fold_num_lanes fps) :
    (dim_lane_coords fi fps j).getD k 0 = fold_pt_coord fi fps k j := by
  unfold dim_lane_coords fold_pt_coord
  exact getD_map_of_lt _ (by rw [length_visit_all_points]; exact hk) [] 0

theorem calc_dim_raw_lp (nlanes : Nat) (ptsj : List Int) (d : DimInput) :
    (calc_dim_raw nlanes ptsj d).lp =
      decide (d.bgn - d.rofs < round_up_flr (d.bgn - d.rofs) d.vpts) := rfl

theorem calc_dim_raw_rp (nlanes : Nat) (ptsj : List Int) (d : DimInput) :
    (calc_dim_raw nlanes ptsj d).rp =
      decide (d.dend - d.rofs > round_down_flr (d.dend - d.rofs) d.vpts) := rfl

theorem calc_dim_raw_pmask (nlanes : Nat) (ptsj : List Int) (d : DimInput) :
    (calc_dim_raw nlanes ptsj d).pmask =
      (if ((calc_dim_raw nlanes ptsj d).lp || (calc_dim_raw nlanes ptsj d).rp) then
        build_mask nlanes
          (fun p => decide ((calc_dim_raw nlanes ptsj d).ovbgn + p ≥
            (calc_dim_raw nlanes ptsj d).ebgn)) ptsj
      else 0) := rfl

theorem calc_dim_raw_rmask (nlanes : Nat) (ptsj : List Int) (d : DimInput) :
    (calc_dim_raw nlanes ptsj d).rmask =
      (if ((calc_dim_raw nlanes ptsj d).lp || (calc_dim_raw nlanes ptsj d).rp) then
        build_mask nlanes
          (fun p => decide ((calc_dim_raw nlanes ptsj d).fvend + p <
            (calc_dim_raw nlanes ptsj d).eend)) ptsj
      else 0) := rfl

theorem calc_dim_raw_pmask_testBit {nlanes : Nat} {ptsj : List Int}
    {d : DimInput}
    (hlp : ((calc_dim_raw nlanes ptsj d).lp ||
      (calc_dim_raw nlanes ptsj d).rp) = true)
    (hlen : ptsj.length = nlanes) {k : Nat} (hk : k < nlanes) :
    (calc_dim_raw nlanes ptsj d).pmask.testBit k =
      decide ((calc_dim_raw nlanes ptsj d).ovbgn + ptsj.getD k 0 ≥
        (calc_dim_raw nlanes ptsj d).ebgn) := by
  rw [calc_dim_raw_pmask, if_pos hlp, build_mask_testBit _ hlen hk]

theorem calc_dim_raw_rmask_testBit {nlanes : Nat} {ptsj : List Int}
    {d : DimInput}
    (hlp : ((calc_dim_raw nlanes ptsj d).lp ||
      (calc_dim_raw nlanes ptsj d).rp) = true)
    (hlen : ptsj.length = nlanes) {k : Nat} (hk : k < nlanes) :
    (calc_dim_raw nlanes ptsj d).rmask.testBit k =
      decide ((calc_dim_raw nlanes ptsj d).fvend + ptsj.getD k 0 <
        (calc_dim_raw nlanes ptsj d).eend) := by
  rw [calc_dim_raw_rmask, if_pos hlp, build_mask_testBit _ hlen hk]

theorem calc_dim_raw_masks_zero {nlanes : Nat} {ptsj : List Int}
    {d : DimInput}
    (hlp : ((calc_dim_raw nlanes ptsj d).lp ||
      (calc_dim_raw nlanes ptsj d).rp) = false) :
    (calc_dim_raw nlanes ptsj d).pmask = 0 ∧
    (calc_dim_raw nlanes ptsj d).rmask = 0 := by
  rw [calc_dim_raw_pmask, calc_dim_raw_rmask, hlp]
  exact ⟨rfl, rfl⟩

/-- Claim C3: in `calc_nano_block_opt`, for every domain dim `j` that
has any partial vector (`ebgn < fvbgn` or `eend > fvend`), the per-dim
masks are built by visiting every lane of the N-D fold in the
fold-layout order (inner-first or outer-first), at each lane shifting
both masks right by one bit and then setting the high bit of
`peel_masks[j]` iff `ovbgn + p[j] ≥ ebgn` and the high bit of
`rem_masks[j]` iff `fvend + p[j] < eend`; consequently bit `k` of the
final masks tests those conditions at the `k`-th visited fold point.
Dims with no partial vector keep zero masks. -/
theorem calc_dim_raw_mask_bits (fi : Bool) (fps : List Int) (j : Nat)
    (d : DimInput) (k : Nat) (hk : k < fold_num_lanes fps) :
    ((((calc_dim_raw (fold_num_lanes fps) (dim_lane_coords fi fps j) d).lp ||
       (calc_dim_raw (fold_num_lanes fps) (dim_lane_coords fi fps j) d).rp) = true →
      ((calc_dim_raw (fold_num_lanes fps) (dim_lane_coords fi fps j) d).pmask.testBit k =
        decide ((calc_dim_raw (fold_num_lanes fps) (dim_lane_coords fi fps j) d).ovbgn +
          fold_pt_coord fi fps k j ≥
          (calc_dim_raw (fold_num_lanes fps) (dim_lane_coords fi fps j) d).ebgn) ∧
       (calc_dim_raw (fold_num_lanes fps) (dim_lane_coords fi fps j) d).rmask.testBit k =
        decide ((calc_dim_raw (fold_num_lanes fps) (dim_lane_coords fi fps j) d).fvend +
          fold_pt_coord fi fps k j <
          (calc_dim_raw (fold_num_lanes fps) (dim_lane_coords fi fps j) d).eend))) ∧
     (((calc_dim_raw (fold_num_lanes fps) (dim_lane_coords fi fps j) d).lp ||
       (calc_dim_raw (fold_num_lanes fps) (dim_lane_coords fi fps j) d).rp) = false →
      (calc_dim_raw (fold_num_lanes fps) (dim_lane_coords fi fps j) d).pmask = 0 ∧
      (calc_dim_raw (fold_num_lanes fps) (dim_lane_coords fi fps j) d).rmask = 0)) := by
  constructor
  · intro hlp
    rw [calc_dim_raw_pmask_testBit hlp (length_dim_lane_coords fi fps j) hk,
      calc_dim_raw_rmask_testBit hlp (length_dim_lane_coords fi fps j) hk,
      dim_lane_coords_getD hk]
    exact ⟨rfl, rfl⟩
  · exact calc_dim_raw_masks_zero

theorem calc_dim_raw_mask_bits_witness :
    0 < fold_num_lanes [4, 4] ∧
    (((calc_dim_raw (fold_num_lanes [4, 4])
        (dim_lane_coords true [4, 4] 0) (DimInput.mk 0 4 8 2 16)).lp ||
      (calc_dim_raw (fold_num_lanes [4, 4])
        (dim_lane_coords true [4, 4] 0) (DimInput.mk 0 4 8 2 16)).rp) = true →
      ((calc_dim_raw (fold_num_lanes [4, 4])
        (dim_lane_coords true [4, 4] 0) (DimInput.mk 0 4 8 2 16)).pmask.testBit 3 =
        decide ((calc_dim_raw (fold_num_lanes [4, 4])
          (dim_lane_coords true [4, 4] 0) (DimInput.mk 0 4 8 2 16)).ovbgn +
            fold_pt_coord true [4, 4] 3 0 ≥
          (calc_dim_raw (fold_num_lanes [4, 4])
            (dim_lane_coords true [4, 4] 0) (DimInput.mk 0 4 8 2 16)).ebgn) ∧
       (calc_dim_raw (fold_num_lanes [4, 4])
        (dim_lane_coords true [4, 4] 0) (DimInput.mk 0 4 8 2 16)).rmask.testBit 3 =
        decide ((calc_dim_raw (fold_num_lanes [4, 4])
          (dim_lane_coords true [4, 4] 0) (DimInput.mk 0 4 8 2 16)).fvend +
            fold_pt_coord true [4, 4] 3 0 <
          (calc_dim_raw (fold_num_lanes [4, 4])
            (dim_lane_coords true [4, 4] 0) (DimInput.mk 0 4 8 2 16)).eend))) :=
  ⟨by decide,
   (calc_dim_raw_mask_bits true [4, 4] 0 (DimInput.mk 0 4 8 2 16) 3
      (by decide)).1⟩

theorem calc_dim_raw_lf_iff {nlanes : Nat} {ptsj : List Int} {d : DimInput} :
    (calc_dim_raw nlanes ptsj d).lf = true ↔
      (calc_dim_raw nlanes ptsj d).fvbgn < (calc_dim_raw nlanes ptsj d).fcbgn :=
  decide_eq_true_iff

theorem calc_dim_raw_rf_iff {nlanes : Nat} {ptsj : List Int} {d : DimInput} :
    (calc_dim_raw nlanes ptsj d).rf = true ↔
      (calc_dim_raw nlanes ptsj d).fcend < (calc_dim_raw nlanes ptsj d).fvend :=
  decide_eq_true_iff

theorem calc_dim_raw_lp_iff {nlanes : Nat} {ptsj : List Int} {d : DimInput} :
    (calc_dim_raw nlanes ptsj d).lp = true ↔
      (calc_dim_raw nlanes ptsj d).ebgn < (calc_dim_raw nlanes ptsj d).fvbgn :=
  decide_eq_true_iff

theorem calc_dim_raw_rp_iff {nlanes : Nat} {ptsj : List Int} {d : DimInput} :
    (calc_dim_raw nlanes ptsj d).rp = true ↔
      (calc_dim_raw nlanes ptsj d).fvend < (calc_dim_raw nlanes ptsj d).eend :=
  decide_eq_true_iff

/-- Basic ordering and divisibility facts about the raw per-dim
boundaries. -/
theorem calc_dim_raw_facts (nlanes : Nat) (ptsj : List Int) (d : DimInput)
    (hv : 0 < d.vpts) (hdvd : d.vpts ∣ d.cpts) (hc : 0 < d.cpts) :
    (calc_dim_raw nlanes ptsj d).ovbgn ≤ (calc_dim_raw nlanes ptsj d).ebgn ∧
    (calc_dim_raw nlanes ptsj d).ebgn ≤ (calc_dim_raw nlanes ptsj d).fvbgn ∧
    (calc_dim_raw nlanes ptsj d).fvbgn ≤ (calc_dim_raw nlanes ptsj d).fcbgn ∧
    (calc_dim_raw nlanes ptsj d).fcend ≤ (calc_dim_raw nlanes ptsj d).fvend ∧
    (calc_dim_raw nlanes ptsj d).fvend ≤ (calc_dim_raw nlanes ptsj d).eend ∧
    (calc_dim_raw nlanes ptsj d).eend ≤ (calc_dim_raw nlanes ptsj d).ovend ∧
    (calc_dim_raw nlanes ptsj d).fvbgn ≤ (calc_dim_raw nlanes ptsj d).ovbgn + d.vpts ∧
    (calc_dim_raw nlanes ptsj d).ovend ≤ (calc_dim_raw nlanes ptsj d).fvend + d.vpts ∧
    d.vpts ∣ (calc_dim_raw nlanes ptsj d).fcbgn ∧
    d.vpts ∣ (calc_dim_raw nlanes ptsj d).fcend ∧
    d.vpts ∣ (calc_dim_raw nlanes ptsj d).fvbgn ∧
    d.vpts ∣ (calc_dim_raw nlanes ptsj d).fvend ∧
    d.vpts ∣ (calc_dim_raw nlanes ptsj d).ovbgn ∧
    d.vpts ∣ (calc_dim_raw nlanes ptsj d).ovend := by
  refine ⟨round_down_flr_le _ hv, le_round_up_flr _ hv,
    round_up_flr_le hv (hdvd.trans (dvd_round_up_flr _ _))
      (le_round_up_flr _ hc),
    le_round_down_flr hv (hdvd.trans (dvd_round_down_flr _ _))
      (round_down_flr_le _ hc),
    round_down_flr_le _ hv, le_round_up_flr _ hv,
    round_up_flr_le_round_down_flr_add _ hv,
    round_up_flr_le_round_down_flr_add _ hv,
    hdvd.trans (dvd_round_up_flr _ _), hdvd.trans (dvd_round_down_flr _ _),
    dvd_round_up_flr _ _, dvd_round_down_flr _ _,
    dvd_round_down_flr _ _, dvd_round_up_flr _ _⟩

/-- When the left peel flag is set, the full-vector begin overshoots
the outer-vector begin by exactly one fold length. -/
theorem calc_dim_raw_fvbgn_of_lp {nlanes : Nat} {ptsj : List Int}
    {d : DimInput} (hv : 0 < d.vpts)
    (hlp : (calc_dim_raw nlanes ptsj d).lp = true) :
    (calc_dim_raw nlanes ptsj d).fvbgn =
      (calc_dim_raw nlanes ptsj d).ovbgn + d.vpts := by
  have h := calc_dim_raw_lp_iff.mp hlp
  have hcases := round_up_flr_cases (d.bgn - d.rofs) hv
  have hle := round_down_flr_le (d.bgn - d.rofs) hv
  have hE : (calc_dim_raw nlanes ptsj d).ebgn = d.bgn - d.rofs := rfl
  have hF : (calc_dim_raw nlanes ptsj d).fvbgn =
    round_up_flr (d.bgn - d.rofs) d.vpts := rfl
  have hO : (calc_dim_raw nlanes ptsj d).ovbgn =
    round_down_flr (d.bgn - d.rofs) d.vpts := rfl
  rw [hE, hF] at h
  rw [hF, hO]
  rcases hcases with hcase | hcase
  · omega
  · omega

/-- When the right rem flag is set, the outer-vector end overshoots the
full-vector end by exactly one fold length. -/
theorem calc_dim_raw_ovend_of_rp {nlanes : Nat} {ptsj : List Int}
    {d : DimInput} (hv : 0 < d.vpts)
    (hrp : (calc_dim_raw nlanes ptsj d).rp = true) :
    (calc_dim_raw nlanes ptsj d).ovend =
      (calc_dim_raw nlanes ptsj d).fvend + d.vpts := by
  have h := calc_dim_raw_rp_iff.mp hrp
  have hcases := round_up_flr_cases (d.dend - d.rofs) hv
  have hle := le_round_up_flr (d.dend - d.rofs) hv
  have hE : (calc_dim_raw nlanes ptsj d).eend = d.dend - d.rofs := rfl
  have hF : (calc_dim_raw nlanes ptsj d).fvend =
    round_down_flr (d.dend - d.rofs) d.vpts := rfl
  have hO : (calc_dim_raw nlanes ptsj d).ovend =
    round_up_flr (d.dend - d.rofs) d.vpts := rfl
  rw [hE, hF] at h
  rw [hF, hO]
  rcases hcases with hcase | hcase
  · omega
  · omega

theorem calc_dim_fixup_overlap {d0 : DimCalc} (h1 : d0.lp = true)
    (h2 : d0.rp = true) (h3 : d0.ovbgn = d0.fvend) :
    calc_dim_fixup d0 = { d0 with
      pmask := d0.pmask &&& d0.rmask
      rmask := 0
      lp := true
      rp := false
      lf := false
      rf := false
      clears_clusters := true
      has_outside := true } := by
  unfold calc_dim_fixup
  rw [if_pos (by simp [h1, h2, h3])]
  simp

theorem calc_dim_fixup_nocluster {d0 : DimCalc}
    (hc1 : (d0.lp && d0.rp && decide (d0.ovbgn = d0.fvend)) = false)
    (h2 : d0.fcend ≤ d0.fcbgn) :
    calc_dim_fixup d0 = { d0 with
      fcbgn := d0.fvend
      fcend := d0.fvend
      clears_clusters := true
      lf := d0.lf || d0.rf
      rf := false
      has_outside := ((d0.lf || d0.rf) || d0.lp || d0.rp) } := by
  unfold calc_dim_fixup
  rw [if_neg (by simp [hc1]), if_pos h2]
  simp

theorem calc_dim_fixup_id {d0 : DimCalc}
    (hc1 : (d0.lp && d0.rp && decide (d0.ovbgn = d0.fvend)) = false)
    (h2 : ¬(d0.fcend ≤ d0.fcbgn)) :
    calc_dim_fixup d0 = { d0 with
      has_outside := (d0.lf || d0.rf || d0.lp || d0.rp) } := by
  unfold calc_dim_fixup
  rw [if_neg (by simp [hc1]), if_neg h2]

/-- Claim C4: the per-dim fixups of `calc_nano_block_opt` behave as
specified.  (1) When the peel and remainder fall within a single vector
(`ovbgn = fvend`, equivalently `fvbgn = ovend`, both peel and rem flags
set): the peel mask becomes `peel AND rem`, the rem mask is cleared,
`do_left_pvec` is set, `do_right_pvec` and both full-vec flags are
cleared, and the cluster flag is cleared.  (2) When there is no full
cluster in the dim (`fcend ≤ fcbgn`): `fcbgn` and `fcend` are both set
to `fvend`, the cluster flag is cleared, and if either full-vec flag
was set only the left one remains set. -/
theorem calc_dim_fixup_spec (nlanes : Nat) (ptsj : List Int) (d : DimInput)
    (hv : 0 < d.vpts) :
    ((calc_dim_raw nlanes ptsj d).lp = true →
     (calc_dim_raw nlanes ptsj d).rp = true →
     (calc_dim_raw nlanes ptsj d).ovbgn = (calc_dim_raw nlanes ptsj d).fvend →
      ((calc_dim_raw nlanes ptsj d).fvbgn = (calc_dim_raw nlanes ptsj d).ovend ∧
       (calc_dim nlanes ptsj d).pmask =
         ((calc_dim_raw nlanes ptsj d).pmask &&&
          (calc_dim_raw nlanes ptsj d).rmask) ∧
       (calc_dim nlanes ptsj d).rmask = 0 ∧
       (calc_dim nlanes ptsj d).lp = true ∧
       (calc_dim nlanes ptsj d).rp = false ∧
       (calc_dim nlanes ptsj d).lf = false ∧
       (calc_dim nlanes ptsj d).rf = false ∧
       (calc_dim nlanes ptsj d).clears_clusters = true)) ∧
    (¬((calc_dim_raw nlanes ptsj d).lp = true ∧
       (calc_dim_raw nlanes ptsj d).rp = true ∧
       (calc_dim_raw nlanes ptsj d).ovbgn = (calc_dim_raw nlanes ptsj d).fvend) →
     (calc_dim_raw nlanes ptsj d).fcend ≤ (calc_dim_raw nlanes ptsj d).fcbgn →
      ((calc_dim nlanes ptsj d).fcbgn = (calc_dim_raw nlanes ptsj d).fvend ∧
       (calc_dim nlanes ptsj d).fcend = (calc_dim_raw nlanes ptsj d).fvend ∧
       (calc_dim nlanes ptsj d).clears_clusters = true ∧
       (calc_dim nlanes ptsj d).lf =
         ((calc_dim_raw nlanes ptsj d).lf || (calc_dim_raw nlanes ptsj d).rf) ∧
       (calc_dim nlanes ptsj d).rf = false)) := by
  constructor
  · intro h1 h2 h3
    have hov : (calc_dim_raw nlanes ptsj d).fvbgn =
        (calc_dim_raw nlanes ptsj d).ovend := by
      have ha := calc_dim_raw_fvbgn_of_lp hv h1
      have hb := calc_dim_raw_ovend_of_rp hv h2
      omega
    have hfx := calc_dim_fixup_overlap h1 h2 h3
    unfold calc_dim
    rw [hfx]
    exact ⟨hov, rfl, rfl, rfl, rfl, rfl, rfl, rfl⟩
  · intro hnc h2
    have hb : ((calc_dim_raw nlanes ptsj d).lp &&
        (calc_dim_raw nlanes ptsj d).rp &&
        decide ((calc_dim_raw nlanes ptsj d).ovbgn =
          (calc_dim_raw nlanes ptsj d).fvend)) = false := by
      by_contra hbb
      rw [Bool.not_eq_false] at hbb
      simp only [Bool.and_eq_true, decide_eq_true_eq] at hbb
      exact hnc ⟨hbb.1.1, hbb.1.2, hbb.2⟩
    have hfx := calc_dim_fixup_nocluster hb h2
    unfold calc_dim
    rw [hfx]
    exact ⟨rfl, rfl, rfl, rfl, rfl⟩

theorem calc_dim_fixup_spec_witness :
    (0 : Int) < (DimInput.mk 0 4 8 1 3).vpts ∧
    ((calc_dim_raw 16 [] (DimInput.mk 0 4 8 1 3)).fvbgn =
      (calc_dim_raw 16 [] (DimInput.mk 0 4 8 1 3)).ovend ∧
     (calc_dim 16 [] (DimInput.mk 0 4 8 1 3)).rmask = 0 ∧
     (calc_dim 16 [] (DimInput.mk 0 4 8 1 3)).clears_clusters = true) := by
  refine ⟨by decide, ?_⟩
  have h := (calc_dim_fixup_spec 16 [] (DimInput.mk 0 4 8 1 3) (by decide)).1
    (by decide) (by decide) (by decide)
  exact ⟨h.1, h.2.2.1, h.2.2.2.2.2.2.2⟩

theorem stage_is_in_valid_step_eq (check : Bool) (stage : List BundleModel)
    (s : Int) (b : BundleModel) (hb : first_non_scratch stage = some b) :
    stage_is_in_valid_step check stage s =
      bundle_is_in_valid_step check b s := by
  induction stage with
  | nil => simp [first_non_scratch] at hb
  | cons c rest ih =>
    unfold first_non_scratch at hb
    unfold stage_is_in_valid_step
    by_cases hscr : c.is_scr
    · rw [if_neg (by simp [hscr])] at hb ⊢
      exact ih hb
    · rw [if_pos (by simp [hscr])] at hb ⊢
      cases hb
      rfl

/-- Claim C9: for every step index `s`, `Stage::is_in_valid_step s`
returns exactly the verdict of the first non-scratch member bundle in
the stage's order (that bundle's `is_in_valid_step s`). -/
theorem claim_stage_step_first_non_scratch (check : Bool)
    (stage : List BundleModel) (s : Int) (b : BundleModel)
    (hb : first_non_scratch stage = some b) :
    stage_is_in_valid_step check stage s =
      bundle_is_in_valid_step check b s :=
  stage_is_in_valid_step_eq check stage s b hb

theorem claim_stage_step_first_non_scratch_witness :
    first_non_scratch
        [⟨true, fun _ => false⟩, ⟨false, fun s => decide (0 ≤ s)⟩] =
      some ⟨false, fun s => decide (0 ≤ s)⟩ ∧
    stage_is_in_valid_step true
        [⟨true, fun _ => false⟩, ⟨false, fun s => decide (0 ≤ s)⟩] 5 =
      bundle_is_in_valid_step true ⟨false, fun s => decide (0 ≤ s)⟩ 5 :=
  ⟨rfl, claim_stage_step_first_non_scratch true
    [⟨true, fun _ => false⟩, ⟨false, fun s => decide (0 ≤ s)⟩] 5
    ⟨false, fun s => decide (0 ≤ s)⟩ rfl⟩

/-- Claim C10: `StencilBundleTempl::is_in_valid_step s` is true whenever
the context's `check_step_conds` flag is off, regardless of the
generated step condition; the generated condition is consulted exactly
when the flag is on; consequently a stage (with a non-scratch member,
as the code's assert requires) accepts every step when step-condition
checking is disabled. -/
theorem claim_bundle_step_check_off (b : BundleModel) (s : Int)
    (stage : List BundleModel) (b2 : BundleModel)
    (hb : first_non_scratch stage = some b2) :
    bundle_is_in_valid_step false b s = true ∧
    bundle_is_in_valid_step true b s = b.step_ok s ∧
    stage_is_in_valid_step false stage s = true := by
  refine ⟨rfl, rfl, ?_⟩
  rw [stage_is_in_valid_step_eq false stage s b2 hb]
  rfl

theorem claim_bundle_step_check_off_witness :
    first_non_scratch [⟨false, fun _ => false⟩] =
      some ⟨false, fun _ => false⟩ ∧
    (bundle_is_in_valid_step false ⟨false, fun _ => false⟩ 7 = true ∧
     bundle_is_in_valid_step true ⟨false, fun _ => false⟩ 7 =
       BundleModel.step_ok ⟨false, fun _ => false⟩ 7 ∧
     stage_is_in_valid_step false [⟨false, fun _ => false⟩] 7 = true) :=
  ⟨rfl, claim_bundle_step_check_off ⟨false, fun _ => false⟩ 7
    [⟨false, fun _ => false⟩] ⟨false, fun _ => false⟩ rfl⟩

theorem countP_flatMap {α β : Type} (p : β → Bool) (l : List α)
    (f : α → List β) :
    (l.flatMap f).countP p = (l.map (fun a => (f a).countP p)).sum := by
  induction l with
  | nil => rfl
  | cons a l ih => simp [List.flatMap_cons, List.countP_append, ih]

theorem count_flatMap {α β : Type} [BEq β] (l : List α)
    (f : α → List β) (x : β) :
    (l.flatMap f).count x = (l.map (fun a => (f a).count x)).sum := by
  induction l with
  | nil => rfl
  | cons a l ih => simp [List.flatMap_cons, List.count_append, ih]

theorem mem_range_pts {b e x : Int} : x ∈ range_pts b e ↔ b ≤ x ∧ x < e := by
  unfold range_pts
  simp only [List.mem_map, List.mem_range]
  constructor
  · rintro ⟨n, hn, rfl⟩
    omega
  · rintro ⟨h1, h2⟩
    exact ⟨(x - b).toNat, by omega, by omega⟩

theorem nodup_range_pts (b e : Int) : (range_pts b e).Nodup :=
  List.Nodup.map (fun i j h => by omega) (List.nodup_range _)

theorem count_range_pts (b e x : Int) :
    (range_pts b e).count x = if b ≤ x ∧ x < e then 1 else 0 := by
  by_cases h : b ≤ x ∧ x < e
  · rw [if_pos h]
    exact List.count_eq_one_of_mem (nodup_range_pts b e)
      (mem_range_pts.mpr h)
  · rw [if_neg h]
    exact List.count_eq_zero_of_not_mem (fun hm => h (mem_range_pts.mp hm))

theorem count_map_cons_nil (i : Int) (L : List (List Int)) :
    ((L.map (fun q => i :: q)).count ([] : List Int)) = 0 := by
  rw [List.count_eq_zero]
  intro hm
  rcases List.mem_map.mp hm with ⟨q, _, hq⟩
  exact List.cons_ne_nil i q hq

theorem count_map_cons_cons (i x : Int) (xs : List Int)
    (L : List (List Int)) :
    ((L.map (fun q => i :: q)).count (x :: xs)) =
      if i = x then L.count xs else 0 := by
  induction L with
  | nil => simp
  | cons q L ih =>
    simp only [List.map_cons, List.count_cons, ih, beq_iff_eq,
      List.cons.injEq]
    by_cases h : i = x
    · by_cases h2 : q = xs
      · simp [h, h2]
      · simp [h, h2]
    · simp [h]

theorem sum_map_ite_count (l : List Int) (x : Int) (n : Nat) :
    (l.map (fun i => if i = x then n else 0)).sum = l.count x * n := by
  induction l with
  | nil => simp
  | cons i l ih =>
    simp only [List.map_cons, List.sum_cons, ih, List.count_cons,
      beq_iff_eq]
    by_cases h : i = x
    · simp [h, Nat.add_mul, Nat.add_comm]
    · simp [h]

theorem box_pts_count (region : List (Int × Int)) (p : List Int) :
    (box_pts region).count p = if in_region region p then 1 else 0 := by
  induction region generalizing p with
  | nil =>
    cases p with
    | nil => rfl
    | cons x xs => rfl
  | cons be rest ih =>
    unfold box_pts
    rw [count_flatMap]
    cases p with
    | nil =>
      have hz : ∀ i ∈ range_pts be.1 be.2,
          ((box_pts rest).map (fun q => i :: q)).count ([] : List Int) = 0 :=
        fun i _ => count_map_cons_nil i _
      have : ((range_pts be.1 be.2).map
          (fun i => ((box_pts rest).map (fun q => i :: q)).count
            ([] : List Int))).sum = 0 := by
        apply List.sum_eq_zero
        intro n hn
        rcases List.mem_map.mp hn with ⟨i, hi, rfl⟩
        exact hz i hi
      rw [this]
      rfl
    | cons x xs =>
      have hmap : ((range_pts be.1 be.2).map
          (fun i => ((box_pts rest).map (fun q => i :: q)).count (x :: xs))) =
          ((range_pts be.1 be.2).map
            (fun i => if i = x then (box_pts rest).count xs else 0)) := by
        apply List.map_congr_left
        intro i _
        exact count_map_cons_cons i x xs _
      rw [hmap, sum_map_ite_count, count_range_pts, ih]
      show _ = if (decide (be.1 ≤ x) && decide (x < be.2) &&
        in_region rest xs : Bool) then 1 else 0
      by_cases h1 : be.1 ≤ x ∧ x < be.2
      · rw [if_pos h1]
        by_cases h2 : in_region rest xs
        · simp [h1.1, h1.2, h2]
        · simp only [Bool.not_eq_true] at h2
          simp [h1.1, h1.2, h2]
      · rw [if_neg h1]
        rcases not_and_or.mp h1 with h | h
        · simp [h]
        · simp [h]

/-- Claim C7 counterexample: with region `[0,2)` and a validity
predicate false at the point `[0]`, `calc_nano_block_dbg2` still
invokes `calc_scalar` at `[0]` — it performs no `is_in_valid_domain`
test — so the dbg path does not invoke `calc_scalar` iff the test is
true, and its call list differs from the filtered one. -/
theorem claim_scalar_dbg_counterexample :
    (fun p : List Int => decide (p.getD 0 0 ≠ 0)) [0] = false ∧
    [0] ∈ calc_nano_block_dbg2_calls [(0, 2)] ∧
    calc_nano_block_dbg2_calls [(0, 2)] ≠
      calc_in_domain_calls (fun p => decide (p.getD 0 0 ≠ 0)) [(0, 2)] := by
  refine ⟨rfl, ?_, ?_⟩
  · show [0] ∈ box_pts [(0, 2)]
    decide
  · show box_pts [(0, 2)] ≠ (box_pts [(0, 2)]).filter _
    decide

/-- Claim C7 (amended): both reference scalar paths iterate every
element of the input region exactly once with stride 1.
`calc_in_domain` invokes `calc_scalar` on a point iff
`is_in_valid_domain` holds there; `calc_nano_block_dbg2` invokes
`calc_scalar` on every point of the region unconditionally.  Neither
path makes vector or cluster calls. -/
theorem claim_scalar_paths (valid : List Int → Bool)
    (region : List (Int × Int)) (p : List Int) :
    ((calc_nano_block_dbg2_calls region).count p =
      if in_region region p then 1 else 0) ∧
    ((calc_in_domain_calls valid region).count p =
      if in_region region p && valid p then 1 else 0) := by
  constructor
  · exact box_pts_count region p
  · show ((box_pts region).filter valid).count p = _
    by_cases h2 : valid p
    · rw [List.count_filter h2, box_pts_count region p]
      by_cases h1 : in_region region p
      · simp [h1, h2]
      · simp only [Bool.not_eq_true] at h1
        simp [h1]
    · simp only [Bool.not_eq_true] at h2
      have hz : ((box_pts region).filter valid).count p = 0 := by
        rw [List.count_eq_zero]
        intro hm
        have hv := List.of_mem_filter hm
        rw [h2] at hv
        exact Bool.false_ne_true hv
      rw [hz, h2]
      simp

/-- Full case analysis of one per-dim iteration: the overlap fixup, the
no-cluster fixup, or no fixup, each with the exact resulting record. -/
theorem calc_dim_eq_cases (nlanes : Nat) (ptsj : List Int) (d : DimInput) :
    (((calc_dim_raw nlanes ptsj d).lp = true ∧
      (calc_dim_raw nlanes ptsj d).rp = true ∧
      (calc_dim_raw nlanes ptsj d).ovbgn = (calc_dim_raw nlanes ptsj d).fvend) ∧
     calc_dim nlanes ptsj d = { calc_dim_raw nlanes ptsj d with
       pmask := (calc_dim_raw nlanes ptsj d).pmask &&&
         (calc_dim_raw nlanes ptsj d).rmask
       rmask := 0
       lp := true
       rp := false
       lf := false
       rf := false
       clears_clusters := true
       has_outside := true }) ∨
    (¬((calc_dim_raw nlanes ptsj d).lp = true ∧
       (calc_dim_raw nlanes ptsj d).rp = true ∧
       (calc_dim_raw nlanes ptsj d).ovbgn = (calc_dim_raw nlanes ptsj d).fvend) ∧
     (calc_dim_raw nlanes ptsj d).fcend ≤ (calc_dim_raw nlanes ptsj d).fcbgn ∧
     calc_dim nlanes ptsj d = { calc_dim_raw nlanes ptsj d with
       fcbgn := (calc_dim_raw nlanes ptsj d).fvend
       fcend := (calc_dim_raw nlanes ptsj d).fvend
       clears_clusters := true
       lf := (calc_dim_raw nlanes ptsj d).lf || (calc_dim_raw nlanes ptsj d).rf
       rf := false
       has_outside := (((calc_dim_raw nlanes ptsj d).lf ||
         (calc_dim_raw nlanes ptsj d).rf) ||
         (calc_dim_raw nlanes ptsj d).lp || (calc_dim_raw nlanes ptsj d).rp) }) ∨
    (¬((calc_dim_raw nlanes ptsj d).lp = true ∧
       (calc_dim_raw nlanes ptsj d).rp = true ∧
       (calc_dim_raw nlanes ptsj d).ovbgn = (calc_dim_raw nlanes ptsj d).fvend) ∧
     (calc_dim_raw nlanes ptsj d).fcbgn < (calc_dim_raw nlanes ptsj d).fcend ∧
     calc_dim nlanes ptsj d = { calc_dim_raw nlanes ptsj d with
       has_outside := ((calc_dim_raw nlanes ptsj d).lf ||
         (calc_dim_raw nlanes ptsj d).rf ||
         (calc_dim_raw nlanes ptsj d).lp || (calc_dim_raw nlanes ptsj d).rp) }) := by
  by_cases hb : ((calc_dim_raw nlanes ptsj d).lp &&
      (calc_dim_raw nlanes ptsj d).rp &&
      decide ((calc_dim_raw nlanes ptsj d).ovbgn =
        (calc_dim_raw nlanes ptsj d).fvend)) = true
  · left
    simp only [Bool.and_eq_true, decide_eq_true_eq] at hb
    exact ⟨⟨hb.1.1, hb.1.2, hb.2⟩,
      calc_dim_fixup_overlap hb.1.1 hb.1.2 hb.2⟩
  · have hb2 : ((calc_dim_raw nlanes ptsj d).lp &&
        (calc_dim_raw nlanes ptsj d).rp &&
        decide ((calc_dim_raw nlanes ptsj d).ovbgn =
          (calc_dim_raw nlanes ptsj d).fvend)) = false := by
      cases hq : ((calc_dim_raw nlanes ptsj d).lp &&
        (calc_dim_raw nlanes ptsj d).rp &&
        decide ((calc_dim_raw nlanes ptsj d).ovbgn =
          (calc_dim_raw nlanes ptsj d).fvend)) with
      | false => rfl
      | true => exact absurd hq hb
    have hnc : ¬((calc_dim_raw nlanes ptsj d).lp = true ∧
        (calc_dim_raw nlanes ptsj d).rp = true ∧
        (calc_dim_raw nlanes ptsj d).ovbgn =
          (calc_dim_raw nlanes ptsj d).fvend) := by
      rintro ⟨ha, hbb, hcc⟩
      rw [ha, hbb] at hb2
      simp [hcc] at hb2
    by_cases hcl : (calc_dim_raw nlanes ptsj d).fcend ≤
        (calc_dim_raw nlanes ptsj d).fcbgn
    · exact Or.inr (Or.inl ⟨hnc, hcl,
        calc_dim_fixup_nocluster hb2 hcl⟩)
    · exact Or.inr (Or.inr ⟨hnc, by omega,
        calc_dim_fixup_id hb2 hcl⟩)

/-- Claim C8: every domain component of the begin/end bounds handed to
`normalize_indices` by `calc_nano_block_opt` (those of `sb_fcidxs`,
`sb_fvidxs`, `sb_ovidxs`) is an exact multiple of the fold length, in
every branch including after the special-case fixups; the stride,
tile-size and alignment components inherited from the settings are
multiples by the caller's guarantee (hypothesis `hs`).  Consequently
`normalize_indices` returns the exact floor quotient — multiplying back
by the fold length recovers the input — and its zero-remainder
assertion (`imod_flr = 0`) never fails. -/
theorem claim_normalize_exact (nlanes : Nat) (ptsj : List Int)
    (d : DimInput) (hv : 0 < d.vpts) (hdvd : d.vpts ∣ d.cpts)
    (hc : 0 < d.cpts) (s : Int) (hs : d.vpts ∣ s) :
    (d.vpts ∣ (calc_dim nlanes ptsj d).fcbgn ∧
     d.vpts ∣ (calc_dim nlanes ptsj d).fcend ∧
     d.vpts ∣ (calc_dim nlanes ptsj d).fvbgn ∧
     d.vpts ∣ (calc_dim nlanes ptsj d).fvend ∧
     d.vpts ∣ (calc_dim nlanes ptsj d).ovbgn ∧
     d.vpts ∣ (calc_dim nlanes ptsj d).ovend) ∧
    (∀ x : Int, d.vpts ∣ x →
      imod_flr x d.vpts = 0 ∧ (idiv_flr x d.vpts) * d.vpts = x) ∧
    List.zipWith (fun n v => n * v)
      (normalize_indices [d.vpts, d.vpts, d.vpts]
        [(calc_dim nlanes ptsj d).fcbgn, (calc_dim nlanes ptsj d).fvbgn,
         (calc_dim nlanes ptsj d).ovbgn])
      [d.vpts, d.vpts, d.vpts] =
      [(calc_dim nlanes ptsj d).fcbgn, (calc_dim nlanes ptsj d).fvbgn,
       (calc_dim nlanes ptsj d).ovbgn] ∧
    imod_flr s d.vpts = 0 := by
  obtain ⟨ho1, ho2, ho3, ho4, ho5, ho6, ho7, ho8, hdc1, hdc2, hdv1,
    hdv2, hdo1, hdo2⟩ := calc_dim_raw_facts nlanes ptsj d hv hdvd hc
  have hdvd6 : d.vpts ∣ (calc_dim nlanes ptsj d).fcbgn ∧
      d.vpts ∣ (calc_dim nlanes ptsj d).fcend ∧
      d.vpts ∣ (calc_dim nlanes ptsj d).fvbgn ∧
      d.vpts ∣ (calc_dim nlanes ptsj d).fvend ∧
      d.vpts ∣ (calc_dim nlanes ptsj d).ovbgn ∧
      d.vpts ∣ (calc_dim nlanes ptsj d).ovend := by
    rcases calc_dim_eq_cases nlanes ptsj d with ⟨_, heq⟩ | ⟨_, _, heq⟩ | ⟨_, _, heq⟩ <;>
      rw [heq]
    · exact ⟨hdc1, hdc2, hdv1, hdv2, hdo1, hdo2⟩
    · exact ⟨hdv2, hdv2, hdv1, hdv2, hdo1, hdo2⟩
    · exact ⟨hdc1, hdc2, hdv1, hdv2, hdo1, hdo2⟩
  refine ⟨hdvd6, fun x hx => ⟨(imod_flr_eq_zero_iff hv).mpr hx,
    idiv_flr_mul_cancel hv hx⟩, ?_, (imod_flr_eq_zero_iff hv).mpr hs⟩
  simp only [normalize_indices, List.zipWith]
  rw [idiv_flr_mul_cancel hv hdvd6.1,
    idiv_flr_mul_cancel hv hdvd6.2.2.1,
    idiv_flr_mul_cancel hv hdvd6.2.2.2.2.1]

theorem claim_normalize_exact_witness :
    (0 : Int) < (DimInput.mk 0 4 8 1 3).vpts ∧
    (DimInput.mk 0 4 8 1 3).vpts ∣ (DimInput.mk 0 4 8 1 3).cpts ∧
    (0 : Int) < (DimInput.mk 0 4 8 1 3).cpts ∧
    (DimInput.mk 0 4 8 1 3).vpts ∣ (12 : Int) ∧
    ((DimInput.mk 0 4 8 1 3).vpts ∣
      (calc_dim 16 [] (DimInput.mk 0 4 8 1 3)).fcbgn ∧
     imod_flr 12 (DimInput.mk 0 4 8 1 3).vpts = 0) :=
  ⟨by decide, ⟨2, by decide⟩, by decide, ⟨3, by decide⟩,
   (claim_normalize_exact 16 [] (DimInput.mk 0 4 8 1 3) (by decide)
     ⟨2, by decide⟩ (by decide) 12 ⟨3, by decide⟩).1.1,
   (claim_normalize_exact 16 [] (DimInput.mk 0 4 8 1 3) (by decide)
     ⟨2, by decide⟩ (by decide) 12 ⟨3, by decide⟩).2.2.2⟩

theorem length_sels_of (cd lr : Nat) : ∀ n, (sels_of cd lr n).length = n := by
  intro n
  induction n generalizing cd lr with
  | zero => rfl
  | succ n ih =>
    unfold sels_of
    by_cases hb : cd.testBit 0
    · rw [if_pos hb]
      simp [ih]
    · rw [if_neg hb]
      simp [ih]

theorem sels_of_succ (cd lr : Nat) (n : Nat) :
    sels_of cd lr (n + 1) =
      (if cd.testBit 0 then
        (if !(lr.testBit 0) then Sel.left else Sel.right) ::
          sels_of (cd >>> 1) (lr >>> 1) n
       else Sel.pass :: sels_of (cd >>> 1) lr n) := rfl

/-- The boundary-part builder, rephrased over the per-dim selection
choices decoded from the combo and left-right bitsets. -/
theorem build_part_eq (cs : List DimCalc) : ∀ (cd lr j nsel : Nat),
    build_part cd lr cs j nsel =
      { fvb := fvb_of cs (sels_of (cd >>> j) (lr >>> nsel) cs.length)
        fve := fve_of cs (sels_of (cd >>> j) (lr >>> nsel) cs.length)
        pvb := pvb_of cs (sels_of (cd >>> j) (lr >>> nsel) cs.length)
        pve := pve_of cs (sels_of (cd >>> j) (lr >>> nsel) cs.length)
        fv_needed := fv_needed_of cs (sels_of (cd >>> j) (lr >>> nsel) cs.length)
        pv_needed := pv_needed_of cs (sels_of (cd >>> j) (lr >>> nsel) cs.length)
        pv_mask := pv_mask_of cs (sels_of (cd >>> j) (lr >>> nsel) cs.length) } := by
  induction cs with
  | nil => intro cd lr j nsel; rfl
  | cons c cs ih =>
    intro cd lr j nsel
    have hbit : (cd >>> j).testBit 0 = cd.testBit j := by
      rw [Nat.testBit_shiftRight, Nat.add_zero]
    have hbitlr : (lr >>> nsel).testBit 0 = lr.testBit nsel := by
      rw [Nat.testBit_shiftRight, Nat.add_zero]
    have hshcd : (cd >>> j) >>> 1 = cd >>> (j + 1) :=
      (Nat.shiftRight_add cd j 1).symm
    have hshlr : (lr >>> nsel) >>> 1 = lr >>> (nsel + 1) :=
      (Nat.shiftRight_add lr nsel 1).symm
    show build_part cd lr (c :: cs) j nsel = _
    rw [List.length_cons, sels_of_succ, hbit, hbitlr, hshcd, hshlr]
    unfold build_part
    by_cases hb : cd.testBit j
    · rw [if_pos hb, if_pos hb]
      by_cases hl : lr.testBit nsel
      · rw [if_neg (by simp [hl]), if_neg (by simp [hl])]
        rw [ih cd lr (j + 1) (nsel + 1)]
        rfl
      · rw [if_pos (by simp [hl]), if_pos (by simp [hl])]
        rw [ih cd lr (j + 1) (nsel + 1)]
        rfl
    · rw [if_neg hb, if_neg hb]
      rw [ih cd lr (j + 1) nsel]
      rfl

theorem fv_needed_of_eq_false_iff :
    ∀ (cs : List DimCalc) (sl : List Sel), sl.length = cs.length →
    (fv_needed_of cs sl = false ↔ ∃ p ∈ List.zip cs sl,
      (p.2 = Sel.left ∧ p.1.lf = false) ∨
      (p.2 = Sel.right ∧ p.1.rf = false)) := by
  intro cs
  induction cs with
  | nil =>
    intro sl hlen
    rw [List.length_eq_zero.mp hlen]
    simp [fv_needed_of]
  | cons c cs ih =>
    intro sl hlen
    cases sl with
    | nil => simp at hlen
    | cons s sl =>
      simp only [List.length_cons] at hlen
      unfold fv_needed_of
      rw [Bool.and_eq_false_iff]
      rw [ih sl (by omega)]
      constructor
      · rintro (hs | hrest)
        · cases s with
          | pass => simp at hs
          | left => exact ⟨(c, Sel.left), by simp [List.zip_cons_cons], Or.inl ⟨rfl, hs⟩⟩
          | right => exact ⟨(c, Sel.right), by simp [List.zip_cons_cons], Or.inr ⟨rfl, hs⟩⟩
        · rcases hrest with ⟨p, hp, hcond⟩
          exact ⟨p, by simp [List.zip_cons_cons, hp], hcond⟩
      · rintro ⟨p, hp, hcond⟩
        rw [List.zip_cons_cons, List.mem_cons] at hp
        rcases hp with rfl | hp
        · left
          rcases hcond with ⟨hs, hf⟩ | ⟨hs, hf⟩ <;> simp only at hs <;>
            rw [hs] <;> exact hf
        · right
          exact ⟨p, hp, hcond⟩

theorem pv_needed_of_eq_false_iff :
    ∀ (cs : List DimCalc) (sl : List Sel), sl.length = cs.length →
    (pv_needed_of cs sl = false ↔ ∃ p ∈ List.zip cs sl,
      (p.2 = Sel.left ∧ p.1.lp = false) ∨
      (p.2 = Sel.right ∧ p.1.rp = false)) := by
  intro cs
  induction cs with
  | nil =>
    intro sl hlen
    rw [List.length_eq_zero.mp hlen]
    simp [pv_needed_of]
  | cons c cs ih =>
    intro sl hlen
    cases sl with
    | nil => simp at hlen
    | cons s sl =>
      simp only [List.length_cons] at hlen
      unfold pv_needed_of
      rw [Bool.and_eq_false_iff]
      rw [ih sl (by omega)]
      constructor
      · rintro (hs | hrest)
        · cases s with
          | pass => simp at hs
          | left => exact ⟨(c, Sel.left), by simp [List.zip_cons_cons], Or.inl ⟨rfl, hs⟩⟩
          | right => exact ⟨(c, Sel.right), by simp [List.zip_cons_cons], Or.inr ⟨rfl, hs⟩⟩
        · rcases hrest with ⟨p, hp, hcond⟩
          exact ⟨p, by simp [List.zip_cons_cons, hp], hcond⟩
      · rintro ⟨p, hp, hcond⟩
        rw [List.zip_cons_cons, List.mem_cons] at hp
        rcases hp with rfl | hp
        · left
          rcases hcond with ⟨hs, hf⟩ | ⟨hs, hf⟩ <;> simp only at hs <;>
            rw [hs] <;> exact hf
        · right
          exact ⟨p, hp, hcond⟩

/-- Claim C5 counterexample: the partial-vector boundary region does
NOT keep `norm_fcidxs` bounds in non-selected dims.  For a 2-D
configuration (fold 4 per dim; cluster 8 in dim 0, 4 in dim 1;
nano-block `[4,16) x [2,16)`), the combo selecting only dim 1 on the
left (`cd = 2`, `lr = 0`) emits its partial-vector part
(`pv_needed = true`), and that part's begin bound in the non-selected
dim 0 equals `norm_fvidxs.begin` (`= 1`) and differs from
`norm_fcidxs.begin` (`= 2`): the code initializes `pv_part` from
`norm_fvidxs` (stencil_calc.hpp:830), not from `norm_fcidxs`. -/
theorem claim_boundary_part_bounds_counterexample :
    Nat.testBit 2 0 = false ∧
    (build_part 2 0 (calc_dims true
      [DimInput.mk 0 4 8 4 16, DimInput.mk 0 4 4 2 16]) 0 0).pv_needed
      = true ∧
    (build_part 2 0 (calc_dims true
      [DimInput.mk 0 4 8 4 16, DimInput.mk 0 4 4 2 16]) 0 0).pvb.getD 0 0
      = nfvbgn ((calc_dims true
        [DimInput.mk 0 4 8 4 16, DimInput.mk 0 4 4 2 16]).getD 0 cdef0) ∧
    (build_part 2 0 (calc_dims true
      [DimInput.mk 0 4 8 4 16, DimInput.mk 0 4 4 2 16]) 0 0).pvb.getD 0 0
      ≠ nfcbgn ((calc_dims true
        [DimInput.mk 0 4 8 4 16, DimInput.mk 0 4 4 2 16]).getD 0 cdef0)
    := by decide

/-- Claim C5 (amended): in the boundary-region enumeration of
`calc_nano_block_opt`, with the per-dim choices decoded from the combo
bitset `cd` and the left-right sequence `lr`, in every non-selected dim
the full-vector region keeps the `norm_fcidxs` bounds while the
partial-vector region keeps the `norm_fvidxs` bounds (the code
initializes `fv_part` from `norm_fcidxs` and `pv_part` from
`norm_fvidxs`); in each selected dim the full-vector region spans
`[norm_fvidxs.begin, norm_fcidxs.begin)` on the left or
`[norm_fcidxs.end, norm_fvidxs.end)` on the right, and the
partial-vector region spans `[norm_ovidxs.begin, norm_fvidxs.begin)` on
the left or `[norm_fvidxs.end, norm_ovidxs.end)` on the right
(`fvb_of` etc. spell out exactly these per-dim bounds); the
full-vector call is skipped iff some selected dim lacks that side's
full-vec flag, likewise the partial-vector call; and the
partial-vector mask is the bitwise AND over selected dims of
`peel_masks[j]` (left) or `rem_masks[j]` (right), starting from all
ones. -/
theorem claim_boundary_part_bounds (cs : List DimCalc) (cd lr : Nat) :
    (build_part cd lr cs 0 0).fvb = fvb_of cs (sels_of cd lr cs.length) ∧
    (build_part cd lr cs 0 0).fve = fve_of cs (sels_of cd lr cs.length) ∧
    (build_part cd lr cs 0 0).pvb = pvb_of cs (sels_of cd lr cs.length) ∧
    (build_part cd lr cs 0 0).pve = pve_of cs (sels_of cd lr cs.length) ∧
    ((build_part cd lr cs 0 0).fv_needed = false ↔
      ∃ p ∈ List.zip cs (sels_of cd lr cs.length),
        (p.2 = Sel.left ∧ p.1.lf = false) ∨
        (p.2 = Sel.right ∧ p.1.rf = false)) ∧
    ((build_part cd lr cs 0 0).pv_needed = false ↔
      ∃ p ∈ List.zip cs (sels_of cd lr cs.length),
        (p.2 = Sel.left ∧ p.1.lp = false) ∨
        (p.2 = Sel.right ∧ p.1.rp = false)) ∧
    (build_part cd lr cs 0 0).pv_mask =
      pv_mask_of cs (sels_of cd lr cs.length) := by
  have hb := build_part_eq cs cd lr 0 0
  rw [hb]
  refine ⟨rfl, rfl, rfl, rfl, ?_, ?_, rfl⟩
  · exact fv_needed_of_eq_false_iff cs _ (length_sels_of cd lr cs.length)
  · exact pv_needed_of_eq_false_iff cs _ (length_sels_of cd lr cs.length)

theorem boundary_calls_kind (cs : List DimCalc) :
    ∀ c ∈ boundary_calls cs, c.kind = CallKind.vectors := by
  intro c hc
  unfold boundary_calls at hc
  rw [List.mem_flatMap] at hc
  obtain ⟨cd, _, hc⟩ := hc
  rw [List.mem_flatMap] at hc
  obtain ⟨lr, _, hc⟩ := hc
  unfold part_calls at hc
  rw [List.mem_append] at hc
  rcases hc with hc | hc
  · by_cases hb : (build_part cd lr cs 0 0).fv_needed
    · rw [if_pos hb, List.mem_singleton] at hc
      rw [hc]
    · rw [if_neg hb] at hc
      simp at hc
  · by_cases hb : (build_part cd lr cs 0 0).pv_needed
    · rw [if_pos hb, List.mem_singleton] at hc
      rw [hc]
    · rw [if_neg hb] at hc
      simp at hc

theorem bool_eq_of_iff {a b : Bool} (h : a = true ↔ b = true) : a = b := by
  cases a <;> cases b <;> simp_all

theorem calc_dim_has_outside (nlanes : Nat) (ptsj : List Int)
    (d : DimInput) :
    (calc_dim nlanes ptsj d).has_outside =
      ((calc_dim nlanes ptsj d).lf || (calc_dim nlanes ptsj d).rf ||
       (calc_dim nlanes ptsj d).lp || (calc_dim nlanes ptsj d).rp) := by
  rcases calc_dim_eq_cases nlanes ptsj d with ⟨_, heq⟩ | ⟨_, _, heq⟩ |
    ⟨_, _, heq⟩ <;> rw [heq] <;> simp

theorem calc_dim_clears_eq (nlanes : Nat) (ptsj : List Int) (d : DimInput)
    (hv : 0 < d.vpts) (hdvd : d.vpts ∣ d.cpts) (hc : 0 < d.cpts) :
    (calc_dim nlanes ptsj d).clears_clusters =
      !decide ((calc_dim nlanes ptsj d).fcbgn <
        (calc_dim nlanes ptsj d).fcend) := by
  obtain ⟨ho1, ho2, ho3, ho4, ho5, ho6, ho7, ho8, hdc1, hdc2, hdv1,
    hdv2, hdo1, hdo2⟩ := calc_dim_raw_facts nlanes ptsj d hv hdvd hc
  rcases calc_dim_eq_cases nlanes ptsj d with ⟨⟨hlp, hrp, hov⟩, heq⟩ |
    ⟨_, hcl, heq⟩ | ⟨_, hcl, heq⟩
  · have hfv := calc_dim_raw_fvbgn_of_lp hv hlp
    rw [heq]
    show true = !decide ((calc_dim_raw nlanes ptsj d).fcbgn <
      (calc_dim_raw nlanes ptsj d).fcend)
    have : ¬((calc_dim_raw nlanes ptsj d).fcbgn <
        (calc_dim_raw nlanes ptsj d).fcend) := by omega
    simp [this]
  · rw [heq]
    show true = !decide ((calc_dim_raw nlanes ptsj d).fvend <
      (calc_dim_raw nlanes ptsj d).fvend)
    simp
  · rw [heq]
    show false = !decide ((calc_dim_raw nlanes ptsj d).fcbgn <
      (calc_dim_raw nlanes ptsj d).fcend)
    simp [hcl]

theorem calc_dims_mem (fi : Bool) (ds : List DimInput) :
    ∀ c ∈ calc_dims fi ds, ∃ d ∈ ds, ∃ j : Nat,
      c = calc_dim (num_lanes ds)
        (dim_lane_coords fi (fold_lengths ds) j) d := by
  intro c hc
  rw [List.mem_iff_getElem] at hc
  obtain ⟨i, hi, heq⟩ := hc
  simp only [calc_dims] at heq hi
  rw [List.length_mapIdx] at hi
  rw [List.getElem_mapIdx] at heq
  exact ⟨ds[i], List.getElem_mem hi, i, heq.symm⟩

/-- Claim C6 counterexample: for a 1-D configuration with fold 4 and
cluster 8, nano-block `[4, 16)`, the global `do_outside_clusters` flag
is set (a left full-vector remains at `[4, 8)`), yet no per-dim
peel/rem (partial-vector) flag is set — so `do_outside_clusters` is
not the OR of the partial-vector flags alone. -/
theorem claim_global_flags_counterexample :
    do_outside_clusters (calc_dims true [DimInput.mk 0 4 8 4 16]) = true ∧
    (calc_dims true [DimInput.mk 0 4 8 4 16]).any
      (fun c => c.lp || c.rp) = false := by decide

/-- Claim C6 (amended): after the per-dim loop of
`calc_nano_block_opt`, `do_clusters` is true iff every domain dim
retains a full-cluster range (`fcbgn < fcend`, AND across dims), and
`do_outside_clusters` is true iff the OR across dims of the four
per-dim boundary flags — the full-vector flags together with the
peel/rem partial-vector flags — is true (the flag is also set by dims
with only full-vector work, not only by partial-vector flags);
`calc_clusters` is invoked iff `do_clusters` is true, and the boundary
enumeration's calls are dispatched iff `do_outside_clusters` is true. -/
theorem claim_global_flags (fi : Bool) (ds : List DimInput)
    (H : ∀ d ∈ ds, 0 < d.vpts ∧ d.vpts ∣ d.cpts ∧ 0 < d.cpts) :
    (do_clusters (calc_dims fi ds) =
      (calc_dims fi ds).all (fun c => decide (c.fcbgn < c.fcend))) ∧
    (do_outside_clusters (calc_dims fi ds) =
      (calc_dims fi ds).any (fun c => c.lf || c.rf || c.lp || c.rp)) ∧
    (cluster_call (calc_dims fi ds) ∈ dispatched_calls (calc_dims fi ds) ↔
      do_clusters (calc_dims fi ds) = true) ∧
    (do_outside_clusters (calc_dims fi ds) = false →
      ∀ c ∈ dispatched_calls (calc_dims fi ds),
        c = cluster_call (calc_dims fi ds)) ∧
    (do_outside_clusters (calc_dims fi ds) = true →
      ∀ c ∈ boundary_calls (calc_dims fi ds),
        c ∈ dispatched_calls (calc_dims fi ds)) := by
  refine ⟨?_, ?_, ?_, ?_, ?_⟩
  · apply bool_eq_of_iff
    rw [do_clusters, List.all_eq_true, List.all_eq_true]
    constructor
    · intro h c hc
      obtain ⟨d, hd, j, rfl⟩ := calc_dims_mem fi ds c hc
      obtain ⟨hv, hdvd, hcp⟩ := H d hd
      have := h _ hc
      rw [calc_dim_clears_eq _ _ _ hv hdvd hcp] at this
      simpa using this
    · intro h c hc
      obtain ⟨d, hd, j, rfl⟩ := calc_dims_mem fi ds c hc
      obtain ⟨hv, hdvd, hcp⟩ := H d hd
      rw [calc_dim_clears_eq _ _ _ hv hdvd hcp]
      simpa using h _ hc
  · apply bool_eq_of_iff
    rw [do_outside_clusters, List.any_eq_true, List.any_eq_true]
    constructor
    · rintro ⟨c, hc, hout⟩
      refine ⟨c, hc, ?_⟩
      obtain ⟨d, hd, j, rfl⟩ := calc_dims_mem fi ds c hc
      rw [calc_dim_has_outside] at hout
      exact hout
    · rintro ⟨c, hc, hout⟩
      refine ⟨c, hc, ?_⟩
      obtain ⟨d, hd, j, rfl⟩ := calc_dims_mem fi ds c hc
      rw [calc_dim_has_outside]
      exact hout
  · unfold dispatched_calls
    constructor
    · intro hmem
      rw [List.mem_append] at hmem
      rcases hmem with hm | hm
      · by_cases hdc : do_clusters (calc_dims fi ds)
        · exact hdc
        · rw [if_neg hdc] at hm
          simp at hm
      · by_cases hout : do_outside_clusters (calc_dims fi ds)
        · rw [if_pos hout] at hm
          have hk := boundary_calls_kind (calc_dims fi ds) _ hm
          simp [cluster_call] at hk
        · rw [if_neg hout] at hm
          simp at hm
    · intro hdc
      rw [if_pos hdc, List.mem_append]
      exact Or.inl (List.mem_singleton.mpr rfl)
  · intro hout c hc
    unfold dispatched_calls at hc
    rw [hout] at hc
    rw [List.mem_append] at hc
    rcases hc with hc | hc
    · by_cases hdc : do_clusters (calc_dims fi ds) = true
      · rw [if_pos hdc, List.mem_singleton] at hc
        exact hc
      · rw [if_neg hdc] at hc
        simp at hc
    · rw [if_neg (by simp)] at hc
      simp at hc
  · intro hout c hc
    unfold dispatched_calls
    rw [hout, if_pos rfl]
    rw [List.mem_append]
    exact Or.inr hc

theorem idx_of_lt_length {o : List Int} :
    ∀ {L : List (List Int)}, o ∈ L → idx_of o L < L.length := by
  intro L
  induction L with
  | nil => intro h; simp at h
  | cons p ps ih =>
    intro h
    unfold idx_of
    by_cases hp : p = o
    · rw [if_pos hp]
      simp
    · rw [if_neg hp]
      rw [List.mem_cons] at h
      rcases h with h | h
      · exact absurd h.symm hp
      · simpa using ih h

theorem getD_idx_of {o : List Int} :
    ∀ {L : List (List Int)}, o ∈ L → L.getD (idx_of o L) [] = o := by
  intro L
  induction L with
  | nil => intro h; simp at h
  | cons p ps ih =>
    intro h
    unfold idx_of
    by_cases hp : p = o
    · rw [if_pos hp]
      simpa using hp
    · rw [if_neg hp]
      rw [List.mem_cons] at h
      rcases h with h | h
      · exact absurd h.symm hp
      · simpa using ih h

theorem claim_global_flags_witness :
    (∀ d ∈ [DimInput.mk 0 4 8 4 16],
      0 < d.vpts ∧ d.vpts ∣ d.cpts ∧ 0 < d.cpts) ∧
    (do_clusters (calc_dims true [DimInput.mk 0 4 8 4 16]) =
      (calc_dims true [DimInput.mk 0 4 8 4 16]).all
        (fun c => decide (c.fcbgn < c.fcend))) :=
  ⟨by decide,
   (claim_global_flags true [DimInput.mk 0 4 8 4 16] (by decide)).1⟩

theorem imod_flr_bounds (x : Int) {v : Int} (hv : 0 < v) :
    0 ≤ imod_flr x v ∧ imod_flr x v < v := by
  unfold imod_flr
  rw [Int.fmod_eq_emod x hv.le]
  exact ⟨Int.emod_nonneg x hv.ne.symm, Int.emod_lt_of_pos x hv⟩

theorem imod_flr_shift {x a v : Int} (hv : 0 < v) (hd : v ∣ a)
    (h1 : a ≤ x) (h2 : x < a + v) : imod_flr x v = x - a := by
  unfold imod_flr
  rw [Int.fmod_eq_emod x hv.le]
  rcases hd with ⟨c, rfl⟩
  have hx : x % v = (x - v * c) % v := by
    conv_lhs => rw [show x = (x - v * c) + c * v by ring]
    rw [Int.add_mul_emod_self]
  rw [hx, Int.emod_eq_of_lt (by omega) (by omega)]

theorem norm_le_iff {a x v : Int} (hv : 0 < v) (hd : v ∣ a) :
    idiv_flr a v ≤ idiv_flr x v ↔ a ≤ x := by
  rcases hd with ⟨c, rfl⟩
  rw [idiv_flr_eq_ediv _ hv.le, idiv_flr_eq_ediv _ hv.le,
    Int.mul_ediv_cancel_left c hv.ne.symm]
  rw [Int.le_ediv_iff_mul_le hv]
  constructor
  · intro h
    linarith [mul_comm c v]
  · intro h
    linarith [mul_comm c v]

theorem norm_lt_iff {b x v : Int} (hv : 0 < v) (hd : v ∣ b) :
    idiv_flr x v < idiv_flr b v ↔ x < b := by
  rcases hd with ⟨c, rfl⟩
  rw [idiv_flr_eq_ediv _ hv.le, idiv_flr_eq_ediv _ hv.le,
    Int.mul_ediv_cancel_left c hv.ne.symm]
  rw [Int.ediv_lt_iff_lt_mul hv]
  constructor
  · intro h
    linarith [mul_comm c v]
  · intro h
    linarith [mul_comm c v]

theorem norm_range_elem_iff {a b x v : Int} (hv : 0 < v) (hda : v ∣ a)
    (hdb : v ∣ b) :
    (idiv_flr a v ≤ idiv_flr x v ∧ idiv_flr x v < idiv_flr b v) ↔
      (a ≤ x ∧ x < b) := by
  rw [norm_le_iff hv hda, norm_lt_iff hv hdb]

theorem getD_zipWith {α β γ : Type} (f : α → β → γ) {as : List α}
    {bs : List β} {j : Nat} (hja : j < as.length) (hjb : j < bs.length)
    (da : α) (db : β) (dc : γ) :
    (List.zipWith f as bs).getD j dc = f (as.getD j da) (bs.getD j db) := by
  rw [List.getD_eq_getElem _ _ (by rw [List.length_zipWith]; omega),
    List.getD_eq_getElem _ _ hja, List.getD_eq_getElem _ _ hjb,
    List.getElem_zipWith]

theorem lane_offsets_in_box {vs x : List Int}
    (hlen : x.length = vs.length) (hv : ∀ v ∈ vs, 0 < v) :
    InBox vs (lane_offsets vs x) := by
  unfold InBox lane_offsets
  induction vs generalizing x with
  | nil =>
    rw [List.length_nil, List.length_eq_zero] at hlen
    rw [hlen]
    exact List.Forall₂.nil
  | cons v vs ih =>
    cases x with
    | nil => simp at hlen
    | cons xi xs =>
      simp only [List.length_cons] at hlen
      rw [List.zipWith_cons_cons]
      exact List.Forall₂.cons
        (imod_flr_bounds xi (hv v (List.mem_cons_self v vs)))
        (ih (by omega) (fun w hw => hv w (List.mem_cons_of_mem v hw)))

theorem all_ones_mask_testBit {k : Nat} (hk : k < 64) :
    all_ones_mask.testBit k = true := by
  unfold all_ones_mask
  rw [Nat.testBit_two_pow_sub_one]
  simpa using hk

theorem all_ones_mask_testBit_iff (k : Nat) :
    all_ones_mask.testBit k = true ↔ k < 64 := by
  unfold all_ones_mask
  rw [Nat.testBit_two_pow_sub_one]
  simp

theorem cd_of_cons (s : Sel) (sl : List Sel) :
    cd_of (s :: sl) = (if s = Sel.pass then 0 else 1) + 2 * cd_of sl := rfl

theorem cd_of_lt (sl : List Sel) : cd_of sl < 2 ^ sl.length := by
  induction sl with
  | nil => simp [cd_of]
  | cons s sl ih =>
    rw [cd_of_cons, List.length_cons, Nat.pow_succ]
    by_cases h : s = Sel.pass <;> simp [h] <;> omega

theorem lr_of_lt (sl : List Sel) :
    lr_of sl < 2 ^ sl.countP (fun s => !(s == Sel.pass)) := by
  induction sl with
  | nil => simp [lr_of]
  | cons s sl ih =>
    cases s with
    | pass =>
      show lr_of sl < _
      rw [List.countP_cons]
      simpa using ih
    | left =>
      show 2 * lr_of sl < _
      rw [List.countP_cons]
      have hcond : (!(Sel.left == Sel.pass)) = true := rfl
      rw [hcond, if_pos rfl, Nat.pow_succ]
      omega
    | right =>
      show 1 + 2 * lr_of sl < _
      rw [List.countP_cons]
      have hcond : (!(Sel.right == Sel.pass)) = true := rfl
      rw [hcond, if_pos rfl, Nat.pow_succ]
      omega

theorem cd_of_eq_zero_iff (sl : List Sel) :
    cd_of sl = 0 ↔ ∀ s ∈ sl, s = Sel.pass := by
  induction sl with
  | nil => simp [cd_of]
  | cons s sl ih =>
    rw [cd_of_cons]
    by_cases h : s = Sel.pass
    · simp [h, ih]
    · simp [h]

theorem cd_of_testBit_zero (s : Sel) (sl : List Sel) :
    (cd_of (s :: sl)).testBit 0 = decide (s ≠ Sel.pass) := by
  rw [Nat.testBit_zero, cd_of_cons]
  by_cases h : s = Sel.pass <;> simp [h] <;> omega

theorem cd_of_shiftRight_one (s : Sel) (sl : List Sel) :
    cd_of (s :: sl) >>> 1 = cd_of sl := by
  rw [Nat.shiftRight_one, cd_of_cons]
  by_cases h : s = Sel.pass <;> simp [h] <;> omega

theorem decode_encode (sl : List Sel) :
    sels_of (cd_of sl) (lr_of sl) sl.length = sl := by
  induction sl with
  | nil => rfl
  | cons s sl ih =>
    rw [List.length_cons, sels_of_succ, cd_of_testBit_zero,
      cd_of_shiftRight_one]
    cases s with
    | pass =>
      rw [if_neg (by simp)]
      show Sel.pass :: sels_of (cd_of sl) (lr_of sl) sl.length = _
      rw [ih]
    | left =>
      rw [if_pos (by simp)]
      have hbit : (lr_of (Sel.left :: sl)).testBit 0 = false := by
        rw [Nat.testBit_zero]
        show decide (2 * lr_of sl % 2 = 1) = false
        simp only [decide_eq_false_iff_not]
        omega
      have hsh : (lr_of (Sel.left :: sl)) >>> 1 = lr_of sl := by
        rw [Nat.shiftRight_one]
        show 2 * lr_of sl / 2 = lr_of sl
        omega
      rw [hbit, hsh]
      show Sel.left :: sels_of (cd_of sl) (lr_of sl) sl.length = _
      rw [ih]
    | right =>
      rw [if_pos (by simp)]
      have hbit : (lr_of (Sel.right :: sl)).testBit 0 = true := by
        rw [Nat.testBit_zero]
        show decide ((1 + 2 * lr_of sl) % 2 = 1) = true
        simp only [decide_eq_true_eq]
        omega
      have hsh : (lr_of (Sel.right :: sl)) >>> 1 = lr_of sl := by
        rw [Nat.shiftRight_one]
        show (1 + 2 * lr_of sl) / 2 = lr_of sl
        omega
      rw [hbit, hsh]
      show Sel.right :: sels_of (cd_of sl) (lr_of sl) sl.length = _
      rw [ih]

theorem n_sel_zero (cd : Nat) : n_sel 0 cd = 0 := rfl

theorem n_sel_succ (n cd : Nat) :
    n_sel (n + 1) cd =
      (if cd.testBit 0 then 1 else 0) + n_sel n (cd >>> 1) := by
  unfold n_sel
  rw [List.range_succ_eq_map, List.countP_cons, List.countP_map]
  have hfun : ((fun j => cd.testBit j) ∘ Nat.succ) =
      (fun j => (cd >>> 1).testBit j) := by
    funext j
    show cd.testBit (j + 1) = (cd >>> 1).testBit j
    rw [Nat.testBit_succ, Nat.shiftRight_one]
  rw [hfun]
  by_cases hb : cd.testBit 0 <;> simp [hb] <;> omega

theorem n_sel_cd_of (sl : List Sel) :
    n_sel sl.length (cd_of sl) = sl.countP (fun s => !(s == Sel.pass)) := by
  induction sl with
  | nil => rfl
  | cons s sl ih =>
    rw [List.length_cons, n_sel_succ, cd_of_testBit_zero,
      cd_of_shiftRight_one, ih, List.countP_cons]
    by_cases h : s = Sel.pass <;> simp [h] <;> omega

theorem encode_decode : ∀ (n cd lr : Nat), cd < 2 ^ n →
    lr < 2 ^ (n_sel n cd) →
    cd_of (sels_of cd lr n) = cd ∧ lr_of (sels_of cd lr n) = lr := by
  intro n
  induction n with
  | zero =>
    intro cd lr h1 h2
    rw [n_sel_zero] at h2
    simp only [pow_zero] at h1 h2
    have : cd = 0 := by omega
    have : lr = 0 := by omega
    subst this
    subst cd
    exact ⟨rfl, rfl⟩
  | succ n ih =>
    intro cd lr h1 h2
    have hcd2 : cd >>> 1 < 2 ^ n := by
      rw [Nat.shiftRight_one]
      rw [Nat.pow_succ] at h1
      omega
    rw [n_sel_succ] at h2
    rw [sels_of_succ]
    by_cases hb : cd.testBit 0
    · have hodd : cd % 2 = 1 := by
        rw [Nat.testBit_zero] at hb
        simpa using hb
      rw [if_pos hb] at h2
      rw [if_pos hb]
      have hlr2 : lr >>> 1 < 2 ^ n_sel n (cd >>> 1) := by
        rw [Nat.shiftRight_one]
        rw [Nat.pow_add, pow_one] at h2
        omega
      obtain ⟨hc, hl⟩ := ih (cd >>> 1) (lr >>> 1) hcd2 hlr2
      by_cases hlb : lr.testBit 0
      · have hlodd : lr % 2 = 1 := by
          rw [Nat.testBit_zero] at hlb
          simpa using hlb
        rw [if_neg (by simp [hlb])]
        constructor
        · rw [cd_of_cons, if_neg (by simp), hc, Nat.shiftRight_one]
          omega
        · show 1 + 2 * lr_of (sels_of (cd >>> 1) (lr >>> 1) n) = lr
          rw [hl, Nat.shiftRight_one]
          omega
      · have hlev : lr % 2 = 0 := by
          rw [Nat.testBit_zero] at hlb
          simp at hlb
          omega
        rw [if_pos (by simp [hlb])]
        constructor
        · rw [cd_of_cons, if_neg (by simp), hc, Nat.shiftRight_one]
          omega
        · show 2 * lr_of (sels_of (cd >>> 1) (lr >>> 1) n) = lr
          rw [hl, Nat.shiftRight_one]
          omega
    · have hev : cd % 2 = 0 := by
        rw [Nat.testBit_zero] at hb
        simp at hb
        omega
      rw [if_neg hb] at h2
      rw [if_neg hb]
      simp only [Nat.zero_add] at h2
      obtain ⟨hc, hl⟩ := ih (cd >>> 1) lr hcd2 h2
      constructor
      · rw [cd_of_cons, if_pos rfl, hc, Nat.shiftRight_one]
        omega
      · show lr_of (sels_of (cd >>> 1) lr n) = lr
        exact hl

theorem in_norm_range_fv_iff :
    ∀ (cs : List DimCalc) (sl : List Sel) (x : List Int),
    sl.length = cs.length → x.length = cs.length →
    (in_norm_range (vpts_of cs) (fvb_of cs sl) (fve_of cs sl) x = true ↔
      List.Forall₂ (fun p xi => fv_dim_cond p.1 p.2 xi) (cs.zip sl) x) := by
  intro cs
  induction cs with
  | nil =>
    intro sl x h1 h2
    rw [List.length_eq_zero.mp h1, List.length_eq_zero.mp h2]
    simp [in_norm_range, vpts_of, fvb_of, fve_of]
  | cons c cs ih =>
    intro sl x h1 h2
    cases sl with
    | nil => simp at h1
    | cons s sl =>
      cases x with
      | nil => simp at h2
      | cons xi xs =>
        simp only [List.length_cons] at h1 h2
        show (decide _ && decide _ && _) = true ↔ _
        rw [List.zip_cons_cons, List.forall₂_cons]
        rw [Bool.and_eq_true, Bool.and_eq_true, decide_eq_true_eq,
          decide_eq_true_eq]
        rw [← ih sl xs (by omega) (by omega)]
        cases s with
        | pass => exact Iff.rfl
        | left => exact Iff.rfl
        | right => exact Iff.rfl

theorem in_norm_range_pv_iff :
    ∀ (cs : List DimCalc) (sl : List Sel) (x : List Int),
    sl.length = cs.length → x.length = cs.length →
    (in_norm_range (vpts_of cs) (pvb_of cs sl) (pve_of cs sl) x = true ↔
      List.Forall₂ (fun p xi => pv_dim_cond p.1 p.2 xi) (cs.zip sl) x) := by
  intro cs
  induction cs with
  | nil =>
    intro sl x h1 h2
    rw [List.length_eq_zero.mp h1, List.length_eq_zero.mp h2]
    simp [in_norm_range, vpts_of, pvb_of, pve_of]
  | cons c cs ih =>
    intro sl x h1 h2
    cases sl with
    | nil => simp at h1
    | cons s sl =>
      cases x with
      | nil => simp at h2
      | cons xi xs =>
        simp only [List.length_cons] at h1 h2
        show (decide _ && decide _ && _) = true ↔ _
        rw [List.zip_cons_cons, List.forall₂_cons]
        rw [Bool.and_eq_true, Bool.and_eq_true, decide_eq_true_eq,
          decide_eq_true_eq]
        rw [← ih sl xs (by omega) (by omega)]
        cases s with
        | pass => exact Iff.rfl
        | left => exact Iff.rfl
        | right => exact Iff.rfl

theorem in_norm_range_cluster_iff :
    ∀ (cs : List DimCalc) (x : List Int), x.length = cs.length →
    (in_norm_range (vpts_of cs) (cs.map nfcbgn) (cs.map nfcend) x = true ↔
      List.Forall₂ (fun c xi => nfcbgn c ≤ idiv_flr xi c.vpts ∧
        idiv_flr xi c.vpts < nfcend c) cs x) := by
  intro cs
  induction cs with
  | nil =>
    intro x h
    rw [List.length_eq_zero.mp h]
    simp [in_norm_range, vpts_of]
  | cons c cs ih =>
    intro x h
    cases x with
    | nil => simp at h
    | cons xi xs =>
      simp only [List.length_cons] at h
      show (decide _ && decide _ && _) = true ↔ _
      rw [List.forall₂_cons]
      rw [Bool.and_eq_true, Bool.and_eq_true, decide_eq_true_eq,
        decide_eq_true_eq]
      rw [← ih xs (by omega)]
      exact and_congr_left (fun _ => Iff.rfl)

theorem in_nano_block_iff :
    ∀ (cs : List DimCalc) (x : List Int), x.length = cs.length →
    (in_nano_block cs x = true ↔
      List.Forall₂ (fun c xi => c.ebgn ≤ xi ∧ xi < c.eend) cs x) := by
  intro cs
  induction cs with
  | nil =>
    intro x h
    rw [List.length_eq_zero.mp h]
    simp [in_nano_block]
  | cons c cs ih =>
    intro x h
    cases x with
    | nil => simp at h
    | cons xi xs =>
      simp only [List.length_cons] at h
      show (decide _ && decide _ && _) = true ↔ _
      rw [List.forall₂_cons]
      rw [Bool.and_eq_true, Bool.and_eq_true, decide_eq_true_eq,
        decide_eq_true_eq]
      rw [← ih xs (by omega)]

theorem fv_needed_of_iff :
    ∀ (cs : List DimCalc) (sl : List Sel), sl.length = cs.length →
    (fv_needed_of cs sl = true ↔ ∀ p ∈ cs.zip sl,
      (p.2 = Sel.left → p.1.lf = true) ∧
      (p.2 = Sel.right → p.1.rf = true)) := by
  intro cs
  induction cs with
  | nil =>
    intro sl h
    rw [List.length_eq_zero.mp h]
    simp [fv_needed_of]
  | cons c cs ih =>
    intro sl h
    cases sl with
    | nil => simp at h
    | cons s sl =>
      simp only [List.length_cons] at h
      show ((match s with
        | Sel.pass => true | Sel.left => c.lf | Sel.right => c.rf) &&
        fv_needed_of cs sl) = true ↔ _
      rw [Bool.and_eq_true, List.zip_cons_cons]
      rw [ih sl (by omega)]
      constructor
      · rintro ⟨hs, hrest⟩ p hp
        rw [List.mem_cons] at hp
        rcases hp with rfl | hp
        · cases s with
          | pass => exact ⟨fun h => by simp at h, fun h => by simp at h⟩
          | left => exact ⟨fun _ => hs, fun h => by simp at h⟩
          | right => exact ⟨fun h => by simp at h, fun _ => hs⟩
        · exact hrest p hp
      · intro hall
        constructor
        · have := hall (c, s) (List.mem_cons_self _ _)
          cases s with
          | pass => rfl
          | left => exact this.1 rfl
          | right => exact this.2 rfl
        · exact fun p hp => hall p (List.mem_cons_of_mem _ hp)

theorem pv_needed_of_iff :
    ∀ (cs : List DimCalc) (sl : List Sel), sl.length = cs.length →
    (pv_needed_of cs sl = true ↔ ∀ p ∈ cs.zip sl,
      (p.2 = Sel.left → p.1.lp = true) ∧
      (p.2 = Sel.right → p.1.rp = true)) := by
  intro cs
  induction cs with
  | nil =>
    intro sl h
    rw [List.length_eq_zero.mp h]
    simp [pv_needed_of]
  | cons c cs ih =>
    intro sl h
    cases sl with
    | nil => simp at h
    | cons s sl =>
      simp only [List.length_cons] at h
      show ((match s with
        | Sel.pass => true | Sel.left => c.lp | Sel.right => c.rp) &&
        pv_needed_of cs sl) = true ↔ _
      rw [Bool.and_eq_true, List.zip_cons_cons]
      rw [ih sl (by omega)]
      constructor
      · rintro ⟨hs, hrest⟩ p hp
        rw [List.mem_cons] at hp
        rcases hp with rfl | hp
        · cases s with
          | pass => exact ⟨fun h => by simp at h, fun h => by simp at h⟩
          | left => exact ⟨fun _ => hs, fun h => by simp at h⟩
          | right => exact ⟨fun h => by simp at h, fun _ => hs⟩
        · exact hrest p hp
      · intro hall
        constructor
        · have := hall (c, s) (List.mem_cons_self _ _)
          cases s with
          | pass => rfl
          | left => exact this.1 rfl
          | right => exact this.2 rfl
        · exact fun p hp => hall p (List.mem_cons_of_mem _ hp)

theorem pv_mask_of_testBit :
    ∀ (cs : List DimCalc) (sl : List Sel) (k : Nat),
    sl.length = cs.length →
    ((pv_mask_of cs sl).testBit k = true ↔ (k < 64 ∧ ∀ p ∈ cs.zip sl,
      (p.2 = Sel.left → p.1.pmask.testBit k = true) ∧
      (p.2 = Sel.right → p.1.rmask.testBit k = true))) := by
  intro cs
  induction cs with
  | nil =>
    intro sl k h
    rw [List.length_eq_zero.mp h]
    show all_ones_mask.testBit k = true ↔ _
    rw [all_ones_mask_testBit_iff]
    simp
  | cons c cs ih =>
    intro sl k h
    cases sl with
    | nil => simp at h
    | cons s sl =>
      simp only [List.length_cons] at h
      rw [List.zip_cons_cons]
      cases s with
      | pass =>
        show (pv_mask_of cs sl).testBit k = true ↔ _
        rw [ih sl k (by omega)]
        constructor
        · rintro ⟨hk, hrest⟩
          refine ⟨hk, fun p hp => ?_⟩
          rw [List.mem_cons] at hp
          rcases hp with rfl | hp
          · exact ⟨fun h2 => by simp at h2, fun h2 => by simp at h2⟩
          · exact hrest p hp
        · rintro ⟨hk, hall⟩
          exact ⟨hk, fun p hp => hall p (List.mem_cons_of_mem _ hp)⟩
      | left =>
        show (c.pmask &&& pv_mask_of cs sl).testBit k = true ↔ _
        rw [Nat.testBit_and, Bool.and_eq_true, ih sl k (by omega)]
        constructor
        · rintro ⟨hp, hk, hrest⟩
          refine ⟨hk, fun p hmem => ?_⟩
          rw [List.mem_cons] at hmem
          rcases hmem with rfl | hmem
          · exact ⟨fun _ => hp, fun h2 => by simp at h2⟩
          · exact hrest p hmem
        · rintro ⟨hk, hall⟩
          refine ⟨(hall (c, Sel.left) (List.mem_cons_self _ _)).1 rfl,
            hk, fun p hp => hall p (List.mem_cons_of_mem _ hp)⟩
      | right =>
        show (c.rmask &&& pv_mask_of cs sl).testBit k = true ↔ _
        rw [Nat.testBit_and, Bool.and_eq_true, ih sl k (by omega)]
        constructor
        · rintro ⟨hp, hk, hrest⟩
          refine ⟨hk, fun p hmem => ?_⟩
          rw [List.mem_cons] at hmem
          rcases hmem with rfl | hmem
          · exact ⟨fun h2 => by simp at h2, fun _ => hp⟩
          · exact hrest p hmem
        · rintro ⟨hk, hall⟩
          refine ⟨(hall (c, Sel.right) (List.mem_cons_self _ _)).2 rfl,
            hk, fun p hp => hall p (List.mem_cons_of_mem _ hp)⟩

/-- Outside the overlap special case, the full-vector range is
non-degenerate. -/
theorem calc_dim_raw_fvbgn_le_fvend (nlanes : Nat) (ptsj : List Int)
    (d : DimInput) (hv : 0 < d.vpts) (hbe : d.bgn ≤ d.dend)
    (hnc : ¬((calc_dim_raw nlanes ptsj d).lp = true ∧
      (calc_dim_raw nlanes ptsj d).rp = true ∧
      (calc_dim_raw nlanes ptsj d).ovbgn = (calc_dim_raw nlanes ptsj d).fvend)) :
    (calc_dim_raw nlanes ptsj d).fvbgn ≤ (calc_dim_raw nlanes ptsj d).fvend := by
  by_contra hgt
  push_neg at hgt
  have hEb : (calc_dim_raw nlanes ptsj d).ebgn = d.bgn - d.rofs := rfl
  have hEe : (calc_dim_raw nlanes ptsj d).eend = d.dend - d.rofs := rfl
  have hOb : (calc_dim_raw nlanes ptsj d).ovbgn =
    round_down_flr (d.bgn - d.rofs) d.vpts := rfl
  have hFv : (calc_dim_raw nlanes ptsj d).fvbgn =
    round_up_flr (d.bgn - d.rofs) d.vpts := rfl
  have hFe : (calc_dim_raw nlanes ptsj d).fvend =
    round_down_flr (d.dend - d.rofs) d.vpts := rfl
  have hmono : (calc_dim_raw nlanes ptsj d).ovbgn ≤
      (calc_dim_raw nlanes ptsj d).fvend := by
    rw [hOb, hFe]
    exact round_down_flr_mono hv (by omega)
  have hup : (calc_dim_raw nlanes ptsj d).fvbgn ≤
      (calc_dim_raw nlanes ptsj d).ovbgn + d.vpts := by
    rw [hFv, hOb]
    exact round_up_flr_le_round_down_flr_add _ hv
  have hovfe : (calc_dim_raw nlanes ptsj d).ovbgn =
      (calc_dim_raw nlanes ptsj d).fvend := by
    rcases lt_or_eq_of_le hmono with hlt | he
    · exfalso
      have hdvd2 : d.vpts ∣ ((calc_dim_raw nlanes ptsj d).fvend -
          (calc_dim_raw nlanes ptsj d).ovbgn) := by
        rw [hFe, hOb]
        exact dvd_sub (dvd_round_down_flr _ _) (dvd_round_down_flr _ _)
      have := Int.le_of_dvd (by omega) hdvd2
      omega
    · exact he
  have hlp : (calc_dim_raw nlanes ptsj d).lp = true := by
    rw [calc_dim_raw_lp_iff]
    rcases lt_or_eq_of_le (le_round_up_flr (d.bgn - d.rofs) hv) with h | h
    · rw [hEb, hFv]
      exact h
    · exfalso
      have hd2 : d.vpts ∣ (d.bgn - d.rofs) := by
        rw [h]
        exact dvd_round_up_flr _ _
      have hself : round_down_flr (d.bgn - d.rofs) d.vpts = d.bgn - d.rofs :=
        round_down_flr_eq_self hv hd2
      omega
  have hrp : (calc_dim_raw nlanes ptsj d).rp = true := by
    rw [calc_dim_raw_rp_iff]
    rcases lt_or_eq_of_le (round_down_flr_le (d.dend - d.rofs) hv) with h | h
    · rw [hEe, hFe]
      exact h
    · exfalso
      have hd2 : d.vpts ∣ (d.dend - d.rofs) := by
        rw [← h]
        exact dvd_round_down_flr _ _
      have hle2 : round_up_flr (d.bgn - d.rofs) d.vpts ≤ d.dend - d.rofs :=
        round_up_flr_le hv hd2 (by omega)
      omega
  exact hnc ⟨hlp, hrp, hovfe⟩

/-- Per-dim pointwise facts about the post-fixup bounds and flags: each
boundary role that contains a block element forces its flag, each role
region is inside the block, and every covered element left of the cluster
interval lies in the full-vector range. -/
theorem calc_dim_pointwise (nlanes : Nat) (ptsj : List Int) (d : DimInput)
    (hv : 0 < d.vpts) (hdvd : d.vpts ∣ d.cpts) (hc : 0 < d.cpts)
    (hbe : d.bgn ≤ d.dend) (c : DimCalc)
    (hcd : c = calc_dim nlanes ptsj d) (xi : Int) :
    (c.ebgn ≤ xi → xi < c.eend → xi < c.fvbgn → c.lp = true) ∧
    (c.fvend ≤ xi → xi < c.eend → c.fvbgn ≤ c.fvend → c.rp = true) ∧
    (c.ebgn ≤ xi → xi < c.eend → c.fvbgn ≤ xi → xi < c.fcbgn →
      c.lf = true) ∧
    (c.fcend ≤ xi → xi < c.fvend → c.ebgn ≤ xi → xi < c.eend →
      c.rf = true) ∧
    (c.ebgn ≤ xi → xi < c.eend → c.fvbgn ≤ xi → c.fvbgn ≤ c.fvend) ∧
    (c.ebgn ≤ xi → xi < c.eend →
      ((c.fcbgn ≤ xi ∧ xi < c.fcend) ∨ (c.fvbgn ≤ xi ∧ xi < c.fcbgn) ∨
       (c.fcend ≤ xi ∧ xi < c.fvend)) →
      (c.fvbgn ≤ xi ∧ xi < c.fvend)) ∧
    (c.fcbgn ≤ xi → xi < c.fcend → (c.ebgn ≤ xi ∧ xi < c.eend)) ∧
    (c.lf = true → c.fvbgn ≤ xi → xi < c.fcbgn →
      (c.ebgn ≤ xi ∧ xi < c.eend)) ∧
    (c.rf = true → c.fcend ≤ xi → xi < c.fvend →
      (c.ebgn ≤ xi ∧ xi < c.eend)) ∧
    (c.fvbgn ≤ xi → xi < c.fvend → (c.ebgn ≤ xi ∧ xi < c.eend)) ∧
    (c.lf = true → c.fcbgn ≤ c.fvend) ∧
    (c.rf = true → c.fcbgn < c.fcend) ∧
    (c.ebgn ≤ c.fvbgn ∧ c.fvend ≤ c.eend ∧ c.ovbgn ≤ c.ebgn ∧
      c.eend ≤ c.ovend ∧ c.fvbgn ≤ c.fcbgn ∧ c.fcend ≤ c.fvend) := by
  obtain ⟨ho1, ho2, ho3, ho4, ho5, ho6, ho7, ho8, hdc1, hdc2, hdv1,
    hdv2, hdo1, hdo2⟩ := calc_dim_raw_facts nlanes ptsj d hv hdvd hc
  rcases calc_dim_eq_cases nlanes ptsj d with ⟨⟨hlp, hrp, hov⟩, heq⟩ |
    ⟨hnc, hcl, heq⟩ | ⟨hnc, hlt, heq⟩
  · have hfb := calc_dim_raw_fvbgn_of_lp hv hlp
    have hoe := calc_dim_raw_ovend_of_rp hv hrp
    have hE1 : c.ebgn = (calc_dim_raw nlanes ptsj d).ebgn := by
      rw [hcd, heq]
    have hE2 : c.eend = (calc_dim_raw nlanes ptsj d).eend := by
      rw [hcd, heq]
    have hE3 : c.fvbgn = (calc_dim_raw nlanes ptsj d).fvbgn := by
      rw [hcd, heq]
    have hE4 : c.fvend = (calc_dim_raw nlanes ptsj d).fvend := by
      rw [hcd, heq]
    have hE5 : c.ovbgn = (calc_dim_raw nlanes ptsj d).ovbgn := by
      rw [hcd, heq]
    have hE6 : c.ovend = (calc_dim_raw nlanes ptsj d).ovend := by
      rw [hcd, heq]
    have hE7 : c.fcbgn = (calc_dim_raw nlanes ptsj d).fcbgn := by
      rw [hcd, heq]
    have hE8 : c.fcend = (calc_dim_raw nlanes ptsj d).fcend := by
      rw [hcd, heq]
    have hL1 : c.lp = true := by rw [hcd, heq]
    have hL3 : c.lf = false := by rw [hcd, heq]
    have hL4 : c.rf = false := by rw [hcd, heq]
    refine ⟨?_, ?_, ?_, ?_, ?_, ?_, ?_, ?_, ?_, ?_, ?_, ?_, ?_⟩
    · intro _ _ _
      exact hL1
    · intro h1 h2 h3
      exfalso
      omega
    · intro h1 h2 h3 h4
      exfalso
      omega
    · intro h1 h2 h3 h4
      exfalso
      omega
    · intro h1 h2 h3
      exfalso
      omega
    · intro h1 h2 h3
      exfalso
      rcases h3 with ⟨ha, hb⟩ | ⟨ha, hb⟩ | ⟨ha, hb⟩ <;> omega
    · intro ha hb
      exfalso
      omega
    · intro h
      rw [hL3] at h
      simp at h
    · intro h
      rw [hL4] at h
      simp at h
    · intro ha hb
      exfalso
      omega
    · intro h
      rw [hL3] at h
      simp at h
    · intro h
      rw [hL4] at h
      simp at h
    · omega
  · have hBfv : (calc_dim_raw nlanes ptsj d).fvbgn ≤
        (calc_dim_raw nlanes ptsj d).fvend :=
      calc_dim_raw_fvbgn_le_fvend nlanes ptsj d hv hbe hnc
    have hE1 : c.ebgn = (calc_dim_raw nlanes ptsj d).ebgn := by
      rw [hcd, heq]
    have hE2 : c.eend = (calc_dim_raw nlanes ptsj d).eend := by
      rw [hcd, heq]
    have hE3 : c.fvbgn = (calc_dim_raw nlanes ptsj d).fvbgn := by
      rw [hcd, heq]
    have hE4 : c.fvend = (calc_dim_raw nlanes ptsj d).fvend := by
      rw [hcd, heq]
    have hE5 : c.ovbgn = (calc_dim_raw nlanes ptsj d).ovbgn := by
      rw [hcd, heq]
    have hE6 : c.ovend = (calc_dim_raw nlanes ptsj d).ovend := by
      rw [hcd, heq]
    have hE7 : c.fcbgn = (calc_dim_raw nlanes ptsj d).fvend := by
      rw [hcd, heq]
    have hE8 : c.fcend = (calc_dim_raw nlanes ptsj d).fvend := by
      rw [hcd, heq]
    have hL1 : c.lp = (calc_dim_raw nlanes ptsj d).lp := by
      rw [hcd, heq]
    have hL2 : c.rp = (calc_dim_raw nlanes ptsj d).rp := by
      rw [hcd, heq]
    have hL3 : c.lf = ((calc_dim_raw nlanes ptsj d).lf ||
        (calc_dim_raw nlanes ptsj d).rf) := by
      rw [hcd, heq]
    have hL4 : c.rf = false := by rw [hcd, heq]
    refine ⟨?_, ?_, ?_, ?_, ?_, ?_, ?_, ?_, ?_, ?_, ?_, ?_, ?_⟩
    · intro h1 h2 h3
      rw [hL1, calc_dim_raw_lp_iff]
      omega
    · intro h1 h2 _
      rw [hL2, calc_dim_raw_rp_iff]
      omega
    · intro h1 h2 h3 h4
      rw [hL3]
      cases hq : (calc_dim_raw nlanes ptsj d).lf with
      | true => simp
      | false =>
        have h5 : (calc_dim_raw nlanes ptsj d).fcbgn ≤
            (calc_dim_raw nlanes ptsj d).fvbgn := by
          by_contra hh
          push_neg at hh
          rw [calc_dim_raw_lf_iff.mpr hh] at hq
          simp at hq
        rw [Bool.false_or, calc_dim_raw_rf_iff]
        omega
    · intro h1 h2 h3 h4
      exfalso
      omega
    · intro _ _ _
      omega
    · intro h1 h2 h3
      rcases h3 with ⟨ha, hb⟩ | ⟨ha, hb⟩ | ⟨ha, hb⟩ <;> omega
    · intro ha hb
      exfalso
      omega
    · intro _ ha hb
      omega
    · intro h _ _
      rw [hL4] at h
      simp at h
    · intro ha hb
      omega
    · intro _
      omega
    · intro h
      rw [hL4] at h
      simp at h
    · omega
  · have hE1 : c.ebgn = (calc_dim_raw nlanes ptsj d).ebgn := by
      rw [hcd, heq]
    have hE2 : c.eend = (calc_dim_raw nlanes ptsj d).eend := by
      rw [hcd, heq]
    have hE3 : c.fvbgn = (calc_dim_raw nlanes ptsj d).fvbgn := by
      rw [hcd, heq]
    have hE4 : c.fvend = (calc_dim_raw nlanes ptsj d).fvend := by
      rw [hcd, heq]
    have hE5 : c.ovbgn = (calc_dim_raw nlanes ptsj d).ovbgn := by
      rw [hcd, heq]
    have hE6 : c.ovend = (calc_dim_raw nlanes ptsj d).ovend := by
      rw [hcd, heq]
    have hE7 : c.fcbgn = (calc_dim_raw nlanes ptsj d).fcbgn := by
      rw [hcd, heq]
    have hE8 : c.fcend = (calc_dim_raw nlanes ptsj d).fcend := by
      rw [hcd, heq]
    have hL1 : c.lp = (calc_dim_raw nlanes ptsj d).lp := by
      rw [hcd, heq]
    have hL2 : c.rp = (calc_dim_raw nlanes ptsj d).rp := by
      rw [hcd, heq]
    have hL3 : c.lf = (calc_dim_raw nlanes ptsj d).lf := by
      rw [hcd, heq]
    have hL4 : c.rf = (calc_dim_raw nlanes ptsj d).rf := by
      rw [hcd, heq]
    refine ⟨?_, ?_, ?_, ?_, ?_, ?_, ?_, ?_, ?_, ?_, ?_, ?_, ?_⟩
    · intro h1 h2 h3
      rw [hL1, calc_dim_raw_lp_iff]
      omega
    · intro h1 h2 _
      rw [hL2, calc_dim_raw_rp_iff]
      omega
    · intro h1 h2 h3 h4
      rw [hL3, calc_dim_raw_lf_iff]
      omega
    · intro h1 h2 h3 h4
      rw [hL4, calc_dim_raw_rf_iff]
      omega
    · intro _ _ _
      omega
    · intro h1 h2 h3
      rcases h3 with ⟨ha, hb⟩ | ⟨ha, hb⟩ | ⟨ha, hb⟩ <;> omega
    · intro ha hb
      omega
    · intro _ ha hb
      omega
    · intro _ ha hb
      omega
    · intro ha hb
      omega
    · intro _
      omega
    · intro _
      omega
    · omega

/-- The fold length survives the fixups, and every post-fixup cluster,
full-vector and outer-vector boundary is a multiple of it. -/
theorem calc_dim_vpts_dvd (nlanes : Nat) (ptsj : List Int) (d : DimInput)
    (hv : 0 < d.vpts) (hdvd : d.vpts ∣ d.cpts) (hc : 0 < d.cpts)
    (c : DimCalc) (hcd : c = calc_dim nlanes ptsj d) :
    c.vpts = d.vpts ∧ d.vpts ∣ c.fcbgn ∧ d.vpts ∣ c.fcend ∧
    d.vpts ∣ c.fvbgn ∧ d.vpts ∣ c.fvend ∧ d.vpts ∣ c.ovbgn ∧
    d.vpts ∣ c.ovend := by
  obtain ⟨ho1, ho2, ho3, ho4, ho5, ho6, ho7, ho8, hdc1, hdc2, hdv1,
    hdv2, hdo1, hdo2⟩ := calc_dim_raw_facts nlanes ptsj d hv hdvd hc
  rcases calc_dim_eq_cases nlanes ptsj d with ⟨_, heq⟩ | ⟨_, _, heq⟩ |
    ⟨_, _, heq⟩
  · rw [hcd, heq]
    exact ⟨rfl, hdc1, hdc2, hdv1, hdv2, hdo1, hdo2⟩
  · rw [hcd, heq]
    exact ⟨rfl, hdv2, hdv2, hdv1, hdv2, hdo1, hdo2⟩
  · rw [hcd, heq]
    exact ⟨rfl, hdc1, hdc2, hdv1, hdv2, hdo1, hdo2⟩

/-- The normalized post-fixup ranges test exactly the element-level
ranges: full-vector, cluster, left and right full-vector fringes. -/
theorem calc_dim_range_iffs (nlanes : Nat) (ptsj : List Int)
    (d : DimInput) (hv : 0 < d.vpts) (hdvd : d.vpts ∣ d.cpts)
    (hc : 0 < d.cpts) (c : DimCalc) (hcd : c = calc_dim nlanes ptsj d)
    (xi : Int) :
    ((nfvbgn c ≤ idiv_flr xi c.vpts ∧ idiv_flr xi c.vpts < nfvend c) ↔
      (c.fvbgn ≤ xi ∧ xi < c.fvend)) ∧
    ((nfcbgn c ≤ idiv_flr xi c.vpts ∧ idiv_flr xi c.vpts < nfcend c) ↔
      (c.fcbgn ≤ xi ∧ xi < c.fcend)) ∧
    ((nfvbgn c ≤ idiv_flr xi c.vpts ∧ idiv_flr xi c.vpts < nfcbgn c) ↔
      (c.fvbgn ≤ xi ∧ xi < c.fcbgn)) ∧
    ((nfcend c ≤ idiv_flr xi c.vpts ∧ idiv_flr xi c.vpts < nfvend c) ↔
      (c.fcend ≤ xi ∧ xi < c.fvend)) := by
  obtain ⟨hV, hd1, hd2, hd3, hd4, hd5, hd6⟩ :=
    calc_dim_vpts_dvd nlanes ptsj d hv hdvd hc c hcd
  unfold nfvbgn nfvend nfcbgn nfcend
  rw [hV]
  exact ⟨norm_range_elem_iff hv hd3 hd4, norm_range_elem_iff hv hd1 hd2,
    norm_range_elem_iff hv hd3 hd1, norm_range_elem_iff hv hd2 hd4⟩

/-- The normalized peel/rem partial-vector ranges together with the
lane-`K` mask bit test exactly the element-level partial-vector
conditions, for the lane whose fold coordinate equals the element's
within-vector offset. -/
theorem calc_dim_mask_iffs (nlanes : Nat) (ptsj : List Int)
    (d : DimInput) (hv : 0 < d.vpts) (hdvd : d.vpts ∣ d.cpts)
    (hc : 0 < d.cpts) (hbe : d.bgn ≤ d.dend)
    (hlen : ptsj.length = nlanes) (c : DimCalc)
    (hcd : c = calc_dim nlanes ptsj d) (K : Nat) (hK : K < nlanes)
    (xi : Int) (hpt : ptsj.getD K 0 = imod_flr xi d.vpts) :
    (((novbgn c ≤ idiv_flr xi c.vpts ∧ idiv_flr xi c.vpts < nfvbgn c) ∧
      c.pmask.testBit K = true) ↔
     (c.ebgn ≤ xi ∧ xi < c.fvbgn ∧ xi < c.eend)) ∧
    (((nfvend c ≤ idiv_flr xi c.vpts ∧ idiv_flr xi c.vpts < novend c) ∧
      c.rmask.testBit K = true) ↔
     (c.fvend ≤ xi ∧ xi < c.eend ∧ c.fvbgn ≤ c.fvend)) := by
  obtain ⟨hV, hd1, hd2, hd3, hd4, hd5, hd6⟩ :=
    calc_dim_vpts_dvd nlanes ptsj d hv hdvd hc c hcd
  have hr1 : (novbgn c ≤ idiv_flr xi c.vpts ∧
      idiv_flr xi c.vpts < nfvbgn c) ↔ (c.ovbgn ≤ xi ∧ xi < c.fvbgn) := by
    unfold novbgn nfvbgn
    rw [hV]
    exact norm_range_elem_iff hv hd5 hd3
  have hr2 : (nfvend c ≤ idiv_flr xi c.vpts ∧
      idiv_flr xi c.vpts < novend c) ↔ (c.fvend ≤ xi ∧ xi < c.ovend) := by
    unfold nfvend novend
    rw [hV]
    exact norm_range_elem_iff hv hd4 hd6
  rw [hr1, hr2]
  obtain ⟨ho1, ho2, ho3, ho4, ho5, ho6, ho7, ho8, hdc1, hdc2, hdv1,
    hdv2, hdo1, hdo2⟩ := calc_dim_raw_facts nlanes ptsj d hv hdvd hc
  rcases calc_dim_eq_cases nlanes ptsj d with ⟨⟨hlp, hrp, hov⟩, heq⟩ |
    ⟨hnc, hcl, heq⟩ | ⟨hnc, hlt, heq⟩
  · have hfb := calc_dim_raw_fvbgn_of_lp hv hlp
    have hoe := calc_dim_raw_ovend_of_rp hv hrp
    have hE1 : c.ebgn = (calc_dim_raw nlanes ptsj d).ebgn := by
      rw [hcd, heq]
    have hE2 : c.eend = (calc_dim_raw nlanes ptsj d).eend := by
      rw [hcd, heq]
    have hE3 : c.fvbgn = (calc_dim_raw nlanes ptsj d).fvbgn := by
      rw [hcd, heq]
    have hE4 : c.fvend = (calc_dim_raw nlanes ptsj d).fvend := by
      rw [hcd, heq]
    have hE5 : c.ovbgn = (calc_dim_raw nlanes ptsj d).ovbgn := by
      rw [hcd, heq]
    have hE6 : c.ovend = (calc_dim_raw nlanes ptsj d).ovend := by
      rw [hcd, heq]
    have hMp : c.pmask = (calc_dim_raw nlanes ptsj d).pmask &&&
        (calc_dim_raw nlanes ptsj d).rmask := by
      rw [hcd, heq]
    have hMr : c.rmask = 0 := by rw [hcd, heq]
    have hlr : ((calc_dim_raw nlanes ptsj d).lp ||
        (calc_dim_raw nlanes ptsj d).rp) = true := by
      rw [hlp, Bool.true_or]
    constructor
    · rw [hMp, Nat.testBit_and, Bool.and_eq_true,
        calc_dim_raw_pmask_testBit hlr hlen hK,
        calc_dim_raw_rmask_testBit hlr hlen hK, hpt,
        decide_eq_true_eq, decide_eq_true_eq]
      constructor
      · rintro ⟨⟨ha, hb⟩, hp, hr⟩
        have hsh : imod_flr xi d.vpts = xi - c.ovbgn :=
          imod_flr_shift hv hd5 ha (by omega)
        refine ⟨by omega, hb, by omega⟩
      · rintro ⟨ha, hb, hc2⟩
        have hov2 : c.ovbgn ≤ xi := by omega
        have hsh : imod_flr xi d.vpts = xi - c.ovbgn :=
          imod_flr_shift hv hd5 hov2 (by omega)
        exact ⟨⟨hov2, hb⟩, by omega, by omega⟩
    · rw [hMr]
      constructor
      · rintro ⟨_, h⟩
        rw [Nat.zero_testBit] at h
        simp at h
      · rintro ⟨_, _, h3⟩
        exfalso
        omega
  · have hBfv : (calc_dim_raw nlanes ptsj d).fvbgn ≤
        (calc_dim_raw nlanes ptsj d).fvend :=
      calc_dim_raw_fvbgn_le_fvend nlanes ptsj d hv hbe hnc
    have hE1 : c.ebgn = (calc_dim_raw nlanes ptsj d).ebgn := by
      rw [hcd, heq]
    have hE2 : c.eend = (calc_dim_raw nlanes ptsj d).eend := by
      rw [hcd, heq]
    have hE3 : c.fvbgn = (calc_dim_raw nlanes ptsj d).fvbgn := by
      rw [hcd, heq]
    have hE4 : c.fvend = (calc_dim_raw nlanes ptsj d).fvend := by
      rw [hcd, heq]
    have hE5 : c.ovbgn = (calc_dim_raw nlanes ptsj d).ovbgn := by
      rw [hcd, heq]
    have hE6 : c.ovend = (calc_dim_raw nlanes ptsj d).ovend := by
      rw [hcd, heq]
    have hMp : c.pmask = (calc_dim_raw nlanes ptsj d).pmask := by
      rw [hcd, heq]
    have hMr : c.rmask = (calc_dim_raw nlanes ptsj d).rmask := by
      rw [hcd, heq]
    by_cases hlr : ((calc_dim_raw nlanes ptsj d).lp ||
        (calc_dim_raw nlanes ptsj d).rp) = true
    · constructor
      · rw [hMp, calc_dim_raw_pmask_testBit hlr hlen hK, hpt,
          decide_eq_true_eq]
        constructor
        · rintro ⟨⟨ha, hb⟩, hp⟩
          have hsh : imod_flr xi d.vpts = xi - c.ovbgn :=
            imod_flr_shift hv hd5 ha (by omega)
          refine ⟨by omega, hb, by omega⟩
        · rintro ⟨ha, hb, hc2⟩
          have hov2 : c.ovbgn ≤ xi := by omega
          have hsh : imod_flr xi d.vpts = xi - c.ovbgn :=
            imod_flr_shift hv hd5 hov2 (by omega)
          exact ⟨⟨hov2, hb⟩, by omega⟩
      · rw [hMr, calc_dim_raw_rmask_testBit hlr hlen hK, hpt,
          decide_eq_true_eq]
        constructor
        · rintro ⟨⟨ha, hb⟩, hr⟩
          have hsh : imod_flr xi d.vpts = xi - c.fvend :=
            imod_flr_shift hv hd4 ha (by omega)
          refine ⟨ha, by omega, by omega⟩
        · rintro ⟨ha, hb, _⟩
          have hsh : imod_flr xi d.vpts = xi - c.fvend :=
            imod_flr_shift hv hd4 ha (by omega)
          exact ⟨⟨ha, by omega⟩, by omega⟩
    · have hf : ((calc_dim_raw nlanes ptsj d).lp ||
          (calc_dim_raw nlanes ptsj d).rp) = false := by
        cases hq : ((calc_dim_raw nlanes ptsj d).lp ||
          (calc_dim_raw nlanes ptsj d).rp) with
        | false => rfl
        | true => exact absurd hq hlr
      have hz := calc_dim_raw_masks_zero hf
      constructor
      · rw [hMp, hz.1]
        constructor
        · rintro ⟨_, h⟩
          rw [Nat.zero_testBit] at h
          simp at h
        · rintro ⟨ha, hb, _⟩
          exfalso
          have hlpt : (calc_dim_raw nlanes ptsj d).lp = true :=
            calc_dim_raw_lp_iff.mpr (by omega)
          rw [hlpt] at hf
          simp at hf
      · rw [hMr, hz.2]
        constructor
        · rintro ⟨_, h⟩
          rw [Nat.zero_testBit] at h
          simp at h
        · rintro ⟨ha, hb, _⟩
          exfalso
          have hrpt : (calc_dim_raw nlanes ptsj d).rp = true :=
            calc_dim_raw_rp_iff.mpr (by omega)
          rw [hrpt] at hf
          simp at hf
  · have hBfv : (calc_dim_raw nlanes ptsj d).fvbgn ≤
        (calc_dim_raw nlanes ptsj d).fvend :=
      calc_dim_raw_fvbgn_le_fvend nlanes ptsj d hv hbe hnc
    have hE1 : c.ebgn = (calc_dim_raw nlanes ptsj d).ebgn := by
      rw [hcd, heq]
    have hE2 : c.eend = (calc_dim_raw nlanes ptsj d).eend := by
      rw [hcd, heq]
    have hE3 : c.fvbgn = (calc_dim_raw nlanes ptsj d).fvbgn := by
      rw [hcd, heq]
    have hE4 : c.fvend = (calc_dim_raw nlanes ptsj d).fvend := by
      rw [hcd, heq]
    have hE5 : c.ovbgn = (calc_dim_raw nlanes ptsj d).ovbgn := by
      rw [hcd, heq]
    have hE6 : c.ovend = (calc_dim_raw nlanes ptsj d).ovend := by
      rw [hcd, heq]
    have hMp : c.pmask = (calc_dim_raw nlanes ptsj d).pmask := by
      rw [hcd, heq]
    have hMr : c.rmask = (calc_dim_raw nlanes ptsj d).rmask := by
      rw [hcd, heq]
    by_cases hlr : ((calc_dim_raw nlanes ptsj d).lp ||
        (calc_dim_raw nlanes ptsj d).rp) = true
    · constructor
      · rw [hMp, calc_dim_raw_pmask_testBit hlr hlen hK, hpt,
          decide_eq_true_eq]
        constructor
        · rintro ⟨⟨ha, hb⟩, hp⟩
          have hsh : imod_flr xi d.vpts = xi - c.ovbgn :=
            imod_flr_shift hv hd5 ha (by omega)
          refine ⟨by omega, hb, by omega⟩
        · rintro ⟨ha, hb, hc2⟩
          have hov2 : c.ovbgn ≤ xi := by omega
          have hsh : imod_flr xi d.vpts = xi - c.ovbgn :=
            imod_flr_shift hv hd5 hov2 (by omega)
          exact ⟨⟨hov2, hb⟩, by omega⟩
      · rw [hMr, calc_dim_raw_rmask_testBit hlr hlen hK, hpt,
          decide_eq_true_eq]
        constructor
        · rintro ⟨⟨ha, hb⟩, hr⟩
          have hsh : imod_flr xi d.vpts = xi - c.fvend :=
            imod_flr_shift hv hd4 ha (by omega)
          refine ⟨ha, by omega, by omega⟩
        · rintro ⟨ha, hb, _⟩
          have hsh : imod_flr xi d.vpts = xi - c.fvend :=
            imod_flr_shift hv hd4 ha (by omega)
          exact ⟨⟨ha, by omega⟩, by omega⟩
    · have hf : ((calc_dim_raw nlanes ptsj d).lp ||
          (calc_dim_raw nlanes ptsj d).rp) = false := by
        cases hq : ((calc_dim_raw nlanes ptsj d).lp ||
          (calc_dim_raw nlanes ptsj d).rp) with
        | false => rfl
        | true => exact absurd hq hlr
      have hz := calc_dim_raw_masks_zero hf
      constructor
      · rw [hMp, hz.1]
        constructor
        · rintro ⟨_, h⟩
          rw [Nat.zero_testBit] at h
          simp at h
        · rintro ⟨ha, hb, _⟩
          exfalso
          have hlpt : (calc_dim_raw nlanes ptsj d).lp = true :=
            calc_dim_raw_lp_iff.mpr (by omega)
          rw [hlpt] at hf
          simp at hf
      · rw [hMr, hz.2]
        constructor
        · rintro ⟨_, h⟩
          rw [Nat.zero_testBit] at h
          simp at h
        · rintro ⟨ha, hb, _⟩
          exfalso
          have hrpt : (calc_dim_raw nlanes ptsj d).rp = true :=
            calc_dim_raw_rp_iff.mpr (by omega)
          rw [hrpt] at hf
          simp at hf

/-- Per-dim characterization of the boundary-call conditions at a block
element: the full-vector side condition (with its flag) holds exactly
for the choice `fsel_of_pt` when the element's vector is full, and the
partial-vector side condition (with flag and lane mask bit) holds
exactly for the choice `sel_of_pt`. -/
theorem calc_dim_sel_iffs (nlanes : Nat) (ptsj : List Int) (d : DimInput)
    (hv : 0 < d.vpts) (hdvd : d.vpts ∣ d.cpts) (hc : 0 < d.cpts)
    (hbe : d.bgn ≤ d.dend) (hlen : ptsj.length = nlanes)
    (c : DimCalc) (hcd : c = calc_dim nlanes ptsj d)
    (K : Nat) (hK : K < nlanes) (xi : Int)
    (hpt : ptsj.getD K 0 = imod_flr xi d.vpts)
    (hb1 : c.ebgn ≤ xi) (hb2 : xi < c.eend) :
    (∀ s : Sel, ((match s with
        | Sel.pass => True
        | Sel.left => c.lf = true
        | Sel.right => c.rf = true) ∧ fv_dim_cond c s xi) ↔
      (c.fvbgn ≤ xi ∧ xi < c.fvend ∧ s = fsel_of_pt c xi)) ∧
    (∀ s : Sel, ((match s with
        | Sel.pass => True
        | Sel.left => c.lp = true
        | Sel.right => c.rp = true) ∧ pv_dim_cond c s xi ∧
       (match s with
        | Sel.pass => True
        | Sel.left => c.pmask.testBit K = true
        | Sel.right => c.rmask.testBit K = true)) ↔
      s = sel_of_pt c xi) := by
  obtain ⟨R1, R2, R3, R4⟩ :=
    calc_dim_range_iffs nlanes ptsj d hv hdvd hc c hcd xi
  obtain ⟨M1, M2⟩ :=
    calc_dim_mask_iffs nlanes ptsj d hv hdvd hc hbe hlen c hcd K hK xi hpt
  obtain ⟨W1, W2, W3, W4, W5, W6, W7, W8, W9, W10, W11, W12, W13⟩ :=
    calc_dim_pointwise nlanes ptsj d hv hdvd hc hbe c hcd xi
  obtain ⟨Wa, Wb, Wc, Wd, We, Wf⟩ := W13
  constructor
  · intro s
    cases s with
    | pass =>
      constructor
      · rintro ⟨_, hcond⟩
        have hint := R2.mp hcond
        have hfv := W6 hb1 hb2 (Or.inl hint)
        have hsel : fsel_of_pt c xi = Sel.pass := by
          unfold fsel_of_pt
          rw [if_neg (by omega), if_neg (by omega)]
        exact ⟨hfv.1, hfv.2, hsel.symm⟩
      · rintro ⟨h1, h2, hs⟩
        have hint : c.fcbgn ≤ xi ∧ xi < c.fcend := by
          unfold fsel_of_pt at hs
          by_cases hc1 : xi < c.fcbgn
          · rw [if_pos hc1] at hs
            simp at hs
          · by_cases hc2 : c.fcend ≤ xi
            · rw [if_neg hc1, if_pos hc2] at hs
              simp at hs
            · omega
        exact ⟨trivial, R2.mpr hint⟩
    | left =>
      constructor
      · rintro ⟨hlf, hcond⟩
        have hl := R3.mp hcond
        have hfv := W6 hb1 hb2 (Or.inr (Or.inl hl))
        have hsel : fsel_of_pt c xi = Sel.left := by
          unfold fsel_of_pt
          rw [if_pos hl.2]
        exact ⟨hfv.1, hfv.2, hsel.symm⟩
      · rintro ⟨h1, h2, hs⟩
        have hlt2 : xi < c.fcbgn := by
          unfold fsel_of_pt at hs
          by_cases hc1 : xi < c.fcbgn
          · exact hc1
          · exfalso
            rw [if_neg hc1] at hs
            by_cases hc2 : c.fcend ≤ xi
            · rw [if_pos hc2] at hs
              simp at hs
            · rw [if_neg hc2] at hs
              simp at hs
        exact ⟨W3 hb1 hb2 h1 hlt2, R3.mpr ⟨h1, hlt2⟩⟩
    | right =>
      constructor
      · rintro ⟨hrf, hcond⟩
        have hr := R4.mp hcond
        have hfv := W6 hb1 hb2 (Or.inr (Or.inr hr))
        have hclt := W12 hrf
        have hsel : fsel_of_pt c xi = Sel.right := by
          unfold fsel_of_pt
          rw [if_neg (by omega), if_pos hr.1]
        exact ⟨hfv.1, hfv.2, hsel.symm⟩
      · rintro ⟨h1, h2, hs⟩
        have hge : c.fcend ≤ xi := by
          unfold fsel_of_pt at hs
          by_cases hc1 : xi < c.fcbgn
          · rw [if_pos hc1] at hs
            simp at hs
          · by_cases hc2 : c.fcend ≤ xi
            · exact hc2
            · rw [if_neg hc1, if_neg hc2] at hs
              simp at hs
        exact ⟨W4 hge h2 hb1 hb2, R4.mpr ⟨hge, h2⟩⟩
  · intro s
    cases s with
    | pass =>
      constructor
      · rintro ⟨_, hcond, _⟩
        have hfv := R1.mp hcond
        have hsel : sel_of_pt c xi = Sel.pass := by
          unfold sel_of_pt
          rw [if_neg (by omega), if_neg (by omega)]
        exact hsel.symm
      · intro hs
        have hfv : c.fvbgn ≤ xi ∧ xi < c.fvend := by
          unfold sel_of_pt at hs
          by_cases hc1 : xi < c.fvbgn
          · rw [if_pos hc1] at hs
            simp at hs
          · by_cases hc2 : c.fvend ≤ xi
            · rw [if_neg hc1, if_pos hc2] at hs
              simp at hs
            · omega
        exact ⟨trivial, R1.mpr hfv, trivial⟩
    | left =>
      constructor
      · rintro ⟨hlp2, hcond, hbit⟩
        have hl := M1.mp ⟨hcond, hbit⟩
        have hsel : sel_of_pt c xi = Sel.left := by
          unfold sel_of_pt
          rw [if_pos hl.2.1]
        exact hsel.symm
      · intro hs
        have hlt2 : xi < c.fvbgn := by
          unfold sel_of_pt at hs
          by_cases hc1 : xi < c.fvbgn
          · exact hc1
          · exfalso
            rw [if_neg hc1] at hs
            by_cases hc2 : c.fvend ≤ xi
            · rw [if_pos hc2] at hs
              simp at hs
            · rw [if_neg hc2] at hs
              simp at hs
        have hm := M1.mpr ⟨hb1, hlt2, hb2⟩
        exact ⟨W1 hb1 hb2 hlt2, hm.1, hm.2⟩
    | right =>
      constructor
      · rintro ⟨hrp2, hcond, hbit⟩
        have hr := M2.mp ⟨hcond, hbit⟩
        have hsel : sel_of_pt c xi = Sel.right := by
          unfold sel_of_pt
          rw [if_neg (by omega), if_pos hr.1]
        exact hsel.symm
      · intro hs
        have hge : c.fvend ≤ xi ∧ c.fvbgn ≤ xi := by
          unfold sel_of_pt at hs
          by_cases hc1 : xi < c.fvbgn
          · rw [if_pos hc1] at hs
            simp at hs
          · by_cases hc2 : c.fvend ≤ xi
            · exact ⟨hc2, by omega⟩
            · rw [if_neg hc1, if_neg hc2] at hs
              simp at hs
        have hfv2 : c.fvbgn ≤ c.fvend := W5 hb1 hb2 hge.2
        have hm := M2.mpr ⟨hge.1, hb2, hfv2⟩
        exact ⟨W2 hge.1 hb2 hfv2, hm.1, hm.2⟩

theorem forall₂_iff_getD {α β : Type} {R : α → β → Prop} (da : α)
    (db : β) : ∀ (l₁ : List α) (l₂ : List β),
    List.Forall₂ R l₁ l₂ ↔ (l₁.length = l₂.length ∧
      ∀ j, j < l₁.length → R (l₁.getD j da) (l₂.getD j db)) := by
  intro l₁
  induction l₁ with
  | nil =>
    intro l₂
    cases l₂ with
    | nil => simp
    | cons b t2 => simp
  | cons a t ih =>
    intro l₂
    cases l₂ with
    | nil => simp
    | cons b t2 =>
      rw [List.forall₂_cons, ih t2]
      constructor
      · rintro ⟨hab, hlen, hrest⟩
        refine ⟨by simp [hlen], fun j hj => ?_⟩
        cases j with
        | zero => simpa using hab
        | succ j =>
          rw [List.getD_cons_succ, List.getD_cons_succ]
          exact hrest j (by simpa using hj)
      · rintro ⟨hlen, hall⟩
        refine ⟨by simpa using hall 0 (by simp), by simpa using hlen,
          fun j hj => ?_⟩
        have := hall (j + 1) (by simp only [List.length_cons]; omega)
        rwa [List.getD_cons_succ, List.getD_cons_succ] at this

theorem forall_mem_iff_getD {α : Type} (dflt : α) (l : List α)
    (Q : α → Prop) :
    (∀ a ∈ l, Q a) ↔ ∀ j, j < l.length → Q (l.getD j dflt) := by
  constructor
  · intro h j hj
    rw [List.getD_eq_getElem _ _ hj]
    exact h _ (List.getElem_mem hj)
  · intro h a ha
    rw [List.mem_iff_getElem] at ha
    obtain ⟨j, hj, rfl⟩ := ha
    have := h j hj
    rwa [List.getD_eq_getElem _ _ hj] at this

theorem getD_zip {α β : Type} {l₁ : List α} {l₂ : List β} {j : Nat}
    (h1 : j < l₁.length) (h2 : j < l₂.length) (d1 : α) (d2 : β) :
    (l₁.zip l₂).getD j (d1, d2) = (l₁.getD j d1, l₂.getD j d2) :=
  getD_zipWith Prod.mk h1 h2 d1 d2 (d1, d2)

theorem sum_map_eq_single {α : Type} [DecidableEq α] (f : α → Nat)
    (a : α) : ∀ (l : List α), l.Nodup → a ∈ l →
    (∀ b ∈ l, b ≠ a → f b = 0) → (l.map f).sum = f a := by
  intro l
  induction l with
  | nil =>
    intro _ h _
    simp at h
  | cons b t ih =>
    intro hnd ha hz
    rw [List.map_cons, List.sum_cons]
    rw [List.nodup_cons] at hnd
    rw [List.mem_cons] at ha
    by_cases hba : b = a
    · have hsum : (t.map f).sum = 0 := by
        apply List.sum_eq_zero
        intro y hy
        rw [List.mem_map] at hy
        obtain ⟨c, hcm, rfl⟩ := hy
        refine hz c (List.mem_cons_of_mem _ hcm) (fun he => hnd.1 ?_)
        have hbc : b = c := by rw [hba, he]
        exact hbc ▸ hcm
      rw [hba, hsum]
      omega
    · rcases ha with rfl | ha
      · exact absurd rfl hba
      · rw [hz b (List.mem_cons_self _ _) hba]
        rw [ih hnd.2 ha
          (fun c hcm hne => hz c (List.mem_cons_of_mem _ hcm) hne)]
        omega

theorem countP_opt_singleton {α : Type} (b : Bool) (c : α)
    (P : α → Bool) :
    (if b = true then [c] else []).countP P =
      if (b = true ∧ P c = true) then 1 else 0 := by
  by_cases hb : b = true
  · rw [if_pos hb]
    by_cases hp : P c = true
    · rw [if_pos ⟨hb, hp⟩]
      simp [List.countP_cons, hp]
    · rw [if_neg (fun h => hp h.2)]
      simp [List.countP_cons, hp]
  · rw [if_neg hb, if_neg (fun h => hb h.1)]
    rfl

/-- The number of covering calls among the (up to two) calls of one
boundary part, in terms of the decoded per-dim choices. -/
theorem part_calls_countP (cs : List DimCalc) (cd lr : Nat)
    (P : KernelCall → Bool) :
    (part_calls cs cd lr).countP P =
      ((if (fv_needed_of cs (sels_of cd lr cs.length) = true ∧
          P { kind := CallKind.vectors,
              nbgn := fvb_of cs (sels_of cd lr cs.length),
              nend := fve_of cs (sels_of cd lr cs.length),
              mask := all_ones_mask } = true) then 1 else 0) +
       (if (pv_needed_of cs (sels_of cd lr cs.length) = true ∧
          P { kind := CallKind.vectors,
              nbgn := pvb_of cs (sels_of cd lr cs.length),
              nend := pve_of cs (sels_of cd lr cs.length),
              mask := pv_mask_of cs (sels_of cd lr cs.length) } = true)
        then 1 else 0)) := by
  have hbp := build_part_eq cs cd lr 0 0
  rw [Nat.shiftRight_zero, Nat.shiftRight_zero] at hbp
  unfold part_calls
  rw [hbp]
  rw [List.countP_append, countP_opt_singleton, countP_opt_singleton]

theorem boundary_calls_countP (cs : List DimCalc) (P : KernelCall → Bool) :
    (boundary_calls cs).countP P =
      (((List.range (2 ^ cs.length)).filter (fun cd => cd ≠ 0)).map
        (fun cd => ((List.range (2 ^ n_sel cs.length cd)).map
          (fun lr => (part_calls cs cd lr).countP P)).sum)).sum := by
  unfold boundary_calls
  rw [countP_flatMap]
  refine congrArg List.sum (List.map_congr_left ?_)
  intro cd _
  rw [countP_flatMap]

theorem boundary_sum_zero (n : Nat) (G : Nat → Nat → Nat)
    (hG : ∀ cd, cd < 2 ^ n → cd ≠ 0 → ∀ lr, lr < 2 ^ n_sel n cd →
      G cd lr = 0) :
    (((List.range (2 ^ n)).filter (fun cd => cd ≠ 0)).map (fun cd =>
      ((List.range (2 ^ n_sel n cd)).map (fun lr => G cd lr)).sum)).sum
      = 0 := by
  apply List.sum_eq_zero
  intro y hy
  rw [List.mem_map] at hy
  obtain ⟨cd, hcd, rfl⟩ := hy
  have hcd2 := List.of_mem_filter hcd
  have hcdr := List.mem_of_mem_filter hcd
  rw [List.mem_range] at hcdr
  apply List.sum_eq_zero
  intro z hz
  rw [List.mem_map] at hz
  obtain ⟨lr, hlr, rfl⟩ := hz
  rw [List.mem_range] at hlr
  exact hG cd hcdr (by simpa using hcd2) lr hlr

/-- When exactly one per-dim choice list can be covered, the double sum
over the boundary enumeration picks it up exactly once. -/
theorem boundary_sum_single (n : Nat) (G : Nat → Nat → Nat)
    (sl₀ : List Sel) (h0 : sl₀.length = n) (hne : cd_of sl₀ ≠ 0)
    (m : Nat)
    (hG : ∀ cd, cd < 2 ^ n → cd ≠ 0 → ∀ lr, lr < 2 ^ n_sel n cd →
      G cd lr = if sels_of cd lr n = sl₀ then m else 0) :
    (((List.range (2 ^ n)).filter (fun cd => cd ≠ 0)).map (fun cd =>
      ((List.range (2 ^ n_sel n cd)).map (fun lr => G cd lr)).sum)).sum
      = m := by
  have hlt : cd_of sl₀ < 2 ^ n := by
    have := cd_of_lt sl₀
    rwa [h0] at this
  have hmem : cd_of sl₀ ∈ (List.range (2 ^ n)).filter
      (fun cd => cd ≠ 0) := by
    rw [List.mem_filter, List.mem_range]
    exact ⟨hlt, by simpa using hne⟩
  have hmain := sum_map_eq_single (fun cd =>
    ((List.range (2 ^ n_sel n cd)).map (fun lr => G cd lr)).sum)
    (cd_of sl₀) ((List.range (2 ^ n)).filter (fun cd => cd ≠ 0))
    ((List.nodup_range _).filter _) hmem ?hzero
  case hzero =>
    intro b hb hbne
    have hb2 := List.of_mem_filter hb
    have hbr := List.mem_of_mem_filter hb
    rw [List.mem_range] at hbr
    show ((List.range (2 ^ n_sel n b)).map (fun lr => G b lr)).sum = 0
    apply List.sum_eq_zero
    intro z hz
    rw [List.mem_map] at hz
    obtain ⟨lr, hlr, rfl⟩ := hz
    rw [List.mem_range] at hlr
    show G b lr = 0
    rw [hG b hbr (by simpa using hb2) lr hlr]
    rw [if_neg ?_]
    intro hcontra
    have := encode_decode n b lr hbr hlr
    rw [hcontra] at this
    exact hbne this.1.symm
  rw [hmain]
  clear hmain
  have hnsel : n_sel n (cd_of sl₀) =
      sl₀.countP (fun s => !(s == Sel.pass)) := by
    rw [← h0]
    exact n_sel_cd_of sl₀
  have hlr0 : lr_of sl₀ ∈ List.range (2 ^ n_sel n (cd_of sl₀)) := by
    rw [List.mem_range, hnsel]
    exact lr_of_lt sl₀
  have hinner := sum_map_eq_single (fun lr => G (cd_of sl₀) lr)
    (lr_of sl₀) (List.range (2 ^ n_sel n (cd_of sl₀)))
    (List.nodup_range _) hlr0 ?hz2
  case hz2 =>
    intro lr hlr hlrne
    rw [List.mem_range] at hlr
    show G (cd_of sl₀) lr = 0
    rw [hG (cd_of sl₀) hlt hne lr hlr]
    rw [if_neg ?_]
    intro hcontra
    have := encode_decode n (cd_of sl₀) lr hlt hlr
    rw [hcontra] at this
    exact hlrne this.2.symm
  show ((List.range (2 ^ n_sel n (cd_of sl₀))).map
    (fun lr => G (cd_of sl₀) lr)).sum = m
  rw [hinner]
  show G (cd_of sl₀) (lr_of sl₀) = m
  rw [hG (cd_of sl₀) hlt hne (lr_of sl₀)
    (by rw [hnsel]; exact lr_of_lt sl₀)]
  rw [if_pos]
  rw [← h0]
  exact decode_encode sl₀

theorem list_eq_iff_getD {α : Type} (d : α) (l₁ l₂ : List α)
    (h : l₁.length = l₂.length) :
    l₁ = l₂ ↔ ∀ j, j < l₁.length → l₁.getD j d = l₂.getD j d := by
  constructor
  · rintro rfl _ _
    rfl
  · intro hall
    apply List.ext_getElem h
    intro j h1 h2
    have := hall j h1
    rwa [List.getD_eq_getElem _ _ h1, List.getD_eq_getElem _ _ h2] at this

theorem fsel_of_pt_eq_pass_iff (c : DimCalc) (xi : Int) :
    fsel_of_pt c xi = Sel.pass ↔ (c.fcbgn ≤ xi ∧ xi < c.fcend) := by
  unfold fsel_of_pt
  by_cases h1 : xi < c.fcbgn
  · rw [if_pos h1]
    constructor
    · intro h
      simp at h
    · intro h
      omega
  · rw [if_neg h1]
    by_cases h2 : c.fcend ≤ xi
    · rw [if_pos h2]
      constructor
      · intro h
        simp at h
      · intro h
        omega
    · rw [if_neg h2]
      constructor
      · intro _
        omega
      · intro _
        rfl

theorem sel_of_pt_eq_pass_iff (c : DimCalc) (xi : Int) :
    sel_of_pt c xi = Sel.pass ↔ (c.fvbgn ≤ xi ∧ xi < c.fvend) := by
  unfold sel_of_pt
  by_cases h1 : xi < c.fvbgn
  · rw [if_pos h1]
    constructor
    · intro h
      simp at h
    · intro h
      omega
  · rw [if_neg h1]
    by_cases h2 : c.fvend ≤ xi
    · rw [if_pos h2]
      constructor
      · intro h
        simp at h
      · intro h
        omega
    · rw [if_neg h2]
      constructor
      · intro _
        omega
      · intro _
        rfl

theorem calc_dims_length (fi : Bool) (ds : List DimInput) :
    (calc_dims fi ds).length = ds.length := by
  simp only [calc_dims]
  rw [List.length_mapIdx]

theorem calc_dim_vpts (nlanes : Nat) (ptsj : List Int) (d : DimInput) :
    (calc_dim nlanes ptsj d).vpts = d.vpts := by
  rcases calc_dim_eq_cases nlanes ptsj d with ⟨_, heq⟩ | ⟨_, _, heq⟩ |
    ⟨_, _, heq⟩ <;> rw [heq] <;> rfl

theorem calc_dims_getD (fi : Bool) (ds : List DimInput) (j : Nat)
    (hj : j < ds.length) :
    (calc_dims fi ds).getD j cdef0 =
      calc_dim (num_lanes ds) (dim_lane_coords fi (fold_lengths ds) j)
        (ds.getD j ddef0) := by
  simp only [calc_dims]
  rw [List.getD_eq_getElem _ _ (by rw [List.length_mapIdx]; exact hj),
    List.getElem_mapIdx, List.getD_eq_getElem _ _ hj]
  rfl

theorem vpts_of_calc_dims (fi : Bool) (ds : List DimInput) :
    vpts_of (calc_dims fi ds) = fold_lengths ds := by
  unfold vpts_of fold_lengths
  apply List.ext_getElem
  · rw [List.length_map, List.length_map, calc_dims_length]
  · intro j h1 h2
    rw [List.getElem_map, List.getElem_map]
    have hj : j < ds.length := by
      rw [List.length_map] at h2
      exact h2
    have hg : (calc_dims fi ds).getD j cdef0 =
        calc_dim (num_lanes ds) (dim_lane_coords fi (fold_lengths ds) j)
          (ds.getD j ddef0) := calc_dims_getD fi ds j hj
    rw [List.getD_eq_getElem _ _ (by rw [List.length_map] at h1; exact h1),
      List.getD_eq_getElem _ _ hj] at hg
    rw [hg, calc_dim_vpts]

theorem fold_lengths_getD (ds : List DimInput) (j : Nat)
    (hj : j < ds.length) :
    (fold_lengths ds).getD j 0 = (ds.getD j ddef0).vpts := by
  unfold fold_lengths
  exact getD_map_of_lt _ hj ddef0 0

theorem lane_offsets_coord {fi : Bool} {vs x : List Int}
    (hlen : x.length = vs.length) (hv : ∀ v ∈ vs, 0 < v) (j : Nat)
    (hj : j < vs.length) :
    (dim_lane_coords fi vs j).getD
      (idx_of (lane_offsets vs x) (visit_all_points fi vs)) 0 =
      imod_flr (x.getD j 0) (vs.getD j 0) := by
  have hmem : lane_offsets vs x ∈ visit_all_points fi vs :=
    mem_visit_all_points.mpr (lane_offsets_in_box hlen hv)
  have hKlt : idx_of (lane_offsets vs x) (visit_all_points fi vs) <
      fold_num_lanes vs := by
    have := idx_of_lt_length hmem
    rwa [length_visit_all_points] at this
  rw [dim_lane_coords_getD hKlt]
  unfold fold_pt_coord
  rw [getD_idx_of hmem]
  unfold lane_offsets
  exact getD_zipWith _ (by rw [hlen]; exact hj) hj 0 0 0

/-- Bundled per-dim instantiation context for the dims of
`calc_nano_block_opt`. -/
theorem calc_dims_dim_context (fi : Bool) (ds : List DimInput)
    (H : ∀ d ∈ ds, 0 < d.vpts ∧ d.vpts ∣ d.cpts ∧ 0 < d.cpts ∧
      d.bgn ≤ d.dend)
    (x : List Int) (hx : x.length = ds.length) (j : Nat)
    (hj : j < ds.length) :
    (calc_dims fi ds).getD j cdef0 =
      calc_dim (num_lanes ds) (dim_lane_coords fi (fold_lengths ds) j)
        (ds.getD j ddef0) ∧
    (0 < (ds.getD j ddef0).vpts ∧
     (ds.getD j ddef0).vpts ∣ (ds.getD j ddef0).cpts ∧
     0 < (ds.getD j ddef0).cpts ∧
     (ds.getD j ddef0).bgn ≤ (ds.getD j ddef0).dend) ∧
    (dim_lane_coords fi (fold_lengths ds) j).length = num_lanes ds ∧
    idx_of (lane_offsets (fold_lengths ds) x)
      (visit_all_points fi (fold_lengths ds)) < num_lanes ds ∧
    (dim_lane_coords fi (fold_lengths ds) j).getD
      (idx_of (lane_offsets (fold_lengths ds) x)
        (visit_all_points fi (fold_lengths ds))) 0 =
      imod_flr (x.getD j 0) ((ds.getD j ddef0).vpts) := by
  have hdm : ds.getD j ddef0 ∈ ds := by
    rw [List.getD_eq_getElem _ _ hj]
    exact List.getElem_mem hj
  have hvs : ∀ v ∈ fold_lengths ds, 0 < v := by
    intro v hv
    unfold fold_lengths at hv
    rw [List.mem_map] at hv
    obtain ⟨d, hd, rfl⟩ := hv
    exact (H d hd).1
  have hlx : x.length = (fold_lengths ds).length := by
    unfold fold_lengths
    rw [List.length_map]
    exact hx
  have hjv : j < (fold_lengths ds).length := by
    unfold fold_lengths
    rw [List.length_map]
    exact hj
  refine ⟨calc_dims_getD fi ds j hj, H _ hdm, ?_, ?_, ?_⟩
  · rw [length_dim_lane_coords]
    rfl
  · show idx_of (lane_offsets (fold_lengths ds) x)
      (visit_all_points fi (fold_lengths ds)) < num_lanes ds
    unfold num_lanes
    have h5 : lane_offsets (fold_lengths ds) x ∈
        visit_all_points fi (fold_lengths ds) :=
      mem_visit_all_points.mpr (lane_offsets_in_box hlx hvs)
    have h6 := idx_of_lt_length h5
    rwa [length_visit_all_points] at h6
  · rw [lane_offsets_coord hlx hvs j hjv, fold_lengths_getD ds j hj]

theorem sel_list_getD (cs : List DimCalc) (x : List Int) {j : Nat}
    (h1 : j < cs.length) (h2 : j < x.length) :
    (sel_list cs x).getD j Sel.pass =
      sel_of_pt (cs.getD j cdef0) (x.getD j 0) :=
  getD_zipWith sel_of_pt h1 h2 cdef0 0 Sel.pass

theorem fsel_list_getD (cs : List DimCalc) (x : List Int) {j : Nat}
    (h1 : j < cs.length) (h2 : j < x.length) :
    (fsel_list cs x).getD j Sel.pass =
      fsel_of_pt (cs.getD j cdef0) (x.getD j 0) :=
  getD_zipWith fsel_of_pt h1 h2 cdef0 0 Sel.pass

theorem in_nano_block_getD (fi : Bool) (ds : List DimInput)
    (x : List Int) (hx : x.length = ds.length)
    (hblk : in_nano_block (calc_dims fi ds) x = true) (j : Nat)
    (hj : j < ds.length) :
    ((calc_dims fi ds).getD j cdef0).ebgn ≤ x.getD j 0 ∧
      x.getD j 0 < ((calc_dims fi ds).getD j cdef0).eend := by
  have hlen : x.length = (calc_dims fi ds).length := by
    rw [calc_dims_length]
    exact hx
  rw [in_nano_block_iff _ _ hlen, forall₂_iff_getD cdef0 0] at hblk
  exact hblk.2 j (by rw [calc_dims_length]; exact hj)

theorem in_nano_block_of_getD (fi : Bool) (ds : List DimInput)
    (x : List Int) (hx : x.length = ds.length)
    (hall : ∀ j, j < ds.length →
      (((calc_dims fi ds).getD j cdef0).ebgn ≤ x.getD j 0 ∧
       x.getD j 0 < ((calc_dims fi ds).getD j cdef0).eend)) :
    in_nano_block (calc_dims fi ds) x = true := by
  have hlen : x.length = (calc_dims fi ds).length := by
    rw [calc_dims_length]
    exact hx
  rw [in_nano_block_iff _ _ hlen, forall₂_iff_getD cdef0 0]
  exact ⟨by rw [calc_dims_length, hx],
    fun j hj => hall j (by rwa [calc_dims_length] at hj)⟩

/-- The cluster call covers an element iff the element's vector lies in
the cluster range of every dim. -/
theorem nb_cluster_iff (fi : Bool) (ds : List DimInput)
    (H : ∀ d ∈ ds, 0 < d.vpts ∧ d.vpts ∣ d.cpts ∧ 0 < d.cpts ∧
      d.bgn ≤ d.dend)
    (x : List Int) (hx : x.length = ds.length) :
    (call_covers fi (fold_lengths ds) (cluster_call (calc_dims fi ds)) x
      = true) ↔
    (∀ j, j < ds.length →
      (((calc_dims fi ds).getD j cdef0).fcbgn ≤ x.getD j 0 ∧
       x.getD j 0 < ((calc_dims fi ds).getD j cdef0).fcend)) := by
  show in_norm_range (fold_lengths ds) ((calc_dims fi ds).map nfcbgn)
      ((calc_dims fi ds).map nfcend) x = true ↔ _
  rw [← vpts_of_calc_dims fi ds,
    in_norm_range_cluster_iff _ _ (by rw [calc_dims_length]; exact hx),
    forall₂_iff_getD cdef0 0]
  constructor
  · intro h j hj
    obtain ⟨hcd, ⟨hv, hdvd, hcp, hbe⟩, _, _, _⟩ :=
      calc_dims_dim_context fi ds H x hx j hj
    obtain ⟨R1, R2, R3, R4⟩ :=
      calc_dim_range_iffs _ _ _ hv hdvd hcp _ hcd (x.getD j 0)
    exact R2.mp (h.2 j (by rw [calc_dims_length]; exact hj))
  · intro h
    refine ⟨by rw [calc_dims_length, hx], fun j hj => ?_⟩
    have hj2 : j < ds.length := by rwa [calc_dims_length] at hj
    obtain ⟨hcd, ⟨hv, hdvd, hcp, hbe⟩, _, _, _⟩ :=
      calc_dims_dim_context fi ds H x hx j hj2
    obtain ⟨R1, R2, R3, R4⟩ :=
      calc_dim_range_iffs _ _ _ hv hdvd hcp _ hcd (x.getD j 0)
    exact R2.mpr (h j hj2)

theorem nb_cluster_cover_block (fi : Bool) (ds : List DimInput)
    (H : ∀ d ∈ ds, 0 < d.vpts ∧ d.vpts ∣ d.cpts ∧ 0 < d.cpts ∧
      d.bgn ≤ d.dend)
    (x : List Int) (hx : x.length = ds.length)
    (hc : call_covers fi (fold_lengths ds)
      (cluster_call (calc_dims fi ds)) x = true) :
    in_nano_block (calc_dims fi ds) x = true := by
  apply in_nano_block_of_getD fi ds x hx
  intro j hj
  obtain ⟨hcd, ⟨hv, hdvd, hcp, hbe⟩, _, _, _⟩ :=
    calc_dims_dim_context fi ds H x hx j hj
  obtain ⟨W1, W2, W3, W4, W5, W6, W7, W8, W9, W10, W11, W12, W13⟩ :=
    calc_dim_pointwise _ _ _ hv hdvd hcp hbe _ hcd (x.getD j 0)
  have hint := (nb_cluster_iff fi ds H x hx).mp hc j hj
  exact W7 hint.1 hint.2

theorem nb_fv_cover_block (fi : Bool) (ds : List DimInput)
    (H : ∀ d ∈ ds, 0 < d.vpts ∧ d.vpts ∣ d.cpts ∧ 0 < d.cpts ∧
      d.bgn ≤ d.dend)
    (x : List Int) (hx : x.length = ds.length) (sl : List Sel)
    (hsl : sl.length = ds.length)
    (hneed : fv_needed_of (calc_dims fi ds) sl = true)
    (hcov : in_norm_range (vpts_of (calc_dims fi ds))
      (fvb_of (calc_dims fi ds) sl) (fve_of (calc_dims fi ds) sl) x
      = true) :
    in_nano_block (calc_dims fi ds) x = true := by
  have hcsl : (calc_dims fi ds).length = ds.length := calc_dims_length fi ds
  rw [in_norm_range_fv_iff _ _ _ (by rw [hcsl]; exact hsl)
    (by rw [hcsl]; exact hx), forall₂_iff_getD (cdef0, Sel.pass) 0] at hcov
  rw [fv_needed_of_iff _ _ (by rw [hcsl]; exact hsl),
    forall_mem_iff_getD (cdef0, Sel.pass)] at hneed
  apply in_nano_block_of_getD fi ds x hx
  intro j hj
  obtain ⟨hcd, ⟨hv, hdvd, hcp, hbe⟩, _, _, _⟩ :=
    calc_dims_dim_context fi ds H x hx j hj
  obtain ⟨R1, R2, R3, R4⟩ :=
    calc_dim_range_iffs _ _ _ hv hdvd hcp _ hcd (x.getD j 0)
  obtain ⟨W1, W2, W3, W4, W5, W6, W7, W8, W9, W10, W11, W12, W13⟩ :=
    calc_dim_pointwise _ _ _ hv hdvd hcp hbe _ hcd (x.getD j 0)
  have hjz : j < (((calc_dims fi ds).zip sl)).length := by
    rw [List.length_zip]
    omega
  have hcj := hcov.2 j (by rw [List.length_zip]; omega)
  have hfj := hneed j hjz
  rw [getD_zip (by omega) (by omega)] at hcj hfj
  have hcj2 : fv_dim_cond ((calc_dims fi ds).getD j cdef0)
      (sl.getD j Sel.pass) (x.getD j 0) := hcj
  have hfj2 : (sl.getD j Sel.pass = Sel.left →
      ((calc_dims fi ds).getD j cdef0).lf = true) ∧
      (sl.getD j Sel.pass = Sel.right →
      ((calc_dims fi ds).getD j cdef0).rf = true) := hfj
  cases hs : sl.getD j Sel.pass with
  | pass =>
    rw [hs] at hcj2
    exact W7 (R2.mp hcj2).1 (R2.mp hcj2).2
  | left =>
    rw [hs] at hcj2 hfj2
    have hr := R3.mp hcj2
    exact W8 (hfj2.1 rfl) hr.1 hr.2
  | right =>
    rw [hs] at hcj2 hfj2
    have hr := R4.mp hcj2
    exact W9 (hfj2.2 rfl) hr.1 hr.2

theorem nb_pv_cover_block (fi : Bool) (ds : List DimInput)
    (H : ∀ d ∈ ds, 0 < d.vpts ∧ d.vpts ∣ d.cpts ∧ 0 < d.cpts ∧
      d.bgn ≤ d.dend)
    (x : List Int) (hx : x.length = ds.length) (sl : List Sel)
    (hsl : sl.length = ds.length)
    (hneed : pv_needed_of (calc_dims fi ds) sl = true)
    (hcov : in_norm_range (vpts_of (calc_dims fi ds))
      (pvb_of (calc_dims fi ds) sl) (pve_of (calc_dims fi ds) sl) x
      = true)
    (hbit : (pv_mask_of (calc_dims fi ds) sl).testBit
      (idx_of (lane_offsets (fold_lengths ds) x)
        (visit_all_points fi (fold_lengths ds))) = true) :
    in_nano_block (calc_dims fi ds) x = true := by
  have hcsl : (calc_dims fi ds).length = ds.length := calc_dims_length fi ds
  rw [in_norm_range_pv_iff _ _ _ (by rw [hcsl]; exact hsl)
    (by rw [hcsl]; exact hx), forall₂_iff_getD (cdef0, Sel.pass) 0] at hcov
  rw [pv_needed_of_iff _ _ (by rw [hcsl]; exact hsl),
    forall_mem_iff_getD (cdef0, Sel.pass)] at hneed
  rw [pv_mask_of_testBit _ _ _ (by rw [hcsl]; exact hsl)] at hbit
  rw [forall_mem_iff_getD (cdef0, Sel.pass)] at hbit
  apply in_nano_block_of_getD fi ds x hx
  intro j hj
  obtain ⟨hcd, ⟨hv, hdvd, hcp, hbe⟩, hplen, hKlt, hpt⟩ :=
    calc_dims_dim_context fi ds H x hx j hj
  obtain ⟨R1, R2, R3, R4⟩ :=
    calc_dim_range_iffs _ _ _ hv hdvd hcp _ hcd (x.getD j 0)
  obtain ⟨M1, M2⟩ :=
    calc_dim_mask_iffs _ _ _ hv hdvd hcp hbe hplen _ hcd _ hKlt
      (x.getD j 0) hpt
  obtain ⟨W1, W2, W3, W4, W5, W6, W7, W8, W9, W10, W11, W12, W13⟩ :=
    calc_dim_pointwise _ _ _ hv hdvd hcp hbe _ hcd (x.getD j 0)
  obtain ⟨Wa, Wb, Wc, Wd, We, Wf⟩ := W13
  have hjz : j < (((calc_dims fi ds).zip sl)).length := by
    rw [List.length_zip]
    omega
  have hcj := hcov.2 j (by rw [List.length_zip]; omega)
  have hpj := hneed j hjz
  have hbj := hbit.2 j hjz
  rw [getD_zip (by omega) (by omega)] at hcj hpj hbj
  have hcj2 : pv_dim_cond ((calc_dims fi ds).getD j cdef0)
      (sl.getD j Sel.pass) (x.getD j 0) := hcj
  have hbj2 : (sl.getD j Sel.pass = Sel.left →
      (((calc_dims fi ds).getD j cdef0).pmask.testBit
        (idx_of (lane_offsets (fold_lengths ds) x)
          (visit_all_points fi (fold_lengths ds)))) = true) ∧
      (sl.getD j Sel.pass = Sel.right →
      (((calc_dims fi ds).getD j cdef0).rmask.testBit
        (idx_of (lane_offsets (fold_lengths ds) x)
          (visit_all_points fi (fold_lengths ds)))) = true) := hbj
  cases hs : sl.getD j Sel.pass with
  | pass =>
    rw [hs] at hcj2
    exact W10 (R1.mp hcj2).1 (R1.mp hcj2).2
  | left =>
    rw [hs] at hcj2 hbj2
    have hm := M1.mp ⟨hcj2, hbj2.1 rfl⟩
    exact ⟨hm.1, hm.2.2⟩
  | right =>
    rw [hs] at hcj2 hbj2
    have hm := M2.mp ⟨hcj2, hbj2.2 rfl⟩
    exact ⟨by omega, hm.2.1⟩

/-- At a block element, a full-vector boundary part is needed and
covers the element iff its choices are exactly `fsel_list` and the
element's vector is full in every dim. -/
theorem nb_fv_iff (fi : Bool) (ds : List DimInput)
    (H : ∀ d ∈ ds, 0 < d.vpts ∧ d.vpts ∣ d.cpts ∧ 0 < d.cpts ∧
      d.bgn ≤ d.dend)
    (x : List Int) (hx : x.length = ds.length)
    (hblk : in_nano_block (calc_dims fi ds) x = true) (sl : List Sel)
    (hsl : sl.length = ds.length) :
    (fv_needed_of (calc_dims fi ds) sl = true ∧
     in_norm_range (vpts_of (calc_dims fi ds))
       (fvb_of (calc_dims fi ds) sl) (fve_of (calc_dims fi ds) sl) x
       = true) ↔
    (sl = fsel_list (calc_dims fi ds) x ∧
     ∀ j, j < ds.length →
       (((calc_dims fi ds).getD j cdef0).fvbgn ≤ x.getD j 0 ∧
        x.getD j 0 < ((calc_dims fi ds).getD j cdef0).fvend)) := by
  have hcsl := calc_dims_length fi ds
  have hper : ∀ j, j < ds.length →
      (((match sl.getD j Sel.pass with
         | Sel.pass => True
         | Sel.left => ((calc_dims fi ds).getD j cdef0).lf = true
         | Sel.right => ((calc_dims fi ds).getD j cdef0).rf = true) ∧
        fv_dim_cond ((calc_dims fi ds).getD j cdef0)
          (sl.getD j Sel.pass) (x.getD j 0)) ↔
       (((calc_dims fi ds).getD j cdef0).fvbgn ≤ x.getD j 0 ∧
        x.getD j 0 < ((calc_dims fi ds).getD j cdef0).fvend ∧
        sl.getD j Sel.pass =
          fsel_of_pt ((calc_dims fi ds).getD j cdef0) (x.getD j 0))) := by
    intro j hj
    obtain ⟨hcd, ⟨hv, hdvd, hcp, hbe⟩, hplen, hKlt, hpt⟩ :=
      calc_dims_dim_context fi ds H x hx j hj
    obtain ⟨hb1, hb2⟩ := in_nano_block_getD fi ds x hx hblk j hj
    exact (calc_dim_sel_iffs _ _ _ hv hdvd hcp hbe hplen _ hcd _ hKlt
      (x.getD j 0) hpt hb1 hb2).1 (sl.getD j Sel.pass)
  rw [in_norm_range_fv_iff _ _ _ (by rw [hcsl]; exact hsl)
    (by rw [hcsl]; exact hx), forall₂_iff_getD (cdef0, Sel.pass) 0,
    fv_needed_of_iff _ _ (by rw [hcsl]; exact hsl),
    forall_mem_iff_getD (cdef0, Sel.pass)]
  constructor
  · rintro ⟨hneed, hlen2, hcov⟩
    have hres : ∀ j, j < ds.length →
        (((calc_dims fi ds).getD j cdef0).fvbgn ≤ x.getD j 0 ∧
         x.getD j 0 < ((calc_dims fi ds).getD j cdef0).fvend ∧
         sl.getD j Sel.pass =
           fsel_of_pt ((calc_dims fi ds).getD j cdef0) (x.getD j 0)) := by
      intro j hj
      have hjz : j < ((calc_dims fi ds).zip sl).length := by
        rw [List.length_zip]
        omega
      have hcj := hcov j (by omega)
      have hfj := hneed j hjz
      rw [getD_zip (by omega) (by omega)] at hcj hfj
      have hcj2 : fv_dim_cond ((calc_dims fi ds).getD j cdef0)
          (sl.getD j Sel.pass) (x.getD j 0) := hcj
      have hfj2 : (sl.getD j Sel.pass = Sel.left →
          ((calc_dims fi ds).getD j cdef0).lf = true) ∧
          (sl.getD j Sel.pass = Sel.right →
          ((calc_dims fi ds).getD j cdef0).rf = true) := hfj
      have hflag : (match sl.getD j Sel.pass with
          | Sel.pass => True
          | Sel.left => ((calc_dims fi ds).getD j cdef0).lf = true
          | Sel.right => ((calc_dims fi ds).getD j cdef0).rf = true) := by
        cases hs : sl.getD j Sel.pass with
        | pass => trivial
        | left => exact hfj2.1 hs
        | right => exact hfj2.2 hs
      exact (hper j hj).mp ⟨hflag, hcj2⟩
    refine ⟨?_, fun j hj => ⟨(hres j hj).1, (hres j hj).2.1⟩⟩
    rw [list_eq_iff_getD Sel.pass sl (fsel_list (calc_dims fi ds) x)
      (by unfold fsel_list; rw [List.length_zipWith, hcsl, hx, hsl]; simp)]
    intro j hj2
    have hj3 : j < ds.length := by omega
    rw [fsel_list_getD _ _ (by omega) (by omega)]
    exact (hres j hj3).2.2
  · rintro ⟨hslf, hfv⟩
    have hres2 : ∀ j, j < ds.length →
        ((match sl.getD j Sel.pass with
          | Sel.pass => True
          | Sel.left => ((calc_dims fi ds).getD j cdef0).lf = true
          | Sel.right => ((calc_dims fi ds).getD j cdef0).rf = true) ∧
         fv_dim_cond ((calc_dims fi ds).getD j cdef0)
           (sl.getD j Sel.pass) (x.getD j 0)) := by
      intro j hj
      apply (hper j hj).mpr
      refine ⟨(hfv j hj).1, (hfv j hj).2, ?_⟩
      rw [hslf]
      exact fsel_list_getD _ _ (by omega) (by omega)
    constructor
    · intro j hjz
      rw [List.length_zip] at hjz
      have hj : j < ds.length := by omega
      rw [getD_zip (by omega) (by omega)]
      have hh2 : (sl.getD j Sel.pass = Sel.left →
          ((calc_dims fi ds).getD j cdef0).lf = true) ∧
          (sl.getD j Sel.pass = Sel.right →
          ((calc_dims fi ds).getD j cdef0).rf = true) := by
        have hh := (hres2 j hj).1
        cases hs : sl.getD j Sel.pass with
        | pass =>
          exact ⟨fun h => by simp at h, fun h => by simp at h⟩
        | left =>
          rw [hs] at hh
          exact ⟨fun _ => hh, fun h => by simp at h⟩
        | right =>
          rw [hs] at hh
          exact ⟨fun h => by simp at h, fun _ => hh⟩
      exact hh2
    · refine ⟨by rw [List.length_zip, hcsl, hx, hsl]; simp,
        fun j hjz => ?_⟩
      rw [List.length_zip] at hjz
      have hj : j < ds.length := by omega
      rw [getD_zip (by omega) (by omega)]
      exact (hres2 j hj).2

/-- At a block element, a partial-vector boundary part is needed,
covers the element and has the element's lane bit set iff its choices
are exactly `sel_list`. -/
theorem nb_pv_iff (fi : Bool) (ds : List DimInput)
    (H : ∀ d ∈ ds, 0 < d.vpts ∧ d.vpts ∣ d.cpts ∧ 0 < d.cpts ∧
      d.bgn ≤ d.dend) (hlanes : num_lanes ds ≤ 64)
    (x : List Int) (hx : x.length = ds.length)
    (hblk : in_nano_block (calc_dims fi ds) x = true) (sl : List Sel)
    (hsl : sl.length = ds.length) :
    (pv_needed_of (calc_dims fi ds) sl = true ∧
     in_norm_range (vpts_of (calc_dims fi ds))
       (pvb_of (calc_dims fi ds) sl) (pve_of (calc_dims fi ds) sl) x
       = true ∧
     (pv_mask_of (calc_dims fi ds) sl).testBit
       (idx_of (lane_offsets (fold_lengths ds) x)
         (visit_all_points fi (fold_lengths ds))) = true) ↔
    sl = sel_list (calc_dims fi ds) x := by
  have hcsl := calc_dims_length fi ds
  have hper : ∀ j, j < ds.length →
      (((match sl.getD j Sel.pass with
         | Sel.pass => True
         | Sel.left => ((calc_dims fi ds).getD j cdef0).lp = true
         | Sel.right => ((calc_dims fi ds).getD j cdef0).rp = true) ∧
        pv_dim_cond ((calc_dims fi ds).getD j cdef0)
          (sl.getD j Sel.pass) (x.getD j 0) ∧
        (match sl.getD j Sel.pass with
         | Sel.pass => True
         | Sel.left => (((calc_dims fi ds).getD j cdef0).pmask.testBit
             (idx_of (lane_offsets (fold_lengths ds) x)
               (visit_all_points fi (fold_lengths ds)))) = true
         | Sel.right => (((calc_dims fi ds).getD j cdef0).rmask.testBit
             (idx_of (lane_offsets (fold_lengths ds) x)
               (visit_all_points fi (fold_lengths ds)))) = true)) ↔
       sl.getD j Sel.pass =
         sel_of_pt ((calc_dims fi ds).getD j cdef0) (x.getD j 0)) := by
    intro j hj
    obtain ⟨hcd, ⟨hv, hdvd, hcp, hbe⟩, hplen, hKlt, hpt⟩ :=
      calc_dims_dim_context fi ds H x hx j hj
    obtain ⟨hb1, hb2⟩ := in_nano_block_getD fi ds x hx hblk j hj
    exact (calc_dim_sel_iffs _ _ _ hv hdvd hcp hbe hplen _ hcd _ hKlt
      (x.getD j 0) hpt hb1 hb2).2 (sl.getD j Sel.pass)
  have hK64 : idx_of (lane_offsets (fold_lengths ds) x)
      (visit_all_points fi (fold_lengths ds)) < 64 := by
    rcases Nat.eq_zero_or_pos ds.length with hz | hpos
    · have : ds = [] := List.length_eq_zero.mp hz
      subst this
      have hx0 : x = [] := List.length_eq_zero.mp hx
      subst hx0
      cases fi <;> simp [idx_of, visit_all_points, visit_pts_inner_first,
        visit_pts_outer_first, fold_lengths, lane_offsets]
    · obtain ⟨_, _, _, hKlt, _⟩ :=
        calc_dims_dim_context fi ds H x hx 0 hpos
      omega
  rw [in_norm_range_pv_iff _ _ _ (by rw [hcsl]; exact hsl)
    (by rw [hcsl]; exact hx), forall₂_iff_getD (cdef0, Sel.pass) 0,
    pv_needed_of_iff _ _ (by rw [hcsl]; exact hsl),
    forall_mem_iff_getD (cdef0, Sel.pass),
    pv_mask_of_testBit _ _ _ (by rw [hcsl]; exact hsl),
    forall_mem_iff_getD (cdef0, Sel.pass)]
  constructor
  · rintro ⟨hneed, ⟨hlen2, hcov⟩, _, hbit⟩
    rw [list_eq_iff_getD Sel.pass sl (sel_list (calc_dims fi ds) x)
      (by unfold sel_list; rw [List.length_zipWith, hcsl, hx, hsl]; simp)]
    intro j hj2
    have hj : j < ds.length := by omega
    have hjz : j < ((calc_dims fi ds).zip sl).length := by
      rw [List.length_zip]
      omega
    have hcj := hcov j (by omega)
    have hpj := hneed j hjz
    have hbj := hbit j hjz
    rw [getD_zip (by omega) (by omega)] at hcj hpj hbj
    have hcj2 : pv_dim_cond ((calc_dims fi ds).getD j cdef0)
        (sl.getD j Sel.pass) (x.getD j 0) := hcj
    have hpj2 : (sl.getD j Sel.pass = Sel.left →
        ((calc_dims fi ds).getD j cdef0).lp = true) ∧
        (sl.getD j Sel.pass = Sel.right →
        ((calc_dims fi ds).getD j cdef0).rp = true) := hpj
    have hbj2 : (sl.getD j Sel.pass = Sel.left →
        (((calc_dims fi ds).getD j cdef0).pmask.testBit
          (idx_of (lane_offsets (fold_lengths ds) x)
            (visit_all_points fi (fold_lengths ds)))) = true) ∧
        (sl.getD j Sel.pass = Sel.right →
        (((calc_dims fi ds).getD j cdef0).rmask.testBit
          (idx_of (lane_offsets (fold_lengths ds) x)
            (visit_all_points fi (fold_lengths ds)))) = true) := hbj
    have hflag : (match sl.getD j Sel.pass with
        | Sel.pass => True
        | Sel.left => ((calc_dims fi ds).getD j cdef0).lp = true
        | Sel.right => ((calc_dims fi ds).getD j cdef0).rp = true) := by
      cases hs : sl.getD j Sel.pass with
      | pass => trivial
      | left => exact hpj2.1 hs
      | right => exact hpj2.2 hs
    have hmask : (match sl.getD j Sel.pass with
        | Sel.pass => True
        | Sel.left => (((calc_dims fi ds).getD j cdef0).pmask.testBit
            (idx_of (lane_offsets (fold_lengths ds) x)
              (visit_all_points fi (fold_lengths ds)))) = true
        | Sel.right => (((calc_dims fi ds).getD j cdef0).rmask.testBit
            (idx_of (lane_offsets (fold_lengths ds) x)
              (visit_all_points fi (fold_lengths ds)))) = true) := by
      cases hs : sl.getD j Sel.pass with
      | pass => trivial
      | left => exact hbj2.1 hs
      | right => exact hbj2.2 hs
    rw [sel_list_getD _ _ (by omega) (by omega)]
    exact (hper j hj).mp ⟨hflag, hcj2, hmask⟩
  · intro hslf
    have hres2 : ∀ j, j < ds.length →
        ((match sl.getD j Sel.pass with
          | Sel.pass => True
          | Sel.left => ((calc_dims fi ds).getD j cdef0).lp = true
          | Sel.right => ((calc_dims fi ds).getD j cdef0).rp = true) ∧
         pv_dim_cond ((calc_dims fi ds).getD j cdef0)
           (sl.getD j Sel.pass) (x.getD j 0) ∧
         (match sl.getD j Sel.pass with
          | Sel.pass => True
          | Sel.left => (((calc_dims fi ds).getD j cdef0).pmask.testBit
              (idx_of (lane_offsets (fold_lengths ds) x)
                (visit_all_points fi (fold_lengths ds)))) = true
          | Sel.right => (((calc_dims fi ds).getD j cdef0).rmask.testBit
              (idx_of (lane_offsets (fold_lengths ds) x)
                (visit_all_points fi (fold_lengths ds)))) = true)) := by
      intro j hj
      apply (hper j hj).mpr
      rw [hslf]
      exact sel_list_getD _ _ (by omega) (by omega)
    refine ⟨?_, ⟨by rw [List.length_zip, hcsl, hx, hsl]; simp,
      fun j hjz => ?_⟩, hK64, fun j hjz => ?_⟩
    · intro j hjz
      rw [List.length_zip] at hjz
      have hj : j < ds.length := by omega
      rw [getD_zip (by omega) (by omega)]
      have hh2 : (sl.getD j Sel.pass = Sel.left →
          ((calc_dims fi ds).getD j cdef0).lp = true) ∧
          (sl.getD j Sel.pass = Sel.right →
          ((calc_dims fi ds).getD j cdef0).rp = true) := by
        have hh := (hres2 j hj).1
        cases hs : sl.getD j Sel.pass with
        | pass =>
          exact ⟨fun h => by simp at h, fun h => by simp at h⟩
        | left =>
          rw [hs] at hh
          exact ⟨fun _ => hh, fun h => by simp at h⟩
        | right =>
          rw [hs] at hh
          exact ⟨fun h => by simp at h, fun _ => hh⟩
      exact hh2
    · rw [List.length_zip] at hjz
      have hj : j < ds.length := by omega
      rw [getD_zip (by omega) (by omega)]
      exact (hres2 j hj).2.1
    · rw [List.length_zip] at hjz
      have hj : j < ds.length := by omega
      rw [getD_zip (by omega) (by omega)]
      have hh2 : (sl.getD j Sel.pass = Sel.left →
          (((calc_dims fi ds).getD j cdef0).pmask.testBit
            (idx_of (lane_offsets (fold_lengths ds) x)
              (visit_all_points fi (fold_lengths ds)))) = true) ∧
          (sl.getD j Sel.pass = Sel.right →
          (((calc_dims fi ds).getD j cdef0).rmask.testBit
            (idx_of (lane_offsets (fold_lengths ds) x)
              (visit_all_points fi (fold_lengths ds)))) = true) := by
        have hh := (hres2 j hj).2.2
        cases hs : sl.getD j Sel.pass with
        | pass =>
          exact ⟨fun h => by simp at h, fun h => by simp at h⟩
        | left =>
          rw [hs] at hh
          exact ⟨fun _ => hh, fun h => by simp at h⟩
        | right =>
          rw [hs] at hh
          exact ⟨fun h => by simp at h, fun _ => hh⟩
      exact hh2

/-- If every dim retains a cluster element at `x`, `do_clusters` is
still set after the per-dim loop. -/
theorem nb_do_clusters (fi : Bool) (ds : List DimInput)
    (H : ∀ d ∈ ds, 0 < d.vpts ∧ d.vpts ∣ d.cpts ∧ 0 < d.cpts ∧
      d.bgn ≤ d.dend)
    (x : List Int) (hx : x.length = ds.length)
    (hall : ∀ j, j < ds.length →
      (((calc_dims fi ds).getD j cdef0).fcbgn ≤ x.getD j 0 ∧
       x.getD j 0 < ((calc_dims fi ds).getD j cdef0).fcend)) :
    do_clusters (calc_dims fi ds) = true := by
  unfold do_clusters
  rw [List.all_eq_true]
  intro c hcm
  rw [List.mem_iff_getElem] at hcm
  obtain ⟨j, hj, rfl⟩ := hcm
  have hj2 : j < ds.length := by rwa [calc_dims_length] at hj
  obtain ⟨hcd, ⟨hv, hdvd, hcp, hbe⟩, _, _, _⟩ :=
    calc_dims_dim_context fi ds H x hx j hj2
  have hint := hall j hj2
  rw [← List.getD_eq_getElem _ _ hj]
  rw [hcd] at hint ⊢
  rw [calc_dim_clears_eq _ _ _ hv hdvd hcp, Bool.not_not,
    decide_eq_true_eq]
  omega

/-- A dim whose partial-vector choice at a block element is not `pass`
sets `do_outside_clusters`. -/
theorem nb_do_outside_pv (fi : Bool) (ds : List DimInput)
    (H : ∀ d ∈ ds, 0 < d.vpts ∧ d.vpts ∣ d.cpts ∧ 0 < d.cpts ∧
      d.bgn ≤ d.dend)
    (x : List Int) (hx : x.length = ds.length)
    (hblk : in_nano_block (calc_dims fi ds) x = true) (j : Nat)
    (hj : j < ds.length)
    (hsel : sel_of_pt ((calc_dims fi ds).getD j cdef0) (x.getD j 0) ≠
      Sel.pass) :
    do_outside_clusters (calc_dims fi ds) = true := by
  unfold do_outside_clusters
  rw [List.any_eq_true]
  refine ⟨(calc_dims fi ds).getD j cdef0, ?_, ?_⟩
  · rw [List.getD_eq_getElem _ _ (by rw [calc_dims_length]; exact hj)]
    exact List.getElem_mem _
  · obtain ⟨hcd, ⟨hv, hdvd, hcp, hbe⟩, _, _, _⟩ :=
      calc_dims_dim_context fi ds H x hx j hj
    obtain ⟨hb1, hb2⟩ := in_nano_block_getD fi ds x hx hblk j hj
    obtain ⟨W1, W2, W3, W4, W5, W6, W7, W8, W9, W10, W11, W12, W13⟩ :=
      calc_dim_pointwise _ _ _ hv hdvd hcp hbe _ hcd (x.getD j 0)
    have hho : ((calc_dims fi ds).getD j cdef0).has_outside =
        (((calc_dims fi ds).getD j cdef0).lf ||
         ((calc_dims fi ds).getD j cdef0).rf ||
         ((calc_dims fi ds).getD j cdef0).lp ||
         ((calc_dims fi ds).getD j cdef0).rp) := by
      rw [hcd]
      exact calc_dim_has_outside _ _ _
    rw [hho]
    by_cases h1 : x.getD j 0 < ((calc_dims fi ds).getD j cdef0).fvbgn
    · rw [W1 hb1 hb2 h1]
      simp
    · have h2 : ((calc_dims fi ds).getD j cdef0).fvend ≤ x.getD j 0 := by
        unfold sel_of_pt at hsel
        rw [if_neg h1] at hsel
        by_cases h2 : ((calc_dims fi ds).getD j cdef0).fvend ≤ x.getD j 0
        · exact h2
        · rw [if_neg h2] at hsel
          exact absurd rfl hsel
      have h3 : ((calc_dims fi ds).getD j cdef0).fvbgn ≤
          ((calc_dims fi ds).getD j cdef0).fvend :=
        W5 hb1 hb2 (by omega)
      rw [W2 h2 hb2 h3]
      simp

/-- A dim whose full-vector choice at a block element with a full
vector is not `pass` sets `do_outside_clusters`. -/
theorem nb_do_outside_fv (fi : Bool) (ds : List DimInput)
    (H : ∀ d ∈ ds, 0 < d.vpts ∧ d.vpts ∣ d.cpts ∧ 0 < d.cpts ∧
      d.bgn ≤ d.dend)
    (x : List Int) (hx : x.length = ds.length)
    (hblk : in_nano_block (calc_dims fi ds) x = true) (j : Nat)
    (hj : j < ds.length)
    (hfvj : ((calc_dims fi ds).getD j cdef0).fvbgn ≤ x.getD j 0 ∧
      x.getD j 0 < ((calc_dims fi ds).getD j cdef0).fvend)
    (hsel : fsel_of_pt ((calc_dims fi ds).getD j cdef0) (x.getD j 0) ≠
      Sel.pass) :
    do_outside_clusters (calc_dims fi ds) = true := by
  unfold do_outside_clusters
  rw [List.any_eq_true]
  refine ⟨(calc_dims fi ds).getD j cdef0, ?_, ?_⟩
  · rw [List.getD_eq_getElem _ _ (by rw [calc_dims_length]; exact hj)]
    exact List.getElem_mem _
  · obtain ⟨hcd, ⟨hv, hdvd, hcp, hbe⟩, _, _, _⟩ :=
      calc_dims_dim_context fi ds H x hx j hj
    obtain ⟨hb1, hb2⟩ := in_nano_block_getD fi ds x hx hblk j hj
    obtain ⟨W1, W2, W3, W4, W5, W6, W7, W8, W9, W10, W11, W12, W13⟩ :=
      calc_dim_pointwise _ _ _ hv hdvd hcp hbe _ hcd (x.getD j 0)
    have hho : ((calc_dims fi ds).getD j cdef0).has_outside =
        (((calc_dims fi ds).getD j cdef0).lf ||
         ((calc_dims fi ds).getD j cdef0).rf ||
         ((calc_dims fi ds).getD j cdef0).lp ||
         ((calc_dims fi ds).getD j cdef0).rp) := by
      rw [hcd]
      exact calc_dim_has_outside _ _ _
    rw [hho]
    by_cases h1 : x.getD j 0 < ((calc_dims fi ds).getD j cdef0).fcbgn
    · rw [W3 hb1 hb2 hfvj.1 h1]
      simp
    · have h2 : ((calc_dims fi ds).getD j cdef0).fcend ≤ x.getD j 0 := by
        unfold fsel_of_pt at hsel
        rw [if_neg h1] at hsel
        by_cases h2 : ((calc_dims fi ds).getD j cdef0).fcend ≤ x.getD j 0
        · exact h2
        · rw [if_neg h2] at hsel
          exact absurd rfl hsel
      rw [W4 h2 hfvj.2 hb1 hb2]
      simp

theorem nb_K64 (fi : Bool) (ds : List DimInput)
    (H : ∀ d ∈ ds, 0 < d.vpts ∧ d.vpts ∣ d.cpts ∧ 0 < d.cpts ∧
      d.bgn ≤ d.dend) (hlanes : num_lanes ds ≤ 64)
    (x : List Int) (hx : x.length = ds.length) :
    idx_of (lane_offsets (fold_lengths ds) x)
      (visit_all_points fi (fold_lengths ds)) < 64 := by
  rcases Nat.eq_zero_or_pos ds.length with hz | hpos
  · have hds : ds = [] := List.length_eq_zero.mp hz
    subst hds
    have hx0 : x = [] := List.length_eq_zero.mp hx
    subst hx0
    cases fi <;> simp [idx_of, visit_all_points, visit_pts_inner_first,
      visit_pts_outer_first, fold_lengths, lane_offsets]
  · obtain ⟨_, _, _, hKlt, _⟩ := calc_dims_dim_context fi ds H x hx 0 hpos
    omega

/-- Claim C1: for valid inputs (positive fold lengths dividing the
cluster lengths, ordered bounds, at most 64 fold lanes), the set of
generated-kernel calls dispatched by `calc_nano_block_opt` — the
cluster call when `do_clusters` holds plus the boundary-part calls when
`do_outside_clusters` holds — writes every element of the nano-block
exactly once and writes nothing outside it: the number of dispatched
calls covering any point `x` is 1 if `x` is in the block and 0
otherwise. -/
theorem claim_nano_block_partition (fi : Bool) (ds : List DimInput)
    (H : ∀ d ∈ ds, 0 < d.vpts ∧ d.vpts ∣ d.cpts ∧ 0 < d.cpts ∧
      d.bgn ≤ d.dend)
    (hlanes : num_lanes ds ≤ 64)
    (x : List Int) (hx : x.length = ds.length) :
    (dispatched_calls (calc_dims fi ds)).countP
      (fun c => call_covers fi (fold_lengths ds) c x) =
      (if in_nano_block (calc_dims fi ds) x = true then 1 else 0) := by
  have hcsl := calc_dims_length fi ds
  have hK64 := nb_K64 fi ds H hlanes x hx
  have hPfv : ∀ sl : List Sel, (call_covers fi (fold_lengths ds)
      { kind := CallKind.vectors, nbgn := fvb_of (calc_dims fi ds) sl,
        nend := fve_of (calc_dims fi ds) sl, mask := all_ones_mask } x
      = true) ↔
      (in_norm_range (vpts_of (calc_dims fi ds))
        (fvb_of (calc_dims fi ds) sl) (fve_of (calc_dims fi ds) sl) x
        = true) := by
    intro sl
    show (in_norm_range (fold_lengths ds) (fvb_of (calc_dims fi ds) sl)
      (fve_of (calc_dims fi ds) sl) x &&
      all_ones_mask.testBit (idx_of (lane_offsets (fold_lengths ds) x)
        (visit_all_points fi (fold_lengths ds)))) = true ↔ _
    rw [Bool.and_eq_true, all_ones_mask_testBit hK64,
      ← vpts_of_calc_dims fi ds]
    simp
  have hPpv : ∀ sl : List Sel, (call_covers fi (fold_lengths ds)
      { kind := CallKind.vectors, nbgn := pvb_of (calc_dims fi ds) sl,
        nend := pve_of (calc_dims fi ds) sl,
        mask := pv_mask_of (calc_dims fi ds) sl } x = true) ↔
      (in_norm_range (vpts_of (calc_dims fi ds))
        (pvb_of (calc_dims fi ds) sl) (pve_of (calc_dims fi ds) sl) x
        = true ∧
       (pv_mask_of (calc_dims fi ds) sl).testBit
         (idx_of (lane_offsets (fold_lengths ds) x)
           (visit_all_points fi (fold_lengths ds))) = true) := by
    intro sl
    show (in_norm_range (fold_lengths ds) (pvb_of (calc_dims fi ds) sl)
      (pve_of (calc_dims fi ds) sl) x &&
      (pv_mask_of (calc_dims fi ds) sl).testBit
        (idx_of (lane_offsets (fold_lengths ds) x)
          (visit_all_points fi (fold_lengths ds)))) = true ↔ _
    rw [Bool.and_eq_true, ← vpts_of_calc_dims fi ds]
  unfold dispatched_calls
  rw [List.countP_append, countP_opt_singleton]
  by_cases hblk : in_nano_block (calc_dims fi ds) x = true
  · rw [if_pos hblk]
    have hlensl : (sel_list (calc_dims fi ds) x).length = ds.length := by
      unfold sel_list
      rw [List.length_zipWith, hcsl, hx]
      simp
    have hlenf : (fsel_list (calc_dims fi ds) x).length = ds.length := by
      unfold fsel_list
      rw [List.length_zipWith, hcsl, hx]
      simp
    by_cases hsl_pass : ∀ j, j < ds.length →
        sel_of_pt ((calc_dims fi ds).getD j cdef0) (x.getD j 0) = Sel.pass
    · have hfvall : ∀ j, j < ds.length →
          (((calc_dims fi ds).getD j cdef0).fvbgn ≤ x.getD j 0 ∧
           x.getD j 0 < ((calc_dims fi ds).getD j cdef0).fvend) :=
        fun j hj => (sel_of_pt_eq_pass_iff _ _).mp (hsl_pass j hj)
      have hpv_zero : ∀ cd, cd < 2 ^ ds.length → cd ≠ 0 → ∀ lr,
          lr < 2 ^ n_sel ds.length cd →
          ¬(pv_needed_of (calc_dims fi ds) (sels_of cd lr ds.length)
              = true ∧
            call_covers fi (fold_lengths ds)
              { kind := CallKind.vectors,
                nbgn := pvb_of (calc_dims fi ds) (sels_of cd lr ds.length),
                nend := pve_of (calc_dims fi ds) (sels_of cd lr ds.length),
                mask := pv_mask_of (calc_dims fi ds)
                  (sels_of cd lr ds.length) } x = true) := by
        intro cd hcd hcdne lr hlr
        rintro ⟨hneed, hcall⟩
        rw [hPpv (sels_of cd lr ds.length)] at hcall
        have hslen := length_sels_of cd lr ds.length
        have hh := (nb_pv_iff fi ds H hlanes x hx hblk _ hslen).mp
          ⟨hneed, hcall.1, hcall.2⟩
        have henc := encode_decode ds.length cd lr hcd hlr
        have hallpass : ∀ s ∈ sels_of cd lr ds.length, s = Sel.pass := by
          rw [hh]
          intro sElem hsm
          rw [List.mem_iff_getElem] at hsm
          obtain ⟨j, hjl, rfl⟩ := hsm
          have hj4 : j < ds.length := by rw [hlensl] at hjl; exact hjl
          rw [← List.getD_eq_getElem _ Sel.pass hjl,
            sel_list_getD _ _ (by omega) (by omega)]
          exact hsl_pass j hj4
        have hcd0 : cd_of (sels_of cd lr ds.length) = 0 :=
          (cd_of_eq_zero_iff _).mpr hallpass
        rw [henc.1] at hcd0
        exact hcdne hcd0
      by_cases hfsl_pass : ∀ j, j < ds.length →
          fsel_of_pt ((calc_dims fi ds).getD j cdef0) (x.getD j 0) =
            Sel.pass
      · have hint : ∀ j, j < ds.length →
            (((calc_dims fi ds).getD j cdef0).fcbgn ≤ x.getD j 0 ∧
             x.getD j 0 < ((calc_dims fi ds).getD j cdef0).fcend) :=
          fun j hj => (fsel_of_pt_eq_pass_iff _ _).mp (hfsl_pass j hj)
        have hdc : do_clusters (calc_dims fi ds) = true :=
          nb_do_clusters fi ds H x hx hint
        have hclu := (nb_cluster_iff fi ds H x hx).mpr hint
        rw [if_pos ⟨hdc, hclu⟩]
        have hbnd : (if do_outside_clusters (calc_dims fi ds) = true then
            boundary_calls (calc_dims fi ds) else []).countP
            (fun c => call_covers fi (fold_lengths ds) c x) = 0 := by
          by_cases hdo : do_outside_clusters (calc_dims fi ds) = true
          · rw [if_pos hdo, boundary_calls_countP, hcsl]
            apply boundary_sum_zero
            intro cd hcd hcdne lr hlr
            rw [part_calls_countP, hcsl]
            have hslen := length_sels_of cd lr ds.length
            have hf1 : ¬(fv_needed_of (calc_dims fi ds)
                (sels_of cd lr ds.length) = true ∧
                call_covers fi (fold_lengths ds)
                  { kind := CallKind.vectors,
                    nbgn := fvb_of (calc_dims fi ds)
                      (sels_of cd lr ds.length),
                    nend := fve_of (calc_dims fi ds)
                      (sels_of cd lr ds.length),
                    mask := all_ones_mask } x = true) := by
              rintro ⟨hneed, hcall⟩
              rw [hPfv (sels_of cd lr ds.length)] at hcall
              have hh := (nb_fv_iff fi ds H x hx hblk _ hslen).mp
                ⟨hneed, hcall⟩
              have henc := encode_decode ds.length cd lr hcd hlr
              have hallpass : ∀ s ∈ sels_of cd lr ds.length,
                  s = Sel.pass := by
                rw [hh.1]
                intro sElem hsm
                rw [List.mem_iff_getElem] at hsm
                obtain ⟨j, hjl, rfl⟩ := hsm
                have hj4 : j < ds.length := by
                  rw [hlenf] at hjl
                  exact hjl
                rw [← List.getD_eq_getElem _ Sel.pass hjl,
                  fsel_list_getD _ _ (by omega) (by omega)]
                exact hfsl_pass j hj4
              have hcd0 : cd_of (sels_of cd lr ds.length) = 0 :=
                (cd_of_eq_zero_iff _).mpr hallpass
              rw [henc.1] at hcd0
              exact hcdne hcd0
            rw [if_neg hf1, if_neg (hpv_zero cd hcd hcdne lr hlr)]
          · rw [if_neg hdo]
            rfl
        rw [hbnd]
      · push_neg at hfsl_pass
        obtain ⟨j0, hj0, hfne⟩ := hfsl_pass
        have hnclu : call_covers fi (fold_lengths ds)
            (cluster_call (calc_dims fi ds)) x = false := by
          cases hq : call_covers fi (fold_lengths ds)
              (cluster_call (calc_dims fi ds)) x with
          | false => rfl
          | true =>
            exfalso
            have hint := (nb_cluster_iff fi ds H x hx).mp hq j0 hj0
            exact hfne ((fsel_of_pt_eq_pass_iff _ _).mpr hint)
        have hs1 : ¬(do_clusters (calc_dims fi ds) = true ∧
            call_covers fi (fold_lengths ds)
              (cluster_call (calc_dims fi ds)) x = true) := by
          rintro ⟨_, h2⟩
          rw [h2] at hnclu
          simp at hnclu
        rw [if_neg hs1]
        have hdo : do_outside_clusters (calc_dims fi ds) = true :=
          nb_do_outside_fv fi ds H x hx hblk j0 hj0 (hfvall j0 hj0) hfne
        rw [if_pos hdo, boundary_calls_countP, hcsl, Nat.zero_add]
        have hne0 : cd_of (fsel_list (calc_dims fi ds) x) ≠ 0 := by
          intro h0
          have hall := (cd_of_eq_zero_iff _).mp h0
          have hmem0 : (fsel_list (calc_dims fi ds) x).getD j0 Sel.pass ∈
              fsel_list (calc_dims fi ds) x := by
            rw [List.getD_eq_getElem _ _ (by rw [hlenf]; exact hj0)]
            exact List.getElem_mem _
          have h5 := hall _ hmem0
          rw [fsel_list_getD _ _ (by omega) (by omega)] at h5
          exact hfne h5
        have hG : ∀ cd, cd < 2 ^ ds.length → cd ≠ 0 → ∀ lr,
            lr < 2 ^ n_sel ds.length cd →
            (part_calls (calc_dims fi ds) cd lr).countP
              (fun c => call_covers fi (fold_lengths ds) c x) =
            if sels_of cd lr ds.length = fsel_list (calc_dims fi ds) x
              then 1 else 0 := by
          intro cd hcd hcdne lr hlr
          rw [part_calls_countP, hcsl]
          have hslen := length_sels_of cd lr ds.length
          rw [if_neg (hpv_zero cd hcd hcdne lr hlr), Nat.add_zero]
          by_cases hfv : sels_of cd lr ds.length =
              fsel_list (calc_dims fi ds) x
          · have hcnd := (nb_fv_iff fi ds H x hx hblk _ hslen).mpr
              ⟨hfv, hfvall⟩
            rw [if_pos ⟨hcnd.1, (hPfv _).mpr hcnd.2⟩, if_pos hfv]
          · have hncnd : ¬(fv_needed_of (calc_dims fi ds)
                (sels_of cd lr ds.length) = true ∧
                call_covers fi (fold_lengths ds)
                  { kind := CallKind.vectors,
                    nbgn := fvb_of (calc_dims fi ds)
                      (sels_of cd lr ds.length),
                    nend := fve_of (calc_dims fi ds)
                      (sels_of cd lr ds.length),
                    mask := all_ones_mask } x = true) := by
              rintro ⟨hneed, hcall⟩
              rw [hPfv (sels_of cd lr ds.length)] at hcall
              exact hfv ((nb_fv_iff fi ds H x hx hblk _ hslen).mp
                ⟨hneed, hcall⟩).1
            rw [if_neg hncnd, if_neg hfv]
        exact boundary_sum_single ds.length
          (fun cd lr => (part_calls (calc_dims fi ds) cd lr).countP
            (fun c => call_covers fi (fold_lengths ds) c x))
          (fsel_list (calc_dims fi ds) x) hlenf hne0 1 hG
    · push_neg at hsl_pass
      obtain ⟨j0, hj0, hsne⟩ := hsl_pass
      have hnfv : ¬(((calc_dims fi ds).getD j0 cdef0).fvbgn ≤
          x.getD j0 0 ∧
          x.getD j0 0 < ((calc_dims fi ds).getD j0 cdef0).fvend) :=
        fun h => hsne ((sel_of_pt_eq_pass_iff _ _).mpr h)
      have hnclu : call_covers fi (fold_lengths ds)
          (cluster_call (calc_dims fi ds)) x = false := by
        cases hq : call_covers fi (fold_lengths ds)
            (cluster_call (calc_dims fi ds)) x with
        | false => rfl
        | true =>
          exfalso
          have hint := (nb_cluster_iff fi ds H x hx).mp hq j0 hj0
          obtain ⟨hcd, ⟨hv, hdvd, hcp, hbe⟩, _, _, _⟩ :=
            calc_dims_dim_context fi ds H x hx j0 hj0
          obtain ⟨hb1, hb2⟩ := in_nano_block_getD fi ds x hx hblk j0 hj0
          obtain ⟨W1, W2, W3, W4, W5, W6, W7, W8, W9, W10, W11, W12,
            W13⟩ := calc_dim_pointwise _ _ _ hv hdvd hcp hbe _ hcd
            (x.getD j0 0)
          exact hnfv (W6 hb1 hb2 (Or.inl hint))
      have hs1 : ¬(do_clusters (calc_dims fi ds) = true ∧
          call_covers fi (fold_lengths ds)
            (cluster_call (calc_dims fi ds)) x = true) := by
        rintro ⟨_, h2⟩
        rw [h2] at hnclu
        simp at hnclu
      rw [if_neg hs1]
      have hdo : do_outside_clusters (calc_dims fi ds) = true :=
        nb_do_outside_pv fi ds H x hx hblk j0 hj0 hsne
      rw [if_pos hdo, boundary_calls_countP, hcsl, Nat.zero_add]
      have hne0 : cd_of (sel_list (calc_dims fi ds) x) ≠ 0 := by
        intro h0
        have hall := (cd_of_eq_zero_iff _).mp h0
        have hmem0 : (sel_list (calc_dims fi ds) x).getD j0 Sel.pass ∈
            sel_list (calc_dims fi ds) x := by
          rw [List.getD_eq_getElem _ _ (by rw [hlensl]; exact hj0)]
          exact List.getElem_mem _
        have h5 := hall _ hmem0
        rw [sel_list_getD _ _ (by omega) (by omega)] at h5
        exact hsne h5
      have hG : ∀ cd, cd < 2 ^ ds.length → cd ≠ 0 → ∀ lr,
          lr < 2 ^ n_sel ds.length cd →
          (part_calls (calc_dims fi ds) cd lr).countP
            (fun c => call_covers fi (fold_lengths ds) c x) =
          if sels_of cd lr ds.length = sel_list (calc_dims fi ds) x
            then 1 else 0 := by
        intro cd hcd hcdne lr hlr
        rw [part_calls_countP, hcsl]
        have hslen := length_sels_of cd lr ds.length
        have hf1 : ¬(fv_needed_of (calc_dims fi ds)
            (sels_of cd lr ds.length) = true ∧
            call_covers fi (fold_lengths ds)
              { kind := CallKind.vectors,
                nbgn := fvb_of (calc_dims fi ds)
                  (sels_of cd lr ds.length),
                nend := fve_of (calc_dims fi ds)
                  (sels_of cd lr ds.length),
                mask := all_ones_mask } x = true) := by
          rintro ⟨hneed, hcall⟩
          rw [hPfv (sels_of cd lr ds.length)] at hcall
          have hh := (nb_fv_iff fi ds H x hx hblk _ hslen).mp
            ⟨hneed, hcall⟩
          exact hnfv (hh.2 j0 hj0)
        rw [if_neg hf1, Nat.zero_add]
        by_cases hpv : sels_of cd lr ds.length =
            sel_list (calc_dims fi ds) x
        · have hh := (nb_pv_iff fi ds H hlanes x hx hblk _ hslen).mpr hpv
          rw [if_pos ⟨hh.1, (hPpv _).mpr ⟨hh.2.1, hh.2.2⟩⟩, if_pos hpv]
        · have hncnd : ¬(pv_needed_of (calc_dims fi ds)
              (sels_of cd lr ds.length) = true ∧
              call_covers fi (fold_lengths ds)
                { kind := CallKind.vectors,
                  nbgn := pvb_of (calc_dims fi ds)
                    (sels_of cd lr ds.length),
                  nend := pve_of (calc_dims fi ds)
                    (sels_of cd lr ds.length),
                  mask := pv_mask_of (calc_dims fi ds)
                    (sels_of cd lr ds.length) } x = true) := by
            rintro ⟨hneed, hcall⟩
            rw [hPpv (sels_of cd lr ds.length)] at hcall
            exact hpv ((nb_pv_iff fi ds H hlanes x hx hblk _ hslen).mp
              ⟨hneed, hcall.1, hcall.2⟩)
          rw [if_neg hncnd, if_neg hpv]
      exact boundary_sum_single ds.length
        (fun cd lr => (part_calls (calc_dims fi ds) cd lr).countP
          (fun c => call_covers fi (fold_lengths ds) c x))
        (sel_list (calc_dims fi ds) x) hlensl hne0 1 hG
  · rw [if_neg hblk]
    have hs1 : ¬(do_clusters (calc_dims fi ds) = true ∧
        call_covers fi (fold_lengths ds)
          (cluster_call (calc_dims fi ds)) x = true) := by
      rintro ⟨_, h2⟩
      exact hblk (nb_cluster_cover_block fi ds H x hx h2)
    rw [if_neg hs1, Nat.zero_add]
    by_cases hdo : do_outside_clusters (calc_dims fi ds) = true
    · rw [if_pos hdo, boundary_calls_countP, hcsl]
      apply boundary_sum_zero
      intro cd hcd hcdne lr hlr
      rw [part_calls_countP, hcsl]
      have hslen := length_sels_of cd lr ds.length
      have hf1 : ¬(fv_needed_of (calc_dims fi ds)
          (sels_of cd lr ds.length) = true ∧
          call_covers fi (fold_lengths ds)
            { kind := CallKind.vectors,
              nbgn := fvb_of (calc_dims fi ds) (sels_of cd lr ds.length),
              nend := fve_of (calc_dims fi ds) (sels_of cd lr ds.length),
              mask := all_ones_mask } x = true) := by
        rintro ⟨hneed, hcall⟩
        rw [hPfv (sels_of cd lr ds.length)] at hcall
        exact hblk (nb_fv_cover_block fi ds H x hx _ hslen hneed hcall)
      have hf2 : ¬(pv_needed_of (calc_dims fi ds)
          (sels_of cd lr ds.length) = true ∧
          call_covers fi (fold_lengths ds)
            { kind := CallKind.vectors,
              nbgn := pvb_of (calc_dims fi ds) (sels_of cd lr ds.length),
              nend := pve_of (calc_dims fi ds) (sels_of cd lr ds.length),
              mask := pv_mask_of (calc_dims fi ds)
                (sels_of cd lr ds.length) } x = true) := by
        rintro ⟨hneed, hcall⟩
        rw [hPpv (sels_of cd lr ds.length)] at hcall
        exact hblk (nb_pv_cover_block fi ds H x hx _ hslen hneed
          hcall.1 hcall.2)
      rw [if_neg hf1, if_neg hf2]
    · rw [if_neg hdo]
      rfl

theorem claim_nano_block_partition_witness :
    (∀ d ∈ [DimInput.mk 0 4 8 1 30], 0 < d.vpts ∧ d.vpts ∣ d.cpts ∧
      0 < d.cpts ∧ d.bgn ≤ d.dend) ∧
    num_lanes [DimInput.mk 0 4 8 1 30] ≤ 64 ∧
    [(5 : Int)].length = [DimInput.mk 0 4 8 1 30].length ∧
    (dispatched_calls (calc_dims true [DimInput.mk 0 4 8 1 30])).countP
      (fun c => call_covers true (fold_lengths [DimInput.mk 0 4 8 1 30])
        c [(5 : Int)]) =
      (if in_nano_block (calc_dims true [DimInput.mk 0 4 8 1 30])
        [(5 : Int)] = true then 1 else 0) :=
  ⟨by decide, by decide, rfl,
   claim_nano_block_partition true [DimInput.mk 0 4 8 1 30] (by decide)
     (by decide) [(5 : Int)] rfl⟩

end Theorems

end YaskSpec
